import Mathlib

/-! Factored phrases of the Moses decoder (`moses/src/Phrase.cpp`).

A shallow embedding of `Moses::Phrase` and of the operations of `Phrase.cpp`,
followed by the properties established for them.

Conventions of the embedding

* `const Factor*` is an interned identity or `NULL`: `Option Factor`, with
  `none` for `NULL`; two factors are equal iff they are the same identity.
* `FactorType` ranges over the `MAX_NUM_FACTORS` slots of a `Word`; the bound
  comes from `TypeDef.h`, which is not part of the sources at hand, so it is a
  parameter of the whole development.
* A failed `CHECK`, an `abort()` and an access outside a `std::vector` are
  failures: the operation returns `none`.
* The counting loops `for (pos = 0; pos < size; pos++)` are folds over
  `List.range size`, in the `Option` monad where the body can fail; a loop
  that leaves by `return` is a recursion over the positions left.
* `Word::Compare`, the factor collection and the tokenizers of `util/` are not
  part of the sources at hand: the first two are parameters of the operations
  that call them, the tokenizers are modelled from the specification.
-/

namespace Moses

/-- Interned identity of a factor string (the address of the `Factor` object). -/
abbrev Factor := Nat

/-- Strings are handled as lists of characters (`std::string`, `StringPiece`). -/
abbrev Str := List Char

/-- Index of a factor slot of a `Word`: `FactorType`, below `MAX_NUM_FACTORS`. -/
abbrev FactorType (MAX_NUM_FACTORS : Nat) := Fin MAX_NUM_FACTORS

/-- Modelled from the spec: `Word` (`Word.h` is not part of the sources at hand), a fixed-size
array with one slot per factor type, each slot empty or holding a factor, plus the
non-terminal flag. -/
structure Word (MAX_NUM_FACTORS : Nat) where
  m_factorArray : List (Option Factor)
  m_isNonTerminal : Bool
  size_eq : m_factorArray.length = MAX_NUM_FACTORS
  deriving DecidableEq

namespace Word

variable {MAX_NUM_FACTORS : Nat}

/-- The default constructor `Word()`: every slot `NULL`, terminal. -/
def empty : Word MAX_NUM_FACTORS :=
  ⟨List.replicate MAX_NUM_FACTORS none, false, List.length_replicate _ _⟩

/-- Reading `word[factorType]`. -/
def GetFactor (w : Word MAX_NUM_FACTORS) (factorType : FactorType MAX_NUM_FACTORS) :
    Option Factor :=
  w.m_factorArray.get ⟨factorType.1, w.size_eq.symm ▸ factorType.2⟩

/-- Writing `word[factorType] = factor`, `Word::SetFactor`. -/
def SetFactor (w : Word MAX_NUM_FACTORS) (factorType : FactorType MAX_NUM_FACTORS)
    (factor : Option Factor) : Word MAX_NUM_FACTORS :=
  { w with
    m_factorArray := w.m_factorArray.set factorType.1 factor
    size_eq := (List.length_set _ _ _).trans w.size_eq }

/-- The method `IsNonTerminal()`. -/
def IsNonTerminal (w : Word MAX_NUM_FACTORS) : Bool := w.m_isNonTerminal

end Word

/-- Three-way lexicographic comparison of two sequences position by position: the result
at the first position where `cmp` is not `0`, and `0` when there is none. -/
def lexCompare {α : Type} (cmp : α → α → Int) : List α → List α → Int
  | x :: xs, y :: ys => if cmp x y ≠ 0 then cmp x y else lexCompare cmp xs ys
  | _, _ => 0

/-- Modelled from the spec: the order of two slots in `Word::Compare` (`Word.cpp` is not part of
the sources at hand): empty before any value, values by the order of their interned
identities. -/
def slotCompare (a b : Option Factor) : Int :=
  match a, b with
  | none, none => 0
  | none, some _ => -1
  | some _, none => 1
  | some x, some y => if x < y then -1 else if y < x then 1 else 0

/-- Modelled from the spec: `Word::Compare` (`Word.cpp` is not part of the sources at hand): two
words are ordered by factor type index, empty before any value, else by the order of the
interned identities. -/
def Word.Compare {MAX_NUM_FACTORS : Nat} (a b : Word MAX_NUM_FACTORS) : Int :=
  lexCompare slotCompare a.m_factorArray b.m_factorArray

/-- A word comparison that orders non-terminals before terminals and words of one kind by
`Word.Compare`; it tells any two different words apart. -/
def Word.CompareKindFirst {MAX_NUM_FACTORS : Nat} (a b : Word MAX_NUM_FACTORS) : Int :=
  if a.IsNonTerminal ≠ b.IsNonTerminal then (if a.IsNonTerminal then -1 else 1)
  else Word.Compare a b

/-- The class `Phrase`: the vector `m_words` and the context-count map `m_context`
(a `std::map` from strings to counts, kept as an association list in insertion order of
its keys). -/
structure Phrase (MAX_NUM_FACTORS : Nat) where
  m_words : List (Word MAX_NUM_FACTORS)
  m_context : List (Str × Int) := []
  deriving DecidableEq

namespace Phrase

variable {MAX_NUM_FACTORS : Nat}

/-- The constructor `Phrase()`. -/
def empty : Phrase MAX_NUM_FACTORS := ⟨[], []⟩

/-- The method `GetSize()`: `m_words.size()`. -/
def GetSize (p : Phrase MAX_NUM_FACTORS) : Nat := p.m_words.length

/-- The method `GetWord(pos)`: `m_words[pos]`, a failure outside the vector. -/
def GetWord (p : Phrase MAX_NUM_FACTORS) (pos : Nat) : Option (Word MAX_NUM_FACTORS) :=
  p.m_words[pos]?

/-- The method `GetFactor(pos, factorType)`: the slot of `m_words[pos]`; the outer
`Option` is the bounds failure, the inner one the `NULL` pointer. -/
def GetFactor (p : Phrase MAX_NUM_FACTORS) (pos : Nat)
    (factorType : FactorType MAX_NUM_FACTORS) : Option (Option Factor) :=
  (p.GetWord pos).map (fun w => w.GetFactor factorType)

/-- The method `SetFactor(pos, factorType, factor)`: overwrite one slot of
`m_words[pos]`. -/
def SetFactor (p : Phrase MAX_NUM_FACTORS) (pos : Nat)
    (factorType : FactorType MAX_NUM_FACTORS) (factor : Option Factor) :
    Option (Phrase MAX_NUM_FACTORS) :=
  (p.GetWord pos).map
    (fun w => { p with m_words := p.m_words.set pos (w.SetFactor factorType factor) })

/-- `Phrase::MergeFactors(const Phrase &copy)`, lines 59-72: at every position and for
every factor type below `MAX_NUM_FACTORS`, a non-`NULL` factor of `copy` is written into
this phrase. -/
def MergeFactors (self copy : Phrase MAX_NUM_FACTORS) : Option (Phrase MAX_NUM_FACTORS) :=
  if self.GetSize = copy.GetSize then
    (List.range self.GetSize).foldlM
      (fun acc currPos =>
        (List.finRange MAX_NUM_FACTORS).foldlM
          (fun acc2 factorType =>
            (copy.GetFactor currPos factorType).bind fun factor =>
              if factor ≠ none then acc2.SetFactor currPos factorType factor
              else some acc2)
          acc)
      self
  else none

/-- `Phrase::MergeFactors(const Phrase &copy, FactorType factorType)`, lines 74-79: at
every position the slot `factorType` of `copy` is written into this phrase. -/
def MergeFactors_factorType (self copy : Phrase MAX_NUM_FACTORS)
    (factorType : FactorType MAX_NUM_FACTORS) : Option (Phrase MAX_NUM_FACTORS) :=
  if self.GetSize = copy.GetSize then
    (List.range self.GetSize).foldlM
      (fun acc currPos =>
        (copy.GetFactor currPos factorType).bind fun factor =>
          acc.SetFactor currPos factorType factor)
      self
  else none

/-- `Phrase::MergeFactors(const Phrase &copy, const std::vector<FactorType>& factorVec)`,
lines 81-89: at every position, for every factor type of `factorVec` in turn, the slot of
`copy` is written into this phrase. -/
def MergeFactors_factorVec (self copy : Phrase MAX_NUM_FACTORS)
    (factorVec : List (FactorType MAX_NUM_FACTORS)) : Option (Phrase MAX_NUM_FACTORS) :=
  if self.GetSize = copy.GetSize then
    (List.range self.GetSize).foldlM
      (fun acc currPos =>
        factorVec.foldlM
          (fun acc2 i =>
            (copy.GetFactor currPos i).bind fun factor =>
              acc2.SetFactor currPos i factor)
          acc)
      self
  else none

/-- `Phrase::IsCompatible(const Phrase &inputPhrase)`, lines 300-320: `false` for
different sizes; otherwise `false` at the first slot where both phrases hold a factor and
the two factors differ, `true` when there is no such slot. -/
def IsCompatible (self inputPhrase : Phrase MAX_NUM_FACTORS) : Option Bool :=
  if inputPhrase.GetSize ≠ self.GetSize then some false
  else
    (List.range self.GetSize).allM fun currPos =>
      (List.finRange MAX_NUM_FACTORS).allM fun factorType =>
        (self.GetFactor currPos factorType).bind fun thisFactor =>
          (inputPhrase.GetFactor currPos factorType).bind fun inputFactor =>
            some (!(thisFactor ≠ none && inputFactor ≠ none && thisFactor ≠ inputFactor))

/-- `Phrase::IsCompatible(const Phrase &inputPhrase, FactorType factorType)`, lines
322-332: `false` for different sizes; otherwise `false` at the first position where the two
slots `factorType` differ. -/
def IsCompatible_factorType (self inputPhrase : Phrase MAX_NUM_FACTORS)
    (factorType : FactorType MAX_NUM_FACTORS) : Option Bool :=
  if inputPhrase.GetSize ≠ self.GetSize then some false
  else
    (List.range self.GetSize).allM fun currPos =>
      (self.GetFactor currPos factorType).bind fun thisFactor =>
        (inputPhrase.GetFactor currPos factorType).bind fun inputFactor =>
          some (!(thisFactor ≠ inputFactor))

/-- `Phrase::IsCompatible(const Phrase &inputPhrase, const std::vector<FactorType>&
factorVec)`, lines 334-347: `false` for different sizes; otherwise `false` at the first
position and factor type of `factorVec` where the two slots differ. -/
def IsCompatible_factorVec (self inputPhrase : Phrase MAX_NUM_FACTORS)
    (factorVec : List (FactorType MAX_NUM_FACTORS)) : Option Bool :=
  if inputPhrase.GetSize ≠ self.GetSize then some false
  else
    (List.range self.GetSize).allM fun currPos =>
      factorVec.allM fun i =>
        (self.GetFactor currPos i).bind fun thisFactor =>
          (inputPhrase.GetFactor currPos i).bind fun inputFactor =>
            some (!(thisFactor ≠ inputFactor))

/-- The loop of `Phrase::Compare`, lines 254-261, over the positions still to visit: the
first non-zero word comparison is returned. -/
def compareLoop (wordCompare : Word MAX_NUM_FACTORS → Word MAX_NUM_FACTORS → Int)
    (self other : Phrase MAX_NUM_FACTORS) : List Nat → Option Int
  | [] => some 0
  | pos :: rest =>
    (self.GetWord pos).bind fun thisWord =>
      (other.GetWord pos).bind fun otherWord =>
        let ret := wordCompare thisWord otherWord
        if ret ≠ 0 then some ret else compareLoop wordCompare self other rest

/-- `Phrase::Compare(const Phrase &other)`, lines 243-264, with `Word::Compare` as the
parameter `wordCompare`: shorter phrases first, then the first position whose words
compare unequal. -/
def Compare (wordCompare : Word MAX_NUM_FACTORS → Word MAX_NUM_FACTORS → Int)
    (self other : Phrase MAX_NUM_FACTORS) : Option Int :=
  let thisSize := self.GetSize
  let compareSize := other.GetSize
  if thisSize ≠ compareSize then
    some (if thisSize < compareSize then -1 else 1)
  else compareLoop wordCompare self other (List.range thisSize)

/-- `Phrase::AddWord()`, lines 128-132, followed by the assignment of `word` to the
reference it returns. -/
def AddWord (p : Phrase MAX_NUM_FACTORS) (word : Word MAX_NUM_FACTORS) :
    Phrase MAX_NUM_FACTORS :=
  { p with m_words := p.m_words ++ [word] }

end Phrase

/-- Number of values of `size_t`. -/
def SIZE_T_RANGE : Nat := 2 ^ 64

/-- Modelled from the spec: `WordsRange` (`WordsRange.h` is not part of the sources at hand), the
inclusive position range `[start, end]`. -/
structure WordsRange where
  m_startPos : Nat
  m_endPos : Nat
  deriving DecidableEq

namespace WordsRange

/-- The method `GetStartPos()`. -/
def GetStartPos (r : WordsRange) : Nat := r.m_startPos

/-- The method `GetEndPos()`. -/
def GetEndPos (r : WordsRange) : Nat := r.m_endPos

end WordsRange

namespace Phrase

variable {MAX_NUM_FACTORS : Nat}

/-- `Phrase::GetSubString(const WordsRange &wordsRange)`, lines 92-102: the words at the
positions `GetStartPos() .. GetEndPos()`, both included, appended one by one to a new
phrase (the capacity reserved for it from `GetNumWordsCovered()` has no effect on the
result). The positions visited are `startPos, startPos + 1, ...` as long as
`currPos <= endPos`; the first one outside `m_words` is a failure. -/
def GetSubString (self : Phrase MAX_NUM_FACTORS) (wordsRange : WordsRange) :
    Option (Phrase MAX_NUM_FACTORS) :=
  (List.range' wordsRange.GetStartPos
      (wordsRange.GetEndPos + 1 - wordsRange.GetStartPos)).foldlM
    (fun retPhrase currPos => (self.GetWord currPos).map fun word => retPhrase.AddWord word)
    Phrase.empty

/-- The range `WordsRange(0, GetSize() - 1)` of all positions of a phrase, the
subtraction being that of `size_t`. -/
def fullRange (self : Phrase MAX_NUM_FACTORS) : WordsRange :=
  ⟨0, (self.GetSize + (SIZE_T_RANGE - 1)) % SIZE_T_RANGE⟩

end Phrase

/-- The scan of the text `str` left to right for `tokenizeAny`: `cur` is the token read so
far. -/
def tokenizeAnyAux (delimiters : Str) : Str → Str → List Str
  | [], cur => if cur = [] then [] else [cur]
  | c :: cs, cur =>
    if c ∈ delimiters then
      (if cur = [] then tokenizeAnyAux delimiters cs []
       else cur :: tokenizeAnyAux delimiters cs [])
    else tokenizeAnyAux delimiters cs (cur ++ [c])

/-- Modelled from the spec: splitting a text "on whitespace" or "on an optional tab", the work of
`Tokenize` (`Util.h`) and of `util::TokenIter<util::AnyCharacter, true>`
(`util/tokenize_piece.hh`), neither of which is part of the sources at hand: the tokens are
the maximal runs of characters that are none of the separator characters, in text order;
there is no empty token. -/
def tokenizeAny (str delimiters : Str) : List Str :=
  tokenizeAnyAux delimiters str []

/-- `Tokenize(str, delimiters)`. -/
def Tokenize (str delimiters : Str) : List Str := tokenizeAny str delimiters

/-- The scan of a word left to right for `tokenizeMulti`: `cur` is the token read so far,
`skip` the number of characters of a delimiter occurrence still to pass over. -/
def tokenizeMultiAux (delimiter : Str) : Str → Str → Nat → List Str
  | [], cur, _ => [cur]
  | _ :: cs, cur, skip + 1 => tokenizeMultiAux delimiter cs cur skip
  | c :: cs, cur, 0 =>
    if !delimiter.isEmpty && delimiter.isPrefixOf (c :: cs) then
      cur :: tokenizeMultiAux delimiter cs [] (delimiter.length - 1)
    else tokenizeMultiAux delimiter cs (cur ++ [c]) 0

/-- Modelled from the spec: a word "split on the factor delimiter", the work of
`util::TokenIter<util::MultiCharacter, false>` (`util/tokenize_piece.hh` is not part of the
sources at hand): the pieces of the word between the occurrences of the delimiter, found
left to right, in order, empty pieces included. The delimiter is taken to be non-empty (the
spec has a single character); an empty one separates nothing here. -/
def tokenizeMulti (str delimiter : Str) : List Str :=
  tokenizeMultiAux delimiter str [] 0

/-- The method `m_context.insert(make_pair(key, value))` on the context-count map: an entry
whose key is present already is kept. -/
def contextInsert (m_context : List (Str × Int)) (key : Str) (value : Int) :
    List (Str × Int) :=
  if m_context.any (fun e => e.1 = key) then m_context else m_context ++ [(key, value)]

namespace Phrase

variable {MAX_NUM_FACTORS : Nat}

/-- The first part of `Phrase::CreateFromString`, lines 158-171: when the text has more
than one tab-separated section, the words of the second section are entered into the
context-count map, `token|count` with its count (read by `Scan`) and a bare `token` with
the count 1. -/
def parseContext (Scan : Str → Int) (m_context : List (Str × Int)) (phraseString : Str) :
    List (Str × Int) :=
  match Tokenize phraseString ['\t'] with
  | _ :: section1 :: _ =>
    (Tokenize section1 [' ']).foldl
      (fun ctx wordIt =>
        match Tokenize wordIt ['|'] with
        | [token0, token1] => contextInsert ctx token0 (Scan token1)
        | [token0] => contextInsert ctx token0 1
        | _ => ctx)
      m_context
  | _ => m_context

/-- The inner loop of `Phrase::CreateFromString`, lines 179-184, over the factor strings
still to read: as long as there is one and `index < factorOrder.size()`, the factor is
interned and stored in the slot `factorOrder[index]`. Returns the word and the final
`index`. -/
def factorLoop (AddFactor : Str → Factor) (factorOrder : List (FactorType MAX_NUM_FACTORS)) :
    List Str → Nat → Word MAX_NUM_FACTORS → Word MAX_NUM_FACTORS × Nat
  | [], index, word => (word, index)
  | factor_it :: rest, index, word =>
    if h : index < factorOrder.length then
      factorLoop AddFactor factorOrder rest (index + 1)
        (word.SetFactor (factorOrder.get ⟨index, h⟩) (AddFactor factor_it))
    else (word, index)

/-- `Phrase::CreateFromString(factorOrder, phraseString, factorDelimiter)`, lines 155-193,
with the factor collection as the interning function `AddFactor` and `Scan<int>` as
`Scan`: the context section is read, then every token of the whole text between spaces and
tabs becomes a new word, filled from its delimiter-separated factors; a word that yields
fewer factors than `factorOrder.size()` aborts. The branch for a text without sections
(lines 172-175) only writes a diagnostic. -/
def CreateFromString (AddFactor : Str → Factor) (Scan : Str → Int)
    (self : Phrase MAX_NUM_FACTORS) (factorOrder : List (FactorType MAX_NUM_FACTORS))
    (phraseString factorDelimiter : Str) : Option (Phrase MAX_NUM_FACTORS) :=
  (tokenizeAny phraseString [' ', '\t']).foldlM
    (fun acc word_it =>
      let filled := factorLoop AddFactor factorOrder (tokenizeMulti word_it factorDelimiter)
        0 Word.empty
      if filled.2 ≠ factorOrder.length then none
      else some (acc.AddWord filled.1))
    { self with m_context := parseContext Scan self.m_context phraseString }

end Phrase

/-- A run of `n` spaces. -/
def spaces (n : Nat) : Str := List.replicate n ' '

/-- The factor strings of one word joined by the factor delimiter. -/
def joinFactors (delimiter : Str) : List Str → Str
  | [] => []
  | [f] => f
  | f :: g :: fs => f ++ delimiter ++ joinFactors delimiter (g :: fs)

/-- The text of a sequence of words: each word, given by its factor strings, comes after
its number of spaces, and `trail` spaces end the text. -/
def layoutText (delimiter : Str) : List (Nat × List Str) → Nat → Str
  | [], trail => spaces trail
  | (gap, fs) :: rest, trail =>
    spaces gap ++ joinFactors delimiter fs ++ layoutText delimiter rest trail

/-- An interning function for concrete inputs: the identity of a string is the number whose
digits in base `2 ^ 21` are its characters. -/
def internCode : Str → Nat
  | [] => 0
  | c :: cs => (c.toNat + 1) + 2097152 * internCode cs

/-- A phrase with the given words and no context entries. -/
def phraseOf {MAX_NUM_FACTORS : Nat} (ws : List (Word MAX_NUM_FACTORS)) :
    Phrase MAX_NUM_FACTORS :=
  ⟨ws, []⟩

/-- Concrete word over two factor types: factor `X` (identity 1) in slot 0, slot 1 empty. -/
def wordX : Word 2 := ⟨[some 1, none], false, rfl⟩

/-- Concrete word over two factor types: `X` in slot 0 and `Y` (identity 2) in slot 1. -/
def wordXY : Word 2 := ⟨[some 1, some 2], false, rfl⟩

/-- Concrete word over two factor types: `X` in slot 0 and `Z` (identity 3) in slot 1. -/
def wordXZ : Word 2 := ⟨[some 1, some 3], false, rfl⟩

/-- The enumeration `FactorDirection` (`TypeDef.h`): the side of a rule a text is read
for. -/
inductive FactorDirection where
  | Input
  | Output
  deriving DecidableEq

/-- Modelled from the spec: `Word::GetString(factorType, endWithBlank)` (`Word.cpp` is not part of
the sources at hand): the word "rendered as its requested dimensions joined by a delimiter",
the strings being those of the factors held in the requested slots, followed by a blank
when `endWithBlank` is set. `factorString` gives the string of an interned factor
(`Factor::GetString`). -/
def Word.GetString {MAX_NUM_FACTORS : Nat} (factorString : Factor → Str)
    (factorDelimiter : Str) (w : Word MAX_NUM_FACTORS)
    (factorType : List (FactorType MAX_NUM_FACTORS)) (endWithBlank : Bool) : Str :=
  joinFactors factorDelimiter
      (factorType.filterMap fun d => (w.GetFactor d).map factorString) ++
    (if endWithBlank then [' '] else [])

/-- Modelled from the spec: `Word::CreateFromString(direction, factorOrder, str, isNonTerminal)`
(`Word.cpp` is not part of the sources at hand): the word is constructed "from a textual token
given a dimension ordering and a direction"; a factor count that "does not match the
expected dimension ordering is a fatal malformed-input condition"; the non-terminal status
is the one given. -/
def Word.CreateFromString {MAX_NUM_FACTORS : Nat} (AddFactor : Str → Factor)
    (factorDelimiter : Str) (self : Word MAX_NUM_FACTORS) (_direction : FactorDirection)
    (factorOrder : List (FactorType MAX_NUM_FACTORS)) (str : Str) (isNonTerminal : Bool) :
    Option (Word MAX_NUM_FACTORS) :=
  if (tokenizeMulti str factorDelimiter).length ≠ factorOrder.length then none
  else
    some { (factorOrder.zip (tokenizeMulti str factorDelimiter)).foldl
        (fun w p => w.SetFactor p.1 (AddFactor p.2)) self with
      m_isNonTerminal := isNonTerminal }

/-- The search of `StringPiece::find` over the characters left, `i` being the index of the
first of them. -/
def findCharAux (c : Char) : Str → Nat → Option Nat
  | [], _ => none
  | x :: xs, i => if x = c then some i else findCharAux c xs (i + 1)

/-- Modelled from the spec: `StringPiece::find(c, pos)` (`util/string_piece.hh` is not part of the
sources at hand), by which "the parser locates the first interior `[` after position 0": the
first index from `pos` on that holds `c`, `none` standing for `npos`. -/
def StringPiece_find (s : Str) (c : Char) (pos : Nat) : Option Nat :=
  findCharAux c (s.drop pos) pos

/-- Modelled from the spec: `StringPiece::substr(pos, n)` (`util/string_piece.hh` is not part of
the sources at hand), with the meaning of the standard string interface: the `n` characters
from index `pos` on, or as many as there are. -/
def StringPiece_substr (s : Str) (pos n : Nat) : Str :=
  (s.drop pos).take n

/-- The test `annotatedWord.size() >= 2 && *annotatedWord.data() == '[' &&
annotatedWord.data()[annotatedWord.size() - 1] == ']'` of lines 215 and 237. -/
def isBracketed (annotatedWord : Str) : Bool :=
  decide (annotatedWord.length ≥ 2) && annotatedWord.head? == some '[' &&
    annotatedWord.getLast? == some ']'

/-- The body of the loop of `Phrase::CreateFromStringNewFormat` up to the call of
`Word::CreateFromString`, lines 213-228: the text handed to that call and the non-terminal
flag. A bracketed token is a non-terminal and must hold a `[` after position 0 (`CHECK`);
for `Input` the text is `substr(1, nextPos - 2)`, the subtraction being that of `size_t`,
otherwise `substr(nextPos + 1, size - nextPos - 2)`. The last character of a bracketed
token is `]`, so `nextPos <= size - 2` and the second length does not wrap. -/
def annotatedWordText (direction : FactorDirection) (annotatedWord : Str) :
    Option (Str × Bool) :=
  if isBracketed annotatedWord then
    match StringPiece_find annotatedWord '[' 1 with
    | none => none
    | some nextPos =>
      if direction = FactorDirection.Input then
        some (StringPiece_substr annotatedWord 1
          ((nextPos + (SIZE_T_RANGE - 2)) % SIZE_T_RANGE), true)
      else
        some (StringPiece_substr annotatedWord (nextPos + 1)
          (annotatedWord.length - nextPos - 2), true)
  else some (annotatedWord, false)

namespace Phrase

variable {MAX_NUM_FACTORS : Nat}

/-- `Phrase::GetStringRep(factorsToPrint)`, lines 118-126, with `Word::GetString` as the
parameter `WordGetString`: the renderings of the words in order, each asked for a final
blank by `pos != GetSize() - 1`. -/
def GetStringRep
    (WordGetString : Word MAX_NUM_FACTORS → List (FactorType MAX_NUM_FACTORS) → Bool → Str)
    (self : Phrase MAX_NUM_FACTORS) (factorsToPrint : List (FactorType MAX_NUM_FACTORS)) :
    Option Str :=
  (List.range self.GetSize).foldlM
    (fun strme pos =>
      (self.GetWord pos).map fun word =>
        strme ++ WordGetString word factorsToPrint (pos != self.GetSize - 1))
    []

/-- The shifting loop of `Phrase::PrependWord`, lines 147-150, from `pos` downwards:
`m_words[pos] = m_words[pos - 1]` as long as `pos >= 1`. `fuel` bounds the number of times
the loop condition is evaluated; running out of it gives `none`, as a failure does. Inside
the loop `pos >= 1`, so `--pos` does not wrap. -/
def prependShift : Nat → Nat → List (Word MAX_NUM_FACTORS) →
    Option (List (Word MAX_NUM_FACTORS))
  | 0, _, _ => none
  | fuel + 1, pos, m_words =>
    if pos ≥ 1 then
      (m_words[pos - 1]?).bind fun word =>
        if pos < m_words.length then prependShift fuel (pos - 1) (m_words.set pos word)
        else none
    else some m_words

/-- `Phrase::PrependWord(newWord)`, lines 142-153: a word is appended, the loop shifts
every word one position up, and `newWord` is stored at position 0. After `AddWord()` the
size is at least 1, so `GetSize() - 1` does not wrap. -/
def PrependWord (self : Phrase MAX_NUM_FACTORS) (newWord : Word MAX_NUM_FACTORS) :
    Option (Phrase MAX_NUM_FACTORS) :=
  let added := self.AddWord Word.empty
  (prependShift added.GetSize (added.GetSize - 1) added.m_words).bind fun shifted =>
    if 0 < shifted.length then some { added with m_words := shifted.set 0 newWord }
    else none

/-- `Phrase::Contains(subPhraseVector, inputFactor)`, lines 267-298, with
`Factor::GetString` as the parameter `factorString`: `false` when the sub-phrase is longer
than the phrase; otherwise the start positions `0 .. thisSize - subSize` are tried in turn,
a start position matching when for every factor index and every position of the sub-phrase
the string of the factor equals the string given; the first mismatch leaves the two inner
loops, the first match returns `true`. A `NULL` factor, a position outside the phrase and
an index outside `subPhraseVector` or one of its rows are failures. -/
def Contains (factorString : Factor → Str) (self : Phrase MAX_NUM_FACTORS)
    (subPhraseVector : List (List Str)) (inputFactor : List (FactorType MAX_NUM_FACTORS)) :
    Option Bool :=
  let subSize := subPhraseVector.length
  let thisSize := self.GetSize
  if subSize > thisSize then some false
  else
    (List.range (thisSize - subSize + 1)).anyM fun currStartPos =>
      (List.range inputFactor.length).allM fun currFactorIndex =>
        (inputFactor[currFactorIndex]?).bind fun factorType =>
          (List.range subSize).allM fun currSubPos =>
            let currThisPos := currSubPos + currStartPos
            (subPhraseVector[currSubPos]?).bind fun row =>
              (row[currFactorIndex]?).bind fun subStr =>
                (self.GetFactor currThisPos factorType).bind fun factor =>
                  factor.bind fun f => some (!(subStr != factorString f))

/-- `Phrase::CreateFromStringNewFormat(direction, factorOrder, phraseString,
factorDelimiter, lhs)`, lines 195-241, with `Word::CreateFromString` as the parameter
`WordCreateFromString` (applied to the word it fills): the text is cut into tokens at tabs
and spaces; every token but the last gives a new word, built from the text and the flag
of `annotatedWordText`; the last token must be bracketed and gives `lhs`, built from
`substr(1, size - 2)` as a non-terminal, which `assert(lhs.IsNonTerminal())` checks.
Without any token `annotatedWordVector.size() - 1` wraps and the vector is read outside:
a failure. Returns the phrase and `lhs`. -/
def CreateFromStringNewFormat
    (WordCreateFromString : Word MAX_NUM_FACTORS → FactorDirection →
      List (FactorType MAX_NUM_FACTORS) → Str → Bool → Option (Word MAX_NUM_FACTORS))
    (self : Phrase MAX_NUM_FACTORS) (direction : FactorDirection)
    (factorOrder : List (FactorType MAX_NUM_FACTORS)) (phraseString : Str)
    (lhs : Word MAX_NUM_FACTORS) : Option (Phrase MAX_NUM_FACTORS × Word MAX_NUM_FACTORS) :=
  let annotatedWordVector := tokenizeAny phraseString ['\t', ' ']
  match annotatedWordVector.getLast? with
  | none => none
  | some back =>
    (annotatedWordVector.dropLast.foldlM
        (fun acc annotatedWord =>
          (annotatedWordText direction annotatedWord).bind fun args =>
            (WordCreateFromString Word.empty direction factorOrder args.1 args.2).map
              fun word => acc.AddWord word)
        self).bind fun filled =>
      if isBracketed back then
        (WordCreateFromString lhs direction factorOrder
            (StringPiece_substr back 1 (back.length - 2)) true).bind fun newLhs =>
          if newLhs.IsNonTerminal then some (filled, newLhs) else none
      else none

end Phrase

/-- The strings of the interned identities given by `internCode`: the digits of the number
in base `2 ^ 21`, read with `fuel` as a bound on their number. -/
def internDecodeAux : Nat → Nat → Str
  | 0, _ => []
  | fuel + 1, n =>
    if n = 0 then [] else Char.ofNat (n % 2097152 - 1) :: internDecodeAux fuel (n / 2097152)

/-- The string of an interned identity given by `internCode`. -/
def internDecode (n : Nat) : Str := internDecodeAux n n

/-- The words of a text separated by single spaces, without a space before the first word:
the gap of every word for `layoutText`. -/
def singleSpaced : List (List Str) → List (Nat × List Str)
  | [] => []
  | fs :: rest => (0, fs) :: rest.map fun gs => (1, gs)

/-- A reading of unsigned decimal numbers, standing for `Scan<int>` at concrete inputs. -/
def scanDecimal (s : Str) : Int :=
  s.foldl (fun n c => 10 * n + ((c.toNat : Int) - 48)) 0

/-- The renderings of a sequence of words one after the other, every word but the last
being asked for a final blank: what `GetStringRep` writes for the words of a phrase. -/
def renderWords {MAX_NUM_FACTORS : Nat}
    (WordGetString : Word MAX_NUM_FACTORS → List (FactorType MAX_NUM_FACTORS) → Bool → Str)
    (factorsToPrint : List (FactorType MAX_NUM_FACTORS)) : List (Word MAX_NUM_FACTORS) → Str
  | [] => []
  | [w] => WordGetString w factorsToPrint false
  | w :: v :: ws =>
    WordGetString w factorsToPrint true ++ renderWords WordGetString factorsToPrint (v :: ws)

/-! ## Properties of the operations -/

namespace Word
variable {MAX_NUM_FACTORS : Nat}

theorem GetFactor_SetFactor (w : Word MAX_NUM_FACTORS) (d d' : FactorType MAX_NUM_FACTORS)
    (f : Option Factor) :
    (w.SetFactor d f).GetFactor d' = if d' = d then f else w.GetFactor d' := by
  unfold GetFactor SetFactor
  simp only [List.get_eq_getElem, List.getElem_set]
  by_cases h : d' = d
  · subst h
    simp
  · have : ¬ (d.1 = d'.1) := fun e => h (Fin.ext e.symm)
    simp [h, this]

theorem isNonTerminal_SetFactor (w : Word MAX_NUM_FACTORS) (d : FactorType MAX_NUM_FACTORS)
    (f : Option Factor) : (w.SetFactor d f).m_isNonTerminal = w.m_isNonTerminal := rfl

theorem ext_slots {a b : Word MAX_NUM_FACTORS}
    (hs : ∀ d, a.GetFactor d = b.GetFactor d)
    (hn : a.m_isNonTerminal = b.m_isNonTerminal) : a = b := by
  obtain ⟨fa, na, ha⟩ := a
  obtain ⟨fb, nb, hb⟩ := b
  simp only [mk.injEq]
  refine ⟨?_, hn⟩
  apply List.ext_getElem (ha.trans hb.symm)
  intro i h1 h2
  have := hs ⟨i, ha ▸ h1⟩
  simpa [GetFactor] using this

theorem GetFactor_empty (d : FactorType MAX_NUM_FACTORS) :
    (empty : Word MAX_NUM_FACTORS).GetFactor d = none := by
  simp [GetFactor, empty]

end Word

namespace Phrase
variable {MAX_NUM_FACTORS : Nat}

theorem GetFactor_eq (p : Phrase MAX_NUM_FACTORS) (i : Nat) (d : FactorType MAX_NUM_FACTORS) :
    p.GetFactor i d = (p.m_words[i]?).map fun w => w.GetFactor d := rfl

theorem SetFactor_eq_of_get {p : Phrase MAX_NUM_FACTORS} {i : Nat} {w : Word MAX_NUM_FACTORS}
    (h : p.m_words[i]? = some w) (d : FactorType MAX_NUM_FACTORS) (f : Option Factor) :
    p.SetFactor i d f = some { p with m_words := p.m_words.set i (w.SetFactor d f) } := by
  simp [SetFactor, GetWord, h]

/-- Writing back the word already stored at a position leaves the phrase as it is. -/
theorem set_self {p : Phrase MAX_NUM_FACTORS} {i : Nat} {w : Word MAX_NUM_FACTORS}
    (h : p.m_words[i]? = some w) : ({ p with m_words := p.m_words.set i w } : Phrase _) = p := by
  obtain ⟨ws, c⟩ := p
  simp only [mk.injEq, and_true]
  apply List.ext_getElem? 
  intro j
  by_cases hj : i = j
  · subst hj
    simp only at h
    rw [h]
    have hi : i < ws.length := by
      by_contra hcon
      rw [List.getElem?_eq_none (by omega)] at h
      cases h
    simp [List.getElem?_set, hi]
  · simp [List.getElem?_set, hj]

/-- A loop over the factor types `ds` that rewrites the word at position `i` step by step
is one rewrite of that word by the folded steps. -/
theorem foldlM_word_steps (step : Word MAX_NUM_FACTORS → FactorType MAX_NUM_FACTORS →
      Word MAX_NUM_FACTORS)
    (body : Phrase MAX_NUM_FACTORS → FactorType MAX_NUM_FACTORS →
      Option (Phrase MAX_NUM_FACTORS)) (i : Nat)
    (hbody : ∀ (q : Phrase MAX_NUM_FACTORS) (w : Word MAX_NUM_FACTORS) d,
      q.m_words[i]? = some w →
        body q d = some { q with m_words := q.m_words.set i (step w d) })
    (ds : List (FactorType MAX_NUM_FACTORS)) :
    ∀ (q : Phrase MAX_NUM_FACTORS) (w : Word MAX_NUM_FACTORS), q.m_words[i]? = some w →
      ds.foldlM body q = some { q with m_words := q.m_words.set i (ds.foldl step w) } := by
  induction ds with
  | nil =>
    intro q w h
    simp only [List.foldlM_nil, List.foldl_nil]
    rw [set_self h]
    rfl
  | cons d ds ih =>
    intro q w h
    simp only [List.foldlM_cons, List.foldl_cons]
    rw [hbody q w d h]
    simp only [Option.bind_eq_bind, Option.some_bind]
    have hi : i < q.m_words.length := by
      by_contra hcon
      rw [List.getElem?_eq_none (by omega)] at h
      cases h
    rw [ih _ (step w d) (by simp [List.getElem?_set, hi])]
    simp

/-- A loop over the positions `0 .. n-1` that rewrites the word at each position is a
pointwise rewrite of the first `n` words. -/
theorem foldlM_range_words (g : Nat → Word MAX_NUM_FACTORS → Word MAX_NUM_FACTORS)
    (body : Phrase MAX_NUM_FACTORS → Nat → Option (Phrase MAX_NUM_FACTORS))
    (p : Phrase MAX_NUM_FACTORS) (n : Nat) (hn : n ≤ p.GetSize)
    (hbody : ∀ (q : Phrase MAX_NUM_FACTORS) (w : Word MAX_NUM_FACTORS) i, i < n →
      q.m_words[i]? = some w →
        body q i = some { q with m_words := q.m_words.set i (g i w) }) :
    ∃ r, (List.range n).foldlM body p = some r ∧ r.m_context = p.m_context ∧
      r.GetSize = p.GetSize ∧
      ∀ i, r.m_words[i]? = (p.m_words[i]?).map fun w => if i < n then g i w else w := by
  induction n with
  | zero =>
    refine ⟨p, by simp, rfl, rfl, fun i => ?_⟩
    cases p.m_words[i]? <;> simp
  | succ n ih =>
    obtain ⟨r, hr, hc, hs, hw⟩ := ih (by omega) (fun q w i hi => hbody q w i (by omega))
    have hn' : n < p.m_words.length := hn
    have hrn : r.m_words[n]? = some (p.m_words[n]) := by
      rw [hw n]
      simp [List.getElem?_eq_getElem hn']
    refine ⟨{ r with m_words := r.m_words.set n (g n (p.m_words[n])) }, ?_, hc, ?_, fun i => ?_⟩
    · rw [List.range_succ, List.foldlM_append, hr]
      simp only [Option.bind_eq_bind, Option.some_bind, List.foldlM_cons, List.foldlM_nil]
      rw [hbody r _ n (by omega) hrn]
      simp
    · simpa [GetSize] using hs
    · have hrl : r.m_words.length = p.m_words.length := hs
      simp only [List.getElem?_set]
      by_cases hi : n = i
      · subst hi
        simp [hrl, hn', List.getElem?_eq_getElem hn']
      · simp only [hi, if_false]
        rw [hw i]
        cases p.m_words[i]? with
        | none => rfl
        | some w =>
          simp only [Option.map_some']
          by_cases h1 : i < n
          · simp [h1, Nat.lt_succ_of_lt h1]
          · have : ¬ i < n + 1 := by omega
            simp [h1, this]

end Phrase

namespace Phrase
variable {MAX_NUM_FACTORS : Nat}

theorem lt_of_getElem?_eq_some {α : Type} {l : List α} {i : Nat} {x : α}
    (h : l[i]? = some x) : i < l.length := by
  by_contra hcon
  rw [List.getElem?_eq_none (by omega)] at h
  cases h

/-- The two nested loops shared by the variants of `MergeFactors`: when the body rewrites
the word at the current position by `step`, the result holds at every position the word
of `self` rewritten by the steps for all of `ds`. -/
theorem merge_loop (copy : Phrase MAX_NUM_FACTORS) (ds : List (FactorType MAX_NUM_FACTORS))
    (step : Word MAX_NUM_FACTORS → Word MAX_NUM_FACTORS → FactorType MAX_NUM_FACTORS →
      Word MAX_NUM_FACTORS)
    (body : Nat → Phrase MAX_NUM_FACTORS → FactorType MAX_NUM_FACTORS →
      Option (Phrase MAX_NUM_FACTORS))
    (hbody : ∀ (q : Phrase MAX_NUM_FACTORS) (w c : Word MAX_NUM_FACTORS) i d,
      q.m_words[i]? = some w → copy.m_words[i]? = some c →
        body i q d = some { q with m_words := q.m_words.set i (step c w d) })
    (self : Phrase MAX_NUM_FACTORS) (h : self.GetSize = copy.GetSize) :
    ∃ r, (List.range self.GetSize).foldlM (fun acc i => ds.foldlM (body i) acc) self = some r ∧
      r.m_context = self.m_context ∧ r.GetSize = self.GetSize ∧
      ∀ (i : Nat) wa wb, self.m_words[i]? = some wa → copy.m_words[i]? = some wb →
        r.m_words[i]? = some (ds.foldl (step wb) wa) := by
  have key := foldlM_range_words
    (fun i w => match copy.m_words[i]? with
      | some c => ds.foldl (step c) w
      | none => w)
    (fun acc i => ds.foldlM (body i) acc) self self.GetSize (Nat.le_refl _)
    (by
      intro q w i hi hq
      have hic : i < copy.m_words.length := by
        have : copy.m_words.length = self.GetSize := h.symm
        omega
      have hc : copy.m_words[i]? = some (copy.m_words[i]) := List.getElem?_eq_getElem hic
      simp only [hc]
      exact foldlM_word_steps (step (copy.m_words[i])) (body i) i
        (fun q' w' d hq' => hbody q' w' _ i d hq' hc) ds q w hq)
  obtain ⟨r, hr, hc, hs, hw⟩ := key
  refine ⟨r, hr, hc, hs, ?_⟩
  intro i wa wb ha hb
  rw [hw i, ha]
  have hi : i < self.GetSize := lt_of_getElem?_eq_some ha
  simp [hb, hi]

end Phrase

namespace Word
variable {MAX_NUM_FACTORS : Nat}

/-- Slots after the guarded copy of the factor types `ds` from `c` into `w`. -/
theorem GetFactor_foldl_guarded (c : Word MAX_NUM_FACTORS)
    (ds : List (FactorType MAX_NUM_FACTORS)) :
    ∀ (w : Word MAX_NUM_FACTORS) (d : FactorType MAX_NUM_FACTORS),
      (ds.foldl (fun w ft =>
          if c.GetFactor ft ≠ none then w.SetFactor ft (c.GetFactor ft) else w) w).GetFactor d =
        if d ∈ ds ∧ c.GetFactor d ≠ none then c.GetFactor d else w.GetFactor d := by
  induction ds with
  | nil => intro w d; simp
  | cons e ds ih =>
    intro w d
    simp only [List.foldl_cons]
    rw [ih]
    by_cases hmem : d ∈ ds
    · by_cases hc : c.GetFactor d = none
      · by_cases hce : c.GetFactor e = none
        · simp [hc, hce]
        · have hde : d ≠ e := fun hde => hce (hde ▸ hc)
          simp [hc, hce, GetFactor_SetFactor, hde]
      · simp [hmem, hc]
    · by_cases hde : d = e
      · subst hde
        by_cases hc : c.GetFactor d = none
        · simp [hc]
        · simp [hc, hmem, GetFactor_SetFactor]
      · by_cases hce : c.GetFactor e = none
        · simp [hce, hmem, hde]
        · simp [hce, hmem, hde, GetFactor_SetFactor]

/-- Slots after the plain copy of the factor types `ds` from `c` into `w`. -/
theorem GetFactor_foldl_copy (c : Word MAX_NUM_FACTORS)
    (ds : List (FactorType MAX_NUM_FACTORS)) :
    ∀ (w : Word MAX_NUM_FACTORS) (d : FactorType MAX_NUM_FACTORS),
      (ds.foldl (fun w ft => w.SetFactor ft (c.GetFactor ft)) w).GetFactor d =
        if d ∈ ds then c.GetFactor d else w.GetFactor d := by
  induction ds with
  | nil => intro w d; simp
  | cons e ds ih =>
    intro w d
    simp only [List.foldl_cons]
    rw [ih]
    by_cases hmem : d ∈ ds
    · simp [hmem]
    · by_cases hde : d = e
      · subst hde
        simp [hmem, GetFactor_SetFactor]
      · simp [hmem, hde, GetFactor_SetFactor]

theorem isNonTerminal_foldl (step : Word MAX_NUM_FACTORS → FactorType MAX_NUM_FACTORS →
      Word MAX_NUM_FACTORS)
    (hstep : ∀ w d, (step w d).m_isNonTerminal = w.m_isNonTerminal)
    (ds : List (FactorType MAX_NUM_FACTORS)) :
    ∀ w : Word MAX_NUM_FACTORS, (ds.foldl step w).m_isNonTerminal = w.m_isNonTerminal := by
  induction ds with
  | nil => intro w; rfl
  | cons e ds ih =>
    intro w
    simp only [List.foldl_cons]
    rw [ih, hstep]

end Word

namespace Phrase
variable {MAX_NUM_FACTORS : Nat}

/-- What the all-dimension `MergeFactors` computes on phrases of one size. -/
theorem MergeFactors_spec (a b : Phrase MAX_NUM_FACTORS) (h : a.GetSize = b.GetSize) :
    ∃ r, a.MergeFactors b = some r ∧ r.m_context = a.m_context ∧ r.GetSize = a.GetSize ∧
      ∀ (i : Nat) wa wb, a.m_words[i]? = some wa → b.m_words[i]? = some wb →
        ∃ wr, r.m_words[i]? = some wr ∧ wr.m_isNonTerminal = wa.m_isNonTerminal ∧
          ∀ d, wr.GetFactor d =
            if wb.GetFactor d ≠ none then wb.GetFactor d else wa.GetFactor d := by
  obtain ⟨r, hr, hc, hs, hw⟩ := merge_loop b (List.finRange MAX_NUM_FACTORS)
    (fun c w ft => if c.GetFactor ft ≠ none then w.SetFactor ft (c.GetFactor ft) else w)
    (fun currPos acc2 factorType =>
      (b.GetFactor currPos factorType).bind fun factor =>
        if factor ≠ none then acc2.SetFactor currPos factorType factor else some acc2)
    (by
      intro q w c i d hq hcw
      simp only [GetFactor_eq, hcw, Option.map_some', Option.some_bind]
      by_cases hn : c.GetFactor d = none
      · simp only [hn, ne_eq, not_true_eq_false, if_false]
        rw [set_self hq]
      · simp only [ne_eq, hn, not_false_eq_true, if_true]
        exact SetFactor_eq_of_get hq d _)
    a h
  refine ⟨r, ?_, hc, hs, ?_⟩
  · unfold MergeFactors
    rw [if_pos h]
    exact hr
  · intro i wa wb ha hb
    refine ⟨_, hw i wa wb ha hb, ?_, ?_⟩
    · exact Word.isNonTerminal_foldl _ (by
        intro w d
        by_cases hn : wb.GetFactor d = none <;> simp [hn, Word.isNonTerminal_SetFactor]) _ _
    · intro d
      rw [Word.GetFactor_foldl_guarded]
      simp [List.mem_finRange]

/-- What the dimension-list `MergeFactors` computes on phrases of one size. -/
theorem MergeFactors_factorVec_spec (a b : Phrase MAX_NUM_FACTORS)
    (factorVec : List (FactorType MAX_NUM_FACTORS)) (h : a.GetSize = b.GetSize) :
    ∃ r, a.MergeFactors_factorVec b factorVec = some r ∧ r.m_context = a.m_context ∧
      r.GetSize = a.GetSize ∧
      ∀ (i : Nat) wa wb, a.m_words[i]? = some wa → b.m_words[i]? = some wb →
        ∃ wr, r.m_words[i]? = some wr ∧ wr.m_isNonTerminal = wa.m_isNonTerminal ∧
          ∀ d, wr.GetFactor d = if d ∈ factorVec then wb.GetFactor d else wa.GetFactor d := by
  obtain ⟨r, hr, hc, hs, hw⟩ := merge_loop b factorVec
    (fun c w ft => w.SetFactor ft (c.GetFactor ft))
    (fun currPos acc2 i =>
      (b.GetFactor currPos i).bind fun factor => acc2.SetFactor currPos i factor)
    (by
      intro q w c i d hq hcw
      simp only [GetFactor_eq, hcw, Option.map_some', Option.some_bind]
      exact SetFactor_eq_of_get hq d _)
    a h
  refine ⟨r, ?_, hc, hs, ?_⟩
  · unfold MergeFactors_factorVec
    rw [if_pos h]
    exact hr
  · intro i wa wb ha hb
    refine ⟨_, hw i wa wb ha hb, ?_, ?_⟩
    · exact Word.isNonTerminal_foldl _ (fun w d => Word.isNonTerminal_SetFactor w d _) _ _
    · intro d
      rw [Word.GetFactor_foldl_copy]

/-- The single-dimension `MergeFactors` is the dimension-list one for a one-element list. -/
theorem MergeFactors_factorType_eq (a b : Phrase MAX_NUM_FACTORS)
    (factorType : FactorType MAX_NUM_FACTORS) :
    a.MergeFactors_factorType b factorType = a.MergeFactors_factorVec b [factorType] := by
  unfold MergeFactors_factorType MergeFactors_factorVec
  simp [List.foldlM_cons, List.foldlM_nil]

/-- What the single-dimension `MergeFactors` computes on phrases of one size. -/
theorem MergeFactors_factorType_spec (a b : Phrase MAX_NUM_FACTORS)
    (factorType : FactorType MAX_NUM_FACTORS) (h : a.GetSize = b.GetSize) :
    ∃ r, a.MergeFactors_factorType b factorType = some r ∧ r.m_context = a.m_context ∧
      r.GetSize = a.GetSize ∧
      ∀ (i : Nat) wa wb, a.m_words[i]? = some wa → b.m_words[i]? = some wb →
        ∃ wr, r.m_words[i]? = some wr ∧ wr.m_isNonTerminal = wa.m_isNonTerminal ∧
          ∀ d, wr.GetFactor d = if d = factorType then wb.GetFactor d else wa.GetFactor d := by
  rw [MergeFactors_factorType_eq]
  obtain ⟨r, hr, hc, hs, hw⟩ := MergeFactors_factorVec_spec a b [factorType] h
  refine ⟨r, hr, hc, hs, ?_⟩
  intro i wa wb ha hb
  obtain ⟨wr, h1, h2, h3⟩ := hw i wa wb ha hb
  exact ⟨wr, h1, h2, fun d => by rw [h3 d]; simp⟩

end Phrase

namespace Phrase
variable {MAX_NUM_FACTORS : Nat}

/-- Two phrases with the same words and the same context map are the same phrase. -/
theorem ext_fields {a b : Phrase MAX_NUM_FACTORS} (hw : a.m_words = b.m_words)
    (hc : a.m_context = b.m_context) : a = b := by
  cases a
  cases b
  simp only [mk.injEq]
  exact ⟨hw, hc⟩

/-- A merge whose result slot is `b`'s where a test on `b`'s word selects it, and the
previous slot elsewhere, changes nothing when it is applied a second time. -/
theorem merge_twice_eq (P : Word MAX_NUM_FACTORS → FactorType MAX_NUM_FACTORS → Prop)
    [∀ w d, Decidable (P w d)] (a b r r2 : Phrase MAX_NUM_FACTORS)
    (hsize : a.GetSize = b.GetSize)
    (hs1 : r.GetSize = a.GetSize)
    (hw1 : ∀ (i : Nat) wa wb, a.m_words[i]? = some wa → b.m_words[i]? = some wb →
        ∃ wr, r.m_words[i]? = some wr ∧ wr.m_isNonTerminal = wa.m_isNonTerminal ∧
          ∀ d, wr.GetFactor d = if P wb d then wb.GetFactor d else wa.GetFactor d)
    (hc2 : r2.m_context = r.m_context) (hs2 : r2.GetSize = r.GetSize)
    (hw2 : ∀ (i : Nat) wa wb, r.m_words[i]? = some wa → b.m_words[i]? = some wb →
        ∃ wr, r2.m_words[i]? = some wr ∧ wr.m_isNonTerminal = wa.m_isNonTerminal ∧
          ∀ d, wr.GetFactor d = if P wb d then wb.GetFactor d else wa.GetFactor d) :
    r2 = r := by
  apply ext_fields _ hc2
  apply List.ext_getElem?
  intro i
  unfold GetSize at hsize hs1 hs2
  by_cases hi : i < a.m_words.length
  · have ha : a.m_words[i]? = some (a.m_words[i]) := List.getElem?_eq_getElem hi
    have hb : b.m_words[i]? = some (b.m_words[i]) := List.getElem?_eq_getElem (by omega)
    obtain ⟨wr, hr, hn, hd⟩ := hw1 i _ _ ha hb
    obtain ⟨wr2, hr2, hn2, hd2⟩ := hw2 i _ _ hr hb
    rw [hr, hr2]
    congr 1
    apply Word.ext_slots
    · intro d
      rw [hd2 d, hd d]
      by_cases hp : P (b.m_words[i]) d <;> simp [hp]
    · exact hn2
  · rw [List.getElem?_eq_none (by omega), List.getElem?_eq_none (by omega)]

/-- Inside a phrase, `GetFactor` reads the slot of the word at the position. -/
theorem GetFactor_of_lt (p : Phrase MAX_NUM_FACTORS) (i : Nat)
    (d : FactorType MAX_NUM_FACTORS) (hi : i < p.GetSize) :
    ∃ w, p.m_words[i]? = some w ∧ p.GetFactor i d = some (w.GetFactor d) := by
  refine ⟨p.m_words[i], List.getElem?_eq_getElem hi, ?_⟩
  simp [GetFactor_eq, List.getElem?_eq_getElem hi]

/-- C1: for phrases `a` and `b` of one size, the all-dimension `a.MergeFactors(b)` returns,
keeps the size of `a`, and leaves in every slot `(i, d)` the factor of `b` when `b` has one
there and the previous factor of `a` when the slot of `b` is empty. -/
theorem C1_MergeFactors_takes_set_slots (a b : Phrase MAX_NUM_FACTORS)
    (h : a.GetSize = b.GetSize) :
    ∃ r, a.MergeFactors b = some r ∧ r.GetSize = a.GetSize ∧
      ∀ (i : Nat) (d : FactorType MAX_NUM_FACTORS), i < a.GetSize →
        (b.GetFactor i d ≠ some none → r.GetFactor i d = b.GetFactor i d) ∧
        (b.GetFactor i d = some none → r.GetFactor i d = a.GetFactor i d) := by
  obtain ⟨r, hr, _, hs, hw⟩ := MergeFactors_spec a b h
  refine ⟨r, hr, hs, ?_⟩
  intro i d hi
  obtain ⟨wa, ha, hga⟩ := GetFactor_of_lt a i d hi
  obtain ⟨wb, hb, hgb⟩ := GetFactor_of_lt b i d (h ▸ hi)
  obtain ⟨wr, hwr, _, hd⟩ := hw i wa wb ha hb
  have hgr : r.GetFactor i d = some (wr.GetFactor d) := by simp [GetFactor_eq, hwr]
  rw [hgr, hga, hgb, hd d]
  by_cases hn : wb.GetFactor d = none <;> simp [hn]

end Phrase

theorem allM_option {α : Type} (p : α → Option Bool) (q : α → Bool) :
    ∀ l : List α, (∀ x ∈ l, p x = some (q x)) → l.allM p = some (l.all q) := by
  intro l
  induction l with
  | nil => intro _; rfl
  | cons x xs ih =>
    intro h
    have hx := h x (List.mem_cons_self _ _)
    have hxs := ih (fun y hy => h y (List.mem_cons_of_mem _ hy))
    simp only [List.allM, hx, List.all_cons]
    cases hq : q x
    · rfl
    · simpa using hxs

namespace Phrase
variable {MAX_NUM_FACTORS : Nat}

/-- The slot `(i, d)` of a phrase, `NULL` outside the phrase. -/
theorem GetFactor_eq_some_getD (p : Phrase MAX_NUM_FACTORS) (i : Nat)
    (d : FactorType MAX_NUM_FACTORS) (hi : i < p.GetSize) :
    p.GetFactor i d = some ((p.GetFactor i d).getD none) := by
  obtain ⟨w, _, hg⟩ := GetFactor_of_lt p i d hi
  rw [hg]
  rfl

/-- The nested loops shared by the variants of `IsCompatible`, for phrases of one size:
they return, and they return `true` exactly when the slot test holds at every position for
every factor type of `ds`. -/
theorem compat_loop (test : Option Factor → Option Factor → Bool)
    (ds : List (FactorType MAX_NUM_FACTORS)) (a b : Phrase MAX_NUM_FACTORS)
    (h : b.GetSize = a.GetSize) :
    ((List.range a.GetSize).allM fun currPos =>
      ds.allM fun d =>
        (a.GetFactor currPos d).bind fun x =>
          (b.GetFactor currPos d).bind fun y => some (test x y)) =
    some ((List.range a.GetSize).all fun i =>
      ds.all fun d => test ((a.GetFactor i d).getD none) ((b.GetFactor i d).getD none)) := by
  apply allM_option
  intro i hi
  have hia : i < a.GetSize := List.mem_range.mp hi
  apply allM_option
  intro d _
  rw [GetFactor_eq_some_getD a i d hia, GetFactor_eq_some_getD b i d (h ▸ hia)]
  rfl

theorem IsCompatible_eq (a b : Phrase MAX_NUM_FACTORS) :
    a.IsCompatible b = some (decide (b.GetSize = a.GetSize) &&
      (List.range a.GetSize).all fun i =>
        (List.finRange MAX_NUM_FACTORS).all fun d =>
          !((a.GetFactor i d).getD none ≠ none && (b.GetFactor i d).getD none ≠ none &&
            (a.GetFactor i d).getD none ≠ (b.GetFactor i d).getD none)) := by
  unfold IsCompatible
  by_cases h : b.GetSize = a.GetSize
  · simp only [h, ne_eq, not_true_eq_false, if_false, decide_True, Bool.true_and]
    exact compat_loop (fun x y => !(x ≠ none && y ≠ none && x ≠ y)) _ a b h
  · simp [h]

theorem IsCompatible_factorVec_eq (a b : Phrase MAX_NUM_FACTORS)
    (factorVec : List (FactorType MAX_NUM_FACTORS)) :
    a.IsCompatible_factorVec b factorVec = some (decide (b.GetSize = a.GetSize) &&
      (List.range a.GetSize).all fun i =>
        factorVec.all fun d =>
          !((a.GetFactor i d).getD none ≠ (b.GetFactor i d).getD none)) := by
  unfold IsCompatible_factorVec
  by_cases h : b.GetSize = a.GetSize
  · simp only [h, ne_eq, not_true_eq_false, if_false, decide_True, Bool.true_and]
    exact compat_loop (fun x y => !(x ≠ y)) _ a b h
  · simp [h]

theorem IsCompatible_factorType_eq (a b : Phrase MAX_NUM_FACTORS)
    (factorType : FactorType MAX_NUM_FACTORS) :
    a.IsCompatible_factorType b factorType = a.IsCompatible_factorVec b [factorType] := by
  unfold IsCompatible_factorType IsCompatible_factorVec
  by_cases h : b.GetSize = a.GetSize
  · simp only [h, ne_eq, not_true_eq_false, if_false]
    congr 1
    funext currPos
    simp only [List.allM]
    cases a.GetFactor currPos factorType with
    | none => rfl
    | some x =>
      cases b.GetFactor currPos factorType with
      | none => rfl
      | some y =>
        by_cases hxy : x = y <;> simp [hxy]
  · simp [h]

end Phrase

namespace Phrase
variable {MAX_NUM_FACTORS : Nat}

/-- C1, at a concrete input: two phrases of two words over two factor types. -/
theorem C1_MergeFactors_takes_set_slots_witness :
    (phraseOf [wordX, wordXZ]).GetSize = (phraseOf [wordXY, wordX]).GetSize ∧
    ∃ r, (phraseOf [wordX, wordXZ]).MergeFactors (phraseOf [wordXY, wordX]) = some r ∧
      r.GetSize = (phraseOf [wordX, wordXZ]).GetSize ∧
      ∀ (i : Nat) (d : FactorType 2), i < (phraseOf [wordX, wordXZ]).GetSize →
        ((phraseOf [wordXY, wordX]).GetFactor i d ≠ some none →
          r.GetFactor i d = (phraseOf [wordXY, wordX]).GetFactor i d) ∧
        ((phraseOf [wordXY, wordX]).GetFactor i d = some none →
          r.GetFactor i d = (phraseOf [wordX, wordXZ]).GetFactor i d) :=
  ⟨by decide, C1_MergeFactors_takes_set_slots _ _ (by decide)⟩

/-- C2, the code at a failing input: `a` holds `Y` in slot 1 of its only word, the slot 1
of `b` is empty, and both the single-dimension and the dimension-list `MergeFactors` for
dimension 1 return `a` with that slot emptied, while the all-dimension variant keeps it. -/
theorem C2_restricted_MergeFactors_clears_slot :
    (phraseOf [wordXY]).GetFactor 0 1 = some (some 2) ∧
    (phraseOf [wordX]).GetFactor 0 1 = some none ∧
    (phraseOf [wordXY]).MergeFactors_factorType (phraseOf [wordX]) 1 = some (phraseOf [wordX]) ∧
    (phraseOf [wordXY]).MergeFactors_factorVec (phraseOf [wordX]) [1] = some (phraseOf [wordX]) ∧
    (phraseOf [wordXY]).MergeFactors (phraseOf [wordX]) = some (phraseOf [wordXY]) := by
  decide

/-- C3: each of the three variants of `MergeFactors` is idempotent: for phrases `a` and `b`
of one size the merge of `b` into `a` returns a phrase `r`, and the merge of `b` into `r`
returns `r` again. -/
theorem C3_MergeFactors_idempotent (a b : Phrase MAX_NUM_FACTORS)
    (factorType : FactorType MAX_NUM_FACTORS) (factorVec : List (FactorType MAX_NUM_FACTORS))
    (h : a.GetSize = b.GetSize) :
    (∃ r, a.MergeFactors b = some r ∧ r.MergeFactors b = some r) ∧
    (∃ r, a.MergeFactors_factorType b factorType = some r ∧
      r.MergeFactors_factorType b factorType = some r) ∧
    (∃ r, a.MergeFactors_factorVec b factorVec = some r ∧
      r.MergeFactors_factorVec b factorVec = some r) := by
  refine ⟨?_, ?_, ?_⟩
  · obtain ⟨r, hr, _, hs, hw⟩ := MergeFactors_spec a b h
    obtain ⟨r2, hr2, hc2, hs2, hw2⟩ := MergeFactors_spec r b (hs.trans h)
    refine ⟨r, hr, ?_⟩
    rw [hr2]
    congr 1
    exact merge_twice_eq (fun wb d => wb.GetFactor d ≠ none) a b r r2 h hs hw hc2 hs2 hw2
  · obtain ⟨r, hr, _, hs, hw⟩ := MergeFactors_factorType_spec a b factorType h
    obtain ⟨r2, hr2, hc2, hs2, hw2⟩ := MergeFactors_factorType_spec r b factorType (hs.trans h)
    refine ⟨r, hr, ?_⟩
    rw [hr2]
    congr 1
    exact merge_twice_eq (fun _ d => d = factorType) a b r r2 h hs hw hc2 hs2 hw2
  · obtain ⟨r, hr, _, hs, hw⟩ := MergeFactors_factorVec_spec a b factorVec h
    obtain ⟨r2, hr2, hc2, hs2, hw2⟩ := MergeFactors_factorVec_spec r b factorVec (hs.trans h)
    refine ⟨r, hr, ?_⟩
    rw [hr2]
    congr 1
    exact merge_twice_eq (fun _ d => d ∈ factorVec) a b r r2 h hs hw hc2 hs2 hw2

/-- C3, at a concrete input: the merges of `[X Y]` into `[X Z]`, dimension 1 being the
restricted one. -/
theorem C3_MergeFactors_idempotent_witness :
    (phraseOf [wordXZ]).GetSize = (phraseOf [wordXY]).GetSize ∧
    ((∃ r, (phraseOf [wordXZ]).MergeFactors (phraseOf [wordXY]) = some r ∧
      r.MergeFactors (phraseOf [wordXY]) = some r) ∧
    (∃ r, (phraseOf [wordXZ]).MergeFactors_factorType (phraseOf [wordXY]) 1 = some r ∧
      r.MergeFactors_factorType (phraseOf [wordXY]) 1 = some r) ∧
    (∃ r, (phraseOf [wordXZ]).MergeFactors_factorVec (phraseOf [wordXY]) [1, 0] = some r ∧
      r.MergeFactors_factorVec (phraseOf [wordXY]) [1, 0] = some r)) :=
  ⟨by decide, C3_MergeFactors_idempotent _ _ 1 [1, 0] (by decide)⟩

/-- C4: the whole-phrase `IsCompatible` always returns, and returns `true` exactly when the
two phrases have the same size and at every position, for every factor type, one of the two
slots is empty or both hold the same factor; `[X, empty]` against `[X, Y]` gives `true`,
`[X, Z]` against `[X, Y]` gives `false`. -/
theorem C4_IsCompatible_iff :
    (∀ (n : Nat) (a b : Phrase n),
      (∃ v, a.IsCompatible b = some v) ∧
      (a.IsCompatible b = some true ↔
        a.GetSize = b.GetSize ∧
          ∀ (i : Nat) (d : FactorType n), i < a.GetSize →
            a.GetFactor i d = some none ∨ b.GetFactor i d = some none ∨
              a.GetFactor i d = b.GetFactor i d)) ∧
    (phraseOf [wordX]).IsCompatible (phraseOf [wordXY]) = some true ∧
    (phraseOf [wordXZ]).IsCompatible (phraseOf [wordXY]) = some false := by
  refine ⟨?_, by decide, by decide⟩
  intro n a b
  refine ⟨⟨_, IsCompatible_eq a b⟩, ?_⟩
  rw [IsCompatible_eq]
  simp only [Option.some.injEq, Bool.and_eq_true, decide_eq_true_eq, List.all_eq_true,
    List.mem_range, List.mem_finRange, true_implies]
  constructor
  · rintro ⟨hs, hall⟩
    refine ⟨hs.symm, fun i d hi => ?_⟩
    have := hall i hi d
    rw [GetFactor_eq_some_getD a i d hi, GetFactor_eq_some_getD b i d (hs ▸ hi)]
    generalize (a.GetFactor i d).getD none = x at this
    generalize (b.GetFactor i d).getD none = y at this
    simp only [Option.some.injEq]
    by_cases hx : x = none
    · exact Or.inl hx
    · by_cases hy : y = none
      · exact Or.inr (Or.inl hy)
      · right; right
        by_contra hxy
        simp [hx, hy, hxy] at this
  · rintro ⟨hs, hall⟩
    refine ⟨hs.symm, fun i hi d => ?_⟩
    have := hall i d hi
    rw [GetFactor_eq_some_getD a i d hi, GetFactor_eq_some_getD b i d (hs ▸ hi)] at this
    generalize (a.GetFactor i d).getD none = x at this
    generalize (b.GetFactor i d).getD none = y at this
    simp only [Option.some.injEq] at this
    rcases this with h1 | h1 | h1 <;> simp [h1]

/-- C5, the code at a failing input: slot 1 of `a` is empty and slot 1 of `b` holds `Y`, so
one side is empty at the only position, and yet the single-dimension and the
dimension-list `IsCompatible` for dimension 1 return `false`; the whole-phrase variant
returns `true` on the same phrases. -/
theorem C5_restricted_IsCompatible_rejects_empty_side :
    (phraseOf [wordX]).GetSize = (phraseOf [wordXY]).GetSize ∧
    (phraseOf [wordX]).GetFactor 0 1 = some none ∧
    (phraseOf [wordX]).IsCompatible_factorType (phraseOf [wordXY]) 1 = some false ∧
    (phraseOf [wordX]).IsCompatible_factorVec (phraseOf [wordXY]) [1] = some false ∧
    (phraseOf [wordX]).IsCompatible (phraseOf [wordXY]) = some true := by
  decide

/-- C6: `IsCompatible` is symmetric in its three variants: `a.IsCompatible(b)` and
`b.IsCompatible(a)` return the same boolean, for every factor type and every list of factor
types passed to the restricted variants. -/
theorem C6_IsCompatible_symmetric (a b : Phrase MAX_NUM_FACTORS)
    (factorType : FactorType MAX_NUM_FACTORS) (factorVec : List (FactorType MAX_NUM_FACTORS)) :
    a.IsCompatible b = b.IsCompatible a ∧
    a.IsCompatible_factorType b factorType = b.IsCompatible_factorType a factorType ∧
    a.IsCompatible_factorVec b factorVec = b.IsCompatible_factorVec a factorVec := by
  have hvec : ∀ vec : List (FactorType MAX_NUM_FACTORS),
      a.IsCompatible_factorVec b vec = b.IsCompatible_factorVec a vec := by
    intro vec
    rw [IsCompatible_factorVec_eq, IsCompatible_factorVec_eq]
    by_cases h : b.GetSize = a.GetSize
    · simp only [h, decide_True, Bool.true_and, Option.some.injEq]
      congr 1
      funext i
      congr 1
      funext d
      generalize (a.GetFactor i d).getD none = x
      generalize (b.GetFactor i d).getD none = y
      by_cases hxy : x = y
      · simp [hxy]
      · have hyx : ¬ y = x := fun e => hxy e.symm
        simp [hxy, hyx]
    · have h' : ¬ a.GetSize = b.GetSize := fun e => h e.symm
      simp [h, h']
  refine ⟨?_, ?_, hvec factorVec⟩
  · rw [IsCompatible_eq, IsCompatible_eq]
    by_cases h : b.GetSize = a.GetSize
    · simp only [h, decide_True, Bool.true_and, Option.some.injEq]
      congr 1
      funext i
      congr 1
      funext d
      generalize (a.GetFactor i d).getD none = x
      generalize (b.GetFactor i d).getD none = y
      by_cases hxy : x = y
      · simp [hxy]
      · have hyx : ¬ y = x := fun e => hxy e.symm
        by_cases hx : x = none <;> by_cases hy : y = none <;> simp [hxy, hyx, hx, hy]
    · have h' : ¬ a.GetSize = b.GetSize := fun e => h e.symm
      simp [h, h']
  · rw [IsCompatible_factorType_eq, IsCompatible_factorType_eq]
    exact hvec [factorType]

end Phrase

section Lex
variable {α : Type} (cmp : α → α → Int)

theorem lexCompare_self (hrefl : ∀ x, cmp x x = 0) : ∀ xs : List α, lexCompare cmp xs xs = 0 := by
  intro xs
  induction xs with
  | nil => rfl
  | cons x xs ih => simp [lexCompare, hrefl, ih]

theorem lexCompare_eq_zero_iff (h0 : ∀ x y, cmp x y = 0 ↔ x = y) :
    ∀ xs ys : List α, xs.length = ys.length → (lexCompare cmp xs ys = 0 ↔ xs = ys) := by
  intro xs
  induction xs with
  | nil =>
    intro ys h
    cases ys with
    | nil => simp [lexCompare]
    | cons y ys => simp at h
  | cons x xs ih =>
    intro ys h
    cases ys with
    | nil => simp at h
    | cons y ys =>
      simp only [List.length_cons, Nat.add_right_cancel_iff] at h
      simp only [lexCompare, List.cons.injEq]
      by_cases hxy : cmp x y = 0
      · simp only [hxy, ne_eq, not_true_eq_false, if_false]
        rw [ih ys h]
        simp [(h0 x y).mp hxy]
      · simp only [ne_eq, hxy, not_false_eq_true, if_true, false_iff]
        intro hcon
        exact hxy ((h0 x y).mpr hcon.1)

theorem lexCompare_neg_iff (h0 : ∀ x y, cmp x y = 0 ↔ x = y)
    (hanti : ∀ x y, cmp x y < 0 ↔ 0 < cmp y x) :
    ∀ xs ys : List α, xs.length = ys.length →
      (lexCompare cmp xs ys < 0 ↔ 0 < lexCompare cmp ys xs) := by
  intro xs
  induction xs with
  | nil =>
    intro ys h
    cases ys with
    | nil => simp [lexCompare]
    | cons y ys => simp at h
  | cons x xs ih =>
    intro ys h
    cases ys with
    | nil => simp at h
    | cons y ys =>
      simp only [List.length_cons, Nat.add_right_cancel_iff] at h
      simp only [lexCompare]
      by_cases hxy : cmp x y = 0
      · have hyx : cmp y x = 0 := (h0 y x).mpr ((h0 x y).mp hxy).symm
        simp only [hxy, hyx, ne_eq, not_true_eq_false, if_false]
        exact ih ys h
      · have hyx : ¬ cmp y x = 0 := fun e => hxy ((h0 x y).mpr ((h0 y x).mp e).symm)
        simp only [ne_eq, hxy, hyx, not_false_eq_true, if_true]
        exact hanti x y

theorem lexCompare_trans (h0 : ∀ x y, cmp x y = 0 ↔ x = y)
    (htrans : ∀ x y z, cmp x y < 0 → cmp y z < 0 → cmp x z < 0) :
    ∀ xs ys zs : List α, xs.length = ys.length → ys.length = zs.length →
      lexCompare cmp xs ys < 0 → lexCompare cmp ys zs < 0 → lexCompare cmp xs zs < 0 := by
  intro xs
  induction xs with
  | nil =>
    intro ys zs h1 _ hxy _
    cases ys with
    | nil => simp [lexCompare] at hxy
    | cons y ys => simp at h1
  | cons x xs ih =>
    intro ys zs h1 h2 hxy hyz
    cases ys with
    | nil => simp at h1
    | cons y ys =>
      cases zs with
      | nil => simp at h2
      | cons z zs =>
        simp only [List.length_cons, Nat.add_right_cancel_iff] at h1 h2
        simp only [lexCompare] at hxy hyz ⊢
        by_cases exy : cmp x y = 0
        · have hx : x = y := (h0 x y).mp exy
          subst hx
          simp only [exy, ne_eq, not_true_eq_false, if_false] at hxy
          by_cases eyz : cmp x z = 0
          · simp only [eyz, ne_eq, not_true_eq_false, if_false] at hyz ⊢
            exact ih ys zs h1 h2 hxy hyz
          · simp only [ne_eq, eyz, not_false_eq_true, if_true] at hyz ⊢
            exact hyz
        · simp only [ne_eq, exy, not_false_eq_true, if_true] at hxy
          by_cases eyz : cmp y z = 0
          · have hy : y = z := (h0 y z).mp eyz
            subst hy
            simp only [ne_eq, exy, not_false_eq_true, if_true]
            exact hxy
          · simp only [ne_eq, eyz, not_false_eq_true, if_true] at hyz
            have hxz : cmp x z < 0 := htrans x y z hxy hyz
            have : ¬ cmp x z = 0 := by omega
            simp only [ne_eq, this, not_false_eq_true, if_true]
            exact hxz

/-- The comparison is decided by the first position with an unequal pair. -/
theorem lexCompare_first_unequal :
    ∀ (xs ys : List α) (i : Nat) (x y : α), xs[i]? = some x → ys[i]? = some y →
      cmp x y ≠ 0 →
      (∀ j, j < i → ∀ u v, xs[j]? = some u → ys[j]? = some v → cmp u v = 0) →
      lexCompare cmp xs ys = cmp x y := by
  intro xs
  induction xs with
  | nil => intro ys i x y hx; simp at hx
  | cons a xs ih =>
    intro ys i x y hx hy hne hprev
    cases ys with
    | nil => simp at hy
    | cons b ys =>
      cases i with
      | zero =>
        simp only [List.getElem?_cons_zero, Option.some.injEq] at hx hy
        subst hx
        subst hy
        simp [lexCompare, hne]
      | succ i =>
        simp only [List.getElem?_cons_succ] at hx hy
        have hab : cmp a b = 0 := hprev 0 (Nat.succ_pos _) a b (by simp) (by simp)
        simp only [lexCompare, hab, ne_eq, not_true_eq_false, if_false]
        exact ih ys i x y hx hy hne (fun j hj u v hu hv =>
          hprev (j + 1) (Nat.succ_lt_succ hj) u v (by simpa using hu) (by simpa using hv))

end Lex

namespace Phrase
variable {MAX_NUM_FACTORS : Nat}

theorem compareLoop_range' (cmp : Word MAX_NUM_FACTORS → Word MAX_NUM_FACTORS → Int)
    (a b : Phrase MAX_NUM_FACTORS) :
    ∀ (m k : Nat) (xs ys : List (Word MAX_NUM_FACTORS)),
      a.m_words.drop k = xs → b.m_words.drop k = ys → xs.length = m → ys.length = m →
      compareLoop cmp a b (List.range' k m) = some (lexCompare cmp xs ys) := by
  intro m
  induction m with
  | zero =>
    intro k xs ys _ _ hx _
    have : xs = [] := List.length_eq_zero.mp hx
    subst this
    simp [compareLoop, lexCompare]
  | succ m ih =>
    intro k xs ys hxs hys hx hy
    cases xs with
    | nil => simp at hx
    | cons x xs =>
      cases ys with
      | nil => simp at hy
      | cons y ys =>
        have hax : a.m_words[k]? = some x := by
          have := List.getElem?_drop a.m_words k 0
          rw [hxs] at this
          simpa using this.symm
        have hby : b.m_words[k]? = some y := by
          have := List.getElem?_drop b.m_words k 0
          rw [hys] at this
          simpa using this.symm
        have hxs' : a.m_words.drop (k + 1) = xs := by
          have := congrArg (List.drop 1) hxs
          simpa [List.drop_drop, Nat.add_comm] using this
        have hys' : b.m_words.drop (k + 1) = ys := by
          have := congrArg (List.drop 1) hys
          simpa [List.drop_drop, Nat.add_comm] using this
        simp only [List.length_cons, Nat.add_right_cancel_iff] at hx hy
        simp only [List.range'_succ, compareLoop, GetWord, hax, hby, Option.some_bind,
          lexCompare]
        rw [ih (k + 1) xs ys hxs' hys' hx hy]
        by_cases hc : cmp x y = 0 <;> simp [hc]

/-- `Compare` in closed form: by size first, then lexicographically by the words. -/
theorem Compare_eq (cmp : Word MAX_NUM_FACTORS → Word MAX_NUM_FACTORS → Int)
    (a b : Phrase MAX_NUM_FACTORS) :
    a.Compare cmp b = some (if a.GetSize ≠ b.GetSize then
        (if a.GetSize < b.GetSize then -1 else 1)
      else lexCompare cmp a.m_words b.m_words) := by
  unfold Compare
  by_cases h : a.GetSize = b.GetSize
  · simp only [h, ne_eq, not_true_eq_false, if_false]
    rw [List.range_eq_range']
    exact compareLoop_range' cmp a b b.GetSize 0 _ _ rfl rfl h rfl
  · simp [h]

end Phrase

theorem slotCompare_some_some (a b : Nat) :
    slotCompare (some a) (some b) = if a < b then -1 else if b < a then 1 else 0 := rfl

theorem slotCompare_some_eq_zero_iff (a b : Nat) :
    slotCompare (some a) (some b) = 0 ↔ a = b := by
  rw [slotCompare_some_some]
  by_cases h1 : a < b
  · simp only [h1, if_true]
    constructor
    · intro h; omega
    · intro h; omega
  · by_cases h2 : b < a
    · simp only [h1, h2, if_true, if_false]
      constructor
      · intro h; omega
      · intro h; omega
    · simp only [h1, h2, if_false, true_iff]
      omega

theorem slotCompare_neg_iff_lt (a b : Nat) : slotCompare (some a) (some b) < 0 ↔ a < b := by
  rw [slotCompare_some_some]
  by_cases h1 : a < b
  · simp [h1]
  · by_cases h2 : b < a <;> simp [h1, h2]

theorem slotCompare_pos_iff_lt (a b : Nat) : 0 < slotCompare (some a) (some b) ↔ b < a := by
  rw [slotCompare_some_some]
  by_cases h1 : a < b
  · have h2 : ¬ b < a := by omega
    simp [h1, h2]
  · by_cases h2 : b < a <;> simp [h1, h2]

theorem slotCompare_eq_zero_iff (x y : Option Factor) : slotCompare x y = 0 ↔ x = y := by
  cases x with
  | none => cases y <;> simp [slotCompare]
  | some a =>
    cases y with
    | none => simp [slotCompare]
    | some b =>
      rw [slotCompare_some_eq_zero_iff]
      simp

theorem slotCompare_neg_iff (x y : Option Factor) : slotCompare x y < 0 ↔ 0 < slotCompare y x := by
  cases x with
  | none => cases y <;> simp [slotCompare]
  | some a =>
    cases y with
    | none => simp [slotCompare]
    | some b => rw [slotCompare_neg_iff_lt, slotCompare_pos_iff_lt]

theorem slotCompare_trans (x y z : Option Factor) (hxy : slotCompare x y < 0)
    (hyz : slotCompare y z < 0) : slotCompare x z < 0 := by
  cases x with
  | none =>
    cases z with
    | none => cases y <;> simp [slotCompare] at hxy hyz
    | some c => simp [slotCompare]
  | some a =>
    cases y with
    | none => simp [slotCompare] at hxy
    | some b =>
      cases z with
      | none => simp [slotCompare] at hyz
      | some c =>
        rw [slotCompare_neg_iff_lt] at hxy hyz ⊢
        exact Nat.lt_trans hxy hyz

namespace Word
variable {MAX_NUM_FACTORS : Nat}

theorem ext_array {a b : Word MAX_NUM_FACTORS} (hf : a.m_factorArray = b.m_factorArray)
    (hn : a.m_isNonTerminal = b.m_isNonTerminal) : a = b := by
  cases a
  cases b
  simp only [mk.injEq]
  exact ⟨hf, hn⟩

theorem length_eq (a b : Word MAX_NUM_FACTORS) :
    a.m_factorArray.length = b.m_factorArray.length := a.size_eq.trans b.size_eq.symm

theorem Compare_self (a : Word MAX_NUM_FACTORS) : Word.Compare a a = 0 :=
  lexCompare_self slotCompare (fun x => (slotCompare_eq_zero_iff x x).mpr rfl) _

theorem CompareKindFirst_eq_zero_iff (a b : Word MAX_NUM_FACTORS) :
    CompareKindFirst a b = 0 ↔ a = b := by
  unfold CompareKindFirst IsNonTerminal
  by_cases hn : a.m_isNonTerminal = b.m_isNonTerminal
  · simp only [hn, ne_eq, not_true_eq_false, if_false]
    unfold Word.Compare
    rw [lexCompare_eq_zero_iff slotCompare slotCompare_eq_zero_iff _ _ (length_eq a b)]
    constructor
    · intro h
      exact ext_array h hn
    · intro h
      rw [h]
  · simp only [ne_eq, hn, not_false_eq_true, if_true]
    constructor
    · intro h
      cases hf : a.m_isNonTerminal <;> simp [hf] at h
    · intro h
      exact absurd (congrArg Word.m_isNonTerminal h) hn

theorem CompareKindFirst_neg_iff (a b : Word MAX_NUM_FACTORS) :
    CompareKindFirst a b < 0 ↔ 0 < CompareKindFirst b a := by
  unfold CompareKindFirst IsNonTerminal
  by_cases hn : a.m_isNonTerminal = b.m_isNonTerminal
  · simp only [hn, ne_eq, not_true_eq_false, if_false]
    exact lexCompare_neg_iff slotCompare slotCompare_eq_zero_iff slotCompare_neg_iff _ _
      (length_eq a b)
  · have hn' : ¬ b.m_isNonTerminal = a.m_isNonTerminal := fun e => hn e.symm
    simp only [ne_eq, hn, hn', not_false_eq_true, if_true]
    cases ha : a.m_isNonTerminal <;> cases hb : b.m_isNonTerminal <;> simp_all

theorem CompareKindFirst_trans (a b c : Word MAX_NUM_FACTORS)
    (hab : CompareKindFirst a b < 0) (hbc : CompareKindFirst b c < 0) :
    CompareKindFirst a c < 0 := by
  unfold CompareKindFirst IsNonTerminal at *
  cases ha : a.m_isNonTerminal <;> cases hb : b.m_isNonTerminal <;>
    cases hc : c.m_isNonTerminal <;> simp [ha, hb, hc] at hab hbc ⊢
  · exact lexCompare_trans slotCompare slotCompare_eq_zero_iff slotCompare_trans _ _ _
      (length_eq a b) (length_eq b c) hab hbc
  · exact lexCompare_trans slotCompare slotCompare_eq_zero_iff slotCompare_trans _ _ _
      (length_eq a b) (length_eq b c) hab hbc

end Word

namespace Phrase
variable {MAX_NUM_FACTORS : Nat}

/-- C7: `Compare` looks at the sizes first: when `a` is shorter than `b`, `a.Compare(b)`
returns -1 and `b.Compare(a)` returns 1, whatever the words and whatever `Word::Compare`
does. -/
theorem C7_Compare_length_first
    (wordCompare : Word MAX_NUM_FACTORS → Word MAX_NUM_FACTORS → Int)
    (a b : Phrase MAX_NUM_FACTORS) (h : a.GetSize < b.GetSize) :
    a.Compare wordCompare b = some (-1) ∧ b.Compare wordCompare a = some 1 := by
  have h1 : a.GetSize ≠ b.GetSize := by omega
  have h2 : b.GetSize ≠ a.GetSize := by omega
  have h3 : ¬ b.GetSize < a.GetSize := by omega
  simp [Compare_eq, h, h1, h2, h3]

/-- C7, at a concrete input: a phrase of two words against one of three, with
`Word.Compare` for the words. -/
theorem C7_Compare_length_first_witness :
    (phraseOf [wordXZ, wordXY]).GetSize < (phraseOf [wordX, wordX, wordX]).GetSize ∧
    (phraseOf [wordXZ, wordXY]).Compare Word.Compare (phraseOf [wordX, wordX, wordX])
      = some (-1) ∧
    (phraseOf [wordX, wordX, wordX]).Compare Word.Compare (phraseOf [wordXZ, wordXY])
      = some 1 :=
  ⟨by decide, C7_Compare_length_first Word.Compare _ _ (by decide)⟩

end Phrase

namespace Phrase
variable {MAX_NUM_FACTORS : Nat}

/-- C8: when `Word::Compare` is the three-way comparison of a strict total order on words
(`0` exactly for the same word, opposite signs for swapped arguments, transitive),
`Phrase::Compare` always returns and is such a comparison on phrases: `a.Compare(b)` and
`b.Compare(a)` have opposite signs and are `0` together, exactly when the two phrases
consist of the same words; `a.Compare(b) < 0` and `b.Compare(c) < 0` give
`a.Compare(c) < 0`; and between phrases of one size the result is the word comparison at
the first position where it is not `0`. -/
theorem C8_Compare_strict_total_order
    (wordCompare : Word MAX_NUM_FACTORS → Word MAX_NUM_FACTORS → Int)
    (h0 : ∀ x y, wordCompare x y = 0 ↔ x = y)
    (hanti : ∀ x y, wordCompare x y < 0 ↔ 0 < wordCompare y x)
    (htrans : ∀ x y z, wordCompare x y < 0 → wordCompare y z < 0 → wordCompare x z < 0) :
    (∀ a b : Phrase MAX_NUM_FACTORS, ∃ ab ba : Int,
      a.Compare wordCompare b = some ab ∧ b.Compare wordCompare a = some ba ∧
      (ab < 0 ↔ 0 < ba) ∧ (0 < ab ↔ ba < 0) ∧ (ab = 0 ↔ ba = 0) ∧
      (ab = 0 ↔ a.m_words = b.m_words)) ∧
    (∀ (a b c : Phrase MAX_NUM_FACTORS) (ab bc : Int),
      a.Compare wordCompare b = some ab → b.Compare wordCompare c = some bc →
      ab < 0 → bc < 0 → ∃ ac, a.Compare wordCompare c = some ac ∧ ac < 0) ∧
    (∀ (a b : Phrase MAX_NUM_FACTORS), a.GetSize = b.GetSize →
      ∀ (i : Nat) (wa wb : Word MAX_NUM_FACTORS),
        a.GetWord i = some wa → b.GetWord i = some wb → wordCompare wa wb ≠ 0 →
        (∀ j, j < i → ∀ xa xb, a.GetWord j = some xa → b.GetWord j = some xb →
          wordCompare xa xb = 0) →
        a.Compare wordCompare b = some (wordCompare wa wb)) := by
  refine ⟨?_, ?_, ?_⟩
  · intro a b
    refine ⟨_, _, Compare_eq wordCompare a b, Compare_eq wordCompare b a, ?_⟩
    by_cases hs : a.GetSize = b.GetSize
    · have hl : a.m_words.length = b.m_words.length := hs
      simp only [hs, ne_eq, not_true_eq_false, if_false]
      have h1 := lexCompare_neg_iff wordCompare h0 hanti _ _ hl
      have h2 := lexCompare_neg_iff wordCompare h0 hanti _ _ hl.symm
      have h3 := lexCompare_eq_zero_iff wordCompare h0 _ _ hl
      have h4 := lexCompare_eq_zero_iff wordCompare h0 _ _ hl.symm
      refine ⟨h1, h2.symm, ?_, h3⟩
      rw [h3, h4]
      exact eq_comm
    · have hs' : ¬ b.GetSize = a.GetSize := fun e => hs e.symm
      have hne : a.m_words ≠ b.m_words := fun e => hs (congrArg List.length e)
      simp only [ne_eq, hs, hs', not_false_eq_true, if_true]
      by_cases hlt : a.GetSize < b.GetSize
      · have hgt : ¬ b.GetSize < a.GetSize := by omega
        simp [hlt, hgt, hne]
      · have hgt : b.GetSize < a.GetSize := by omega
        simp [hlt, hgt, hne]
  · intro a b c ab bc hab hbc hneg1 hneg2
    refine ⟨_, Compare_eq wordCompare a c, ?_⟩
    rw [Compare_eq] at hab hbc
    simp only [Option.some.injEq] at hab hbc
    subst hab
    subst hbc
    by_cases h1 : a.GetSize = b.GetSize
    · simp only [h1, ne_eq, not_true_eq_false, if_false] at hneg1
      by_cases h2 : b.GetSize = c.GetSize
      · simp only [h2, ne_eq, not_true_eq_false, if_false] at hneg2
        simp only [h1, h2, ne_eq, not_true_eq_false, if_false]
        exact lexCompare_trans wordCompare h0 htrans _ _ _ h1 h2 hneg1 hneg2
      · simp only [ne_eq, h2, not_false_eq_true, if_true] at hneg2
        have hlt : b.GetSize < c.GetSize := by
          by_contra hcon
          simp [hcon] at hneg2
        have h3 : ¬ a.GetSize = c.GetSize := by omega
        have h4 : a.GetSize < c.GetSize := by omega
        simp [h3, h4]
    · simp only [ne_eq, h1, not_false_eq_true, if_true] at hneg1
      have hlt : a.GetSize < b.GetSize := by
        by_contra hcon
        simp [hcon] at hneg1
      by_cases h2 : b.GetSize = c.GetSize
      · have h3 : ¬ a.GetSize = c.GetSize := by omega
        have h4 : a.GetSize < c.GetSize := by omega
        simp [h3, h4]
      · simp only [ne_eq, h2, not_false_eq_true, if_true] at hneg2
        have hlt2 : b.GetSize < c.GetSize := by
          by_contra hcon
          simp [hcon] at hneg2
        have h3 : ¬ a.GetSize = c.GetSize := by omega
        have h4 : a.GetSize < c.GetSize := by omega
        simp [h3, h4]
  · intro a b hs i wa wb hwa hwb hne hprev
    rw [Compare_eq]
    simp only [hs, ne_eq, not_true_eq_false, if_false, Option.some.injEq]
    exact lexCompare_first_unequal wordCompare _ _ i wa wb hwa hwb hne hprev

/-- C8, at a concrete word comparison: `Word.CompareKindFirst` over two factor types is
the three-way comparison of a strict total order on words. -/
theorem C8_Compare_strict_total_order_witness :
    ((∀ x y : Word 2, Word.CompareKindFirst x y = 0 ↔ x = y) ∧
     (∀ x y : Word 2, Word.CompareKindFirst x y < 0 ↔ 0 < Word.CompareKindFirst y x) ∧
     (∀ x y z : Word 2, Word.CompareKindFirst x y < 0 → Word.CompareKindFirst y z < 0 →
        Word.CompareKindFirst x z < 0)) ∧
    ((∀ a b : Phrase 2, ∃ ab ba : Int,
      a.Compare Word.CompareKindFirst b = some ab ∧
      b.Compare Word.CompareKindFirst a = some ba ∧
      (ab < 0 ↔ 0 < ba) ∧ (0 < ab ↔ ba < 0) ∧ (ab = 0 ↔ ba = 0) ∧
      (ab = 0 ↔ a.m_words = b.m_words)) ∧
    (∀ (a b c : Phrase 2) (ab bc : Int),
      a.Compare Word.CompareKindFirst b = some ab →
      b.Compare Word.CompareKindFirst c = some bc →
      ab < 0 → bc < 0 → ∃ ac, a.Compare Word.CompareKindFirst c = some ac ∧ ac < 0) ∧
    (∀ (a b : Phrase 2), a.GetSize = b.GetSize →
      ∀ (i : Nat) (wa wb : Word 2),
        a.GetWord i = some wa → b.GetWord i = some wb → Word.CompareKindFirst wa wb ≠ 0 →
        (∀ j, j < i → ∀ xa xb, a.GetWord j = some xa → b.GetWord j = some xb →
          Word.CompareKindFirst xa xb = 0) →
        a.Compare Word.CompareKindFirst b = some (Word.CompareKindFirst wa wb))) :=
  ⟨⟨Word.CompareKindFirst_eq_zero_iff, Word.CompareKindFirst_neg_iff,
      Word.CompareKindFirst_trans⟩,
    C8_Compare_strict_total_order Word.CompareKindFirst Word.CompareKindFirst_eq_zero_iff
      Word.CompareKindFirst_neg_iff Word.CompareKindFirst_trans⟩

end Phrase

theorem tokenizeAnyAux_nil (seps cur : Str) :
    tokenizeAnyAux seps [] cur = if cur = [] then [] else [cur] := rfl

theorem tokenizeAnyAux_cons (seps cur cs : Str) (c : Char) :
    tokenizeAnyAux seps (c :: cs) cur =
      if c ∈ seps then
        (if cur = [] then tokenizeAnyAux seps cs [] else cur :: tokenizeAnyAux seps cs [])
      else tokenizeAnyAux seps cs (cur ++ [c]) := rfl

theorem tokenizeMultiAux_cons_succ (d cur cs : Str) (c : Char) (skip : Nat) :
    tokenizeMultiAux d (c :: cs) cur (skip + 1) = tokenizeMultiAux d cs cur skip := rfl

theorem tokenizeMultiAux_cons_zero (d cur cs : Str) (c : Char) :
    tokenizeMultiAux d (c :: cs) cur 0 =
      if !d.isEmpty && d.isPrefixOf (c :: cs) then
        cur :: tokenizeMultiAux d cs [] (d.length - 1)
      else tokenizeMultiAux d cs (cur ++ [c]) 0 := rfl

/-- Separator-free characters are added to the token being read. -/
theorem tokenizeAnyAux_word (seps : Str) :
    ∀ (w r cur : Str), (∀ c ∈ w, c ∉ seps) →
      tokenizeAnyAux seps (w ++ r) cur = tokenizeAnyAux seps r (cur ++ w) := by
  intro w
  induction w with
  | nil => intro r cur _; simp
  | cons c w ih =>
    intro r cur h
    have hc : c ∉ seps := h c (List.mem_cons_self _ _)
    rw [List.cons_append, tokenizeAnyAux_cons, if_neg hc]
    rw [ih r (cur ++ [c]) (fun x hx => h x (List.mem_cons_of_mem _ hx))]
    simp

/-- Spaces before a token are passed over. -/
theorem tokenizeAnyAux_spaces_nil (seps : Str) (hs : ' ' ∈ seps) :
    ∀ (n : Nat) (r : Str),
      tokenizeAnyAux seps (spaces n ++ r) [] = tokenizeAnyAux seps r [] := by
  intro n
  induction n with
  | zero => intro r; simp [spaces]
  | succ n ih =>
    intro r
    have : spaces (n + 1) = ' ' :: spaces n := by simp [spaces, List.replicate_succ]
    rw [this, List.cons_append, tokenizeAnyAux_cons, if_pos hs, if_pos rfl]
    exact ih r

/-- Spaces after a token end it. -/
theorem tokenizeAnyAux_spaces_cons (seps : Str) (hs : ' ' ∈ seps) (n : Nat) (r cur : Str)
    (hn : 0 < n) (hcur : cur ≠ []) :
    tokenizeAnyAux seps (spaces n ++ r) cur = cur :: tokenizeAnyAux seps r [] := by
  cases n with
  | zero => omega
  | succ n =>
    have : spaces (n + 1) = ' ' :: spaces n := by simp [spaces, List.replicate_succ]
    rw [this, List.cons_append, tokenizeAnyAux_cons, if_pos hs, if_neg hcur]
    rw [tokenizeAnyAux_spaces_nil seps hs]

/-- A text without separator characters is one token, or none when it is empty. -/
theorem tokenizeAny_of_no_sep (seps s : Str) (h : ∀ c ∈ s, c ∉ seps) :
    tokenizeAny s seps = if s = [] then [] else [s] := by
  unfold tokenizeAny
  have := tokenizeAnyAux_word seps s [] [] h
  simp only [List.append_nil, List.nil_append] at this
  rw [this, tokenizeAnyAux_nil]

theorem tokenizeMultiAux_skip (d : Str) :
    ∀ (pre r cur : Str),
      tokenizeMultiAux d (pre ++ r) cur pre.length = tokenizeMultiAux d r cur 0 := by
  intro pre
  induction pre with
  | nil => intro r cur; simp
  | cons c pre ih =>
    intro r cur
    rw [List.cons_append, List.length_cons, tokenizeMultiAux_cons_succ]
    exact ih r cur

/-- Characters that do not occur in the delimiter are added to the piece being read. -/
theorem tokenizeMultiAux_factor (d : Str) :
    ∀ (f r cur : Str), (∀ c ∈ f, c ∉ d) →
      tokenizeMultiAux d (f ++ r) cur 0 = tokenizeMultiAux d r (cur ++ f) 0 := by
  intro f
  induction f with
  | nil => intro r cur _; simp
  | cons c f ih =>
    intro r cur h
    have hc : c ∉ d := h c (List.mem_cons_self _ _)
    have hpre : (!d.isEmpty && d.isPrefixOf (c :: (f ++ r))) = false := by
      cases d with
      | nil => rfl
      | cons d0 d' =>
        have : ¬ d0 = c := fun e => hc (e ▸ List.mem_cons_self _ _)
        simp [List.isPrefixOf, this]
    rw [List.cons_append, tokenizeMultiAux_cons_zero, hpre]
    simp only [Bool.false_eq_true, if_false]
    rw [ih r (cur ++ [c]) (fun x hx => h x (List.mem_cons_of_mem _ hx))]
    simp

/-- An occurrence of the delimiter ends the piece being read. -/
theorem tokenizeMultiAux_delimiter (d : Str) (hd : d ≠ []) (r cur : Str) :
    tokenizeMultiAux d (d ++ r) cur 0 = cur :: tokenizeMultiAux d r [] 0 := by
  cases d with
  | nil => exact absurd rfl hd
  | cons d0 d' =>
    have hpre : (!(d0 :: d').isEmpty && (d0 :: d').isPrefixOf (d0 :: (d' ++ r))) = true := by
      have : (d0 :: d') <+: (d0 :: (d' ++ r)) := ⟨r, rfl⟩
      simp [List.isPrefixOf_iff_prefix.mpr this]
    rw [List.cons_append, tokenizeMultiAux_cons_zero, hpre]
    simp only [if_true, List.length_cons, Nat.add_sub_cancel]
    rw [tokenizeMultiAux_skip]

/-- Splitting the joined factors of a word at the delimiter gives the factors back. -/
theorem tokenizeMultiAux_joinFactors (d : Str) (hd : d ≠ []) :
    ∀ (fs : List Str) (f cur : Str), (∀ g ∈ f :: fs, ∀ c ∈ g, c ∉ d) →
      tokenizeMultiAux d (joinFactors d (f :: fs)) cur 0 = (cur ++ f) :: fs := by
  intro fs
  induction fs with
  | nil =>
    intro f cur h
    have := tokenizeMultiAux_factor d f [] cur (h f (List.mem_cons_self _ _))
    simp only [List.append_nil] at this
    simp only [joinFactors, this, tokenizeMultiAux]
  | cons g fs ih =>
    intro f cur h
    simp only [joinFactors, List.append_assoc]
    rw [tokenizeMultiAux_factor d f _ cur (h f (List.mem_cons_self _ _)),
      tokenizeMultiAux_delimiter d hd,
      ih g [] (fun x hx => h x (List.mem_cons_of_mem _ hx))]
    simp

theorem tokenizeMulti_joinFactors (d : Str) (hd : d ≠ []) (fs : List Str) (hfs : fs ≠ [])
    (h : ∀ g ∈ fs, ∀ c ∈ g, c ∉ d) : tokenizeMulti (joinFactors d fs) d = fs := by
  cases fs with
  | nil => exact absurd rfl hfs
  | cons f fs =>
    unfold tokenizeMulti
    rw [tokenizeMultiAux_joinFactors d hd fs f [] h]
    simp

/-- The characters of the joined factors are those of the factors and of the delimiter. -/
theorem mem_joinFactors (d : Str) :
    ∀ (fs : List Str) (c : Char), c ∈ joinFactors d fs → c ∈ d ∨ ∃ g ∈ fs, c ∈ g := by
  intro fs
  induction fs with
  | nil => intro c h; simp [joinFactors] at h
  | cons f fs ih =>
    intro c h
    cases fs with
    | nil =>
      simp only [joinFactors] at h
      exact Or.inr ⟨f, List.mem_cons_self _ _, h⟩
    | cons g fs =>
      simp only [joinFactors, List.mem_append] at h
      rcases h with (h | h) | h
      · exact Or.inr ⟨f, List.mem_cons_self _ _, h⟩
      · exact Or.inl h
      · rcases ih c h with h' | ⟨x, hx, hc⟩
        · exact Or.inl h'
        · exact Or.inr ⟨x, List.mem_cons_of_mem _ hx, hc⟩

theorem joinFactors_ne_nil (d : Str) (fs : List Str) (hfs : fs ≠ [])
    (h : ∀ g ∈ fs, g ≠ []) : joinFactors d fs ≠ [] := by
  cases fs with
  | nil => exact absurd rfl hfs
  | cons f fs =>
    have hf : f ≠ [] := h f (List.mem_cons_self _ _)
    cases fs with
    | nil => simpa [joinFactors] using hf
    | cons g fs => simp [joinFactors, hf]

theorem tokenizeAnyAux_layoutText (seps d : Str) (hs : ' ' ∈ seps) (trail : Nat) :
    ∀ (ws : List (Nat × List Str)) (cur : Str), cur ≠ [] →
      (∀ p ∈ ws, 0 < p.1) →
      (∀ p ∈ ws, joinFactors d p.2 ≠ [] ∧ ∀ c ∈ joinFactors d p.2, c ∉ seps) →
      tokenizeAnyAux seps (layoutText d ws trail) cur =
        cur :: ws.map (fun p => joinFactors d p.2) := by
  intro ws
  induction ws with
  | nil =>
    intro cur hcur _ _
    simp only [layoutText, List.map_nil]
    cases trail with
    | zero => simp [spaces, tokenizeAnyAux_nil, hcur]
    | succ t =>
      have := tokenizeAnyAux_spaces_cons seps hs (t + 1) [] cur (Nat.succ_pos _) hcur
      simp only [List.append_nil] at this
      rw [this, tokenizeAnyAux_nil]
      simp
  | cons p rest ih =>
    intro cur hcur hgap hw
    obtain ⟨g, fs⟩ := p
    have hg : 0 < g := hgap (g, fs) (List.mem_cons_self _ _)
    obtain ⟨hne, hfree⟩ := hw (g, fs) (List.mem_cons_self _ _)
    simp only [layoutText, List.map_cons, List.append_assoc]
    rw [tokenizeAnyAux_spaces_cons seps hs g _ cur hg hcur,
      tokenizeAnyAux_word seps _ _ [] hfree, List.nil_append,
      ih _ hne (fun q hq => hgap q (List.mem_cons_of_mem _ hq))
        (fun q hq => hw q (List.mem_cons_of_mem _ hq))]

/-- The tokens of a laid out text are its words. -/
theorem tokenizeAny_layoutText (seps d : Str) (hs : ' ' ∈ seps) (trail : Nat)
    (ws : List (Nat × List Str)) (hgap : ∀ p ∈ ws.tail, 0 < p.1)
    (hw : ∀ p ∈ ws, joinFactors d p.2 ≠ [] ∧ ∀ c ∈ joinFactors d p.2, c ∉ seps) :
    tokenizeAny (layoutText d ws trail) seps = ws.map (fun p => joinFactors d p.2) := by
  unfold tokenizeAny
  cases ws with
  | nil =>
    have := tokenizeAnyAux_spaces_nil seps hs trail []
    simp only [List.append_nil] at this
    simp only [layoutText, List.map_nil, this, tokenizeAnyAux_nil, if_true]
  | cons p rest =>
    obtain ⟨g, fs⟩ := p
    obtain ⟨hne, hfree⟩ := hw (g, fs) (List.mem_cons_self _ _)
    simp only [layoutText, List.map_cons, List.append_assoc]
    rw [tokenizeAnyAux_spaces_nil seps hs, tokenizeAnyAux_word seps _ _ [] hfree,
      List.nil_append,
      tokenizeAnyAux_layoutText seps d hs trail rest _ hne hgap
        (fun q hq => hw q (List.mem_cons_of_mem _ hq))]

/-- No character of a laid out text is a tab when none of its words has one. -/
theorem mem_layoutText (d : Str) (trail : Nat) :
    ∀ (ws : List (Nat × List Str)) (c : Char), c ∈ layoutText d ws trail →
      c = ' ' ∨ ∃ p ∈ ws, c ∈ joinFactors d p.2 := by
  intro ws
  induction ws with
  | nil =>
    intro c h
    simp only [layoutText, spaces, List.mem_replicate] at h
    exact Or.inl h.2
  | cons p rest ih =>
    intro c h
    obtain ⟨g, fs⟩ := p
    simp only [layoutText, List.mem_append, spaces, List.mem_replicate] at h
    rcases h with (h | h) | h
    · exact Or.inl h.2
    · exact Or.inr ⟨(g, fs), List.mem_cons_self _ _, h⟩
    · rcases ih c h with h' | ⟨q, hq, hc⟩
      · exact Or.inl h'
      · exact Or.inr ⟨q, List.mem_cons_of_mem _ hq, hc⟩

namespace Phrase
variable {MAX_NUM_FACTORS : Nat}

/-- The inner loop of `CreateFromString` on as many factor strings as `factorOrder` still
has entries: every one of them is stored, and `index` ends at `factorOrder.size()`. -/
theorem factorLoop_eq (AddFactor : Str → Factor)
    (factorOrder : List (FactorType MAX_NUM_FACTORS)) :
    ∀ (toks : List Str) (index : Nat) (word : Word MAX_NUM_FACTORS),
      index + toks.length = factorOrder.length →
      factorLoop AddFactor factorOrder toks index word =
        (((factorOrder.drop index).zip toks).foldl
          (fun w p => w.SetFactor p.1 (AddFactor p.2)) word, factorOrder.length) := by
  intro toks
  induction toks with
  | nil =>
    intro index word h
    simp only [List.length_nil, Nat.add_zero] at h
    simp [factorLoop, h]
  | cons tok toks ih =>
    intro index word h
    simp only [List.length_cons] at h
    have hlt : index < factorOrder.length := by omega
    have hdrop : factorOrder.drop index =
        factorOrder[index] :: factorOrder.drop (index + 1) :=
      List.drop_eq_getElem_cons hlt
    simp only [factorLoop, hlt, dite_true, List.get_eq_getElem]
    rw [ih (index + 1) _ (by omega), hdrop]
    rfl

end Phrase

namespace Word
variable {MAX_NUM_FACTORS : Nat}

/-- A slot that none of the stored pairs names keeps its content. -/
theorem GetFactor_foldl_pairs_of_not_mem (AddFactor : Str → Factor)
    (d : FactorType MAX_NUM_FACTORS) :
    ∀ (pairs : List (FactorType MAX_NUM_FACTORS × Str)) (w : Word MAX_NUM_FACTORS),
      (∀ p ∈ pairs, p.1 ≠ d) →
      (pairs.foldl (fun w p => w.SetFactor p.1 (AddFactor p.2)) w).GetFactor d =
        w.GetFactor d := by
  intro pairs
  induction pairs with
  | nil => intro w _; rfl
  | cons p pairs ih =>
    intro w h
    simp only [List.foldl_cons]
    rw [ih _ (fun q hq => h q (List.mem_cons_of_mem _ hq)), GetFactor_SetFactor]
    have : ¬ d = p.1 := fun e => h p (List.mem_cons_self _ _) e.symm
    simp [this]

/-- A slot holds the factor stored for the last entry of the order that names it. -/
theorem GetFactor_foldl_zip_last (AddFactor : Str → Factor)
    (d : FactorType MAX_NUM_FACTORS) :
    ∀ (order : List (FactorType MAX_NUM_FACTORS)) (toks : List Str)
      (w : Word MAX_NUM_FACTORS) (i : Nat) (tok : Str),
      order[i]? = some d → toks[i]? = some tok →
      (∀ i', i < i' → order[i']? ≠ some d) →
      ((order.zip toks).foldl (fun w p => w.SetFactor p.1 (AddFactor p.2)) w).GetFactor d =
        some (AddFactor tok) := by
  intro order
  induction order with
  | nil => intro toks w i tok h; simp at h
  | cons e order ih =>
    intro toks w i tok ho ht hlast
    cases toks with
    | nil => simp at ht
    | cons t toks =>
      simp only [List.zip_cons_cons, List.foldl_cons]
      cases i with
      | zero =>
        simp only [List.getElem?_cons_zero, Option.some.injEq] at ho ht
        subst ho
        subst ht
        rw [GetFactor_foldl_pairs_of_not_mem, GetFactor_SetFactor]
        · simp
        · intro p hp hcon
          have hmem : p.1 ∈ order := (List.of_mem_zip hp).1
          obtain ⟨k, hk, hke⟩ := List.getElem_of_mem hmem
          have := hlast (k + 1) (Nat.succ_pos _)
          simp only [List.getElem?_cons_succ] at this
          rw [List.getElem?_eq_getElem hk, hke, hcon] at this
          exact this rfl
      | succ i =>
        simp only [List.getElem?_cons_succ] at ho ht
        exact ih toks _ i tok ho ht (fun i' hi' => by
          have := hlast (i' + 1) (Nat.succ_lt_succ hi')
          simpa using this)

theorem isNonTerminal_foldl_pairs (AddFactor : Str → Factor) :
    ∀ (pairs : List (FactorType MAX_NUM_FACTORS × Str)) (w : Word MAX_NUM_FACTORS),
      (pairs.foldl (fun w p => w.SetFactor p.1 (AddFactor p.2)) w).m_isNonTerminal =
        w.m_isNonTerminal := by
  intro pairs
  induction pairs with
  | nil => intro w; rfl
  | cons p pairs ih =>
    intro w
    simp only [List.foldl_cons]
    rw [ih]
    rfl

end Word

namespace Phrase
variable {MAX_NUM_FACTORS : Nat}

/-- The loop of `GetSubString` over positions inside the phrase appends the words at these
positions. -/
theorem GetSubString_loop (self : Phrase MAX_NUM_FACTORS) :
    ∀ (m k : Nat) (acc : Phrase MAX_NUM_FACTORS), k + m ≤ self.GetSize →
      (List.range' k m).foldlM
        (fun retPhrase currPos =>
          (self.GetWord currPos).map fun word => retPhrase.AddWord word) acc =
        some { acc with m_words := acc.m_words ++ (self.m_words.drop k).take m } := by
  intro m
  induction m with
  | zero =>
    intro k acc _
    simp
  | succ m ih =>
    intro k acc h
    have hk : k < self.m_words.length := by
      have : self.GetSize = self.m_words.length := rfl
      omega
    have hw : self.GetWord k = some self.m_words[k] := List.getElem?_eq_getElem hk
    simp only [List.range'_succ, List.foldlM_cons, hw, Option.map_some', Option.bind_eq_bind,
      Option.some_bind]
    rw [ih (k + 1) _ (by omega)]
    simp only [AddWord, List.append_assoc, List.singleton_append, Option.some.injEq]
    congr 2
    rw [List.drop_eq_getElem_cons hk, List.take_succ_cons]

/-- The `size_t` value of `n - 1` for a positive `n`. -/
theorem size_t_pred (n : Nat) (hpos : 0 < n) (hmax : n < SIZE_T_RANGE) :
    (n + (SIZE_T_RANGE - 1)) % SIZE_T_RANGE = n - 1 := by
  have h : SIZE_T_RANGE = 18446744073709551616 := by decide
  rw [h] at hmax ⊢
  omega

theorem fullRange_eq (self : Phrase MAX_NUM_FACTORS) (hpos : 0 < self.GetSize)
    (hmax : self.GetSize < SIZE_T_RANGE) : self.fullRange = ⟨0, self.GetSize - 1⟩ := by
  unfold fullRange
  rw [size_t_pred _ hpos hmax]

/-- `GetSubString` over all positions of a non-empty phrase returns its words, in a phrase
without context entries. -/
theorem GetSubString_fullRange (self : Phrase MAX_NUM_FACTORS) (hpos : 0 < self.GetSize)
    (hmax : self.GetSize < SIZE_T_RANGE) :
    self.GetSubString self.fullRange = some (phraseOf self.m_words) := by
  rw [fullRange_eq self hpos hmax]
  have hlen : self.GetSize - 1 + 1 - 0 = self.GetSize := by omega
  have hloop := GetSubString_loop self self.GetSize 0 Phrase.empty (by omega)
  unfold GetSubString WordsRange.GetStartPos WordsRange.GetEndPos
  rw [hlen, hloop]
  simp [Phrase.empty, phraseOf, GetSize]

end Phrase

namespace Phrase
variable {MAX_NUM_FACTORS : Nat}

/-- C9, as stated, fails for the empty phrase: its range of all positions
`WordsRange(0, GetSize() - 1)` ends at the largest `size_t`, the loop of `GetSubString`
is entered at position 0, which is outside the empty phrase, and no phrase is returned. -/
theorem C9_GetSubString_empty_phrase_counterexample :
    (Phrase.empty : Phrase 2).GetSize = 0 ∧
    (Phrase.empty : Phrase 2).fullRange = ⟨0, 18446744073709551615⟩ ∧
    (Phrase.empty : Phrase 2).GetSubString (Phrase.empty : Phrase 2).fullRange = none ∧
    ¬ ∃ q, (Phrase.empty : Phrase 2).GetSubString (Phrase.empty : Phrase 2).fullRange = some q ∧
      q.Compare Word.Compare (Phrase.empty : Phrase 2) = some 0 := by
  refine ⟨by decide, by decide, by decide, ?_⟩
  rintro ⟨q, hq, _⟩
  have hnone : (Phrase.empty : Phrase 2).GetSubString (Phrase.empty : Phrase 2).fullRange
      = none := by decide
  rw [hnone] at hq
  cases hq

/-- C9, amended: for every non-empty phrase `p` (of a size that fits `size_t`),
`GetSubString` over the range of all its positions `0 .. GetSize() - 1` returns a phrase `q`
with the words of `p`, and `q.Compare(p)` is `0`, for every `Word::Compare` that gives `0`
on a word and itself. `GetSubString` is a `const` method: it is a function of `p` that
builds the returned phrase and has no other effect. -/
theorem C9_GetSubString_full_range_compares_equal
    (wordCompare : Word MAX_NUM_FACTORS → Word MAX_NUM_FACTORS → Int)
    (hrefl : ∀ w, wordCompare w w = 0)
    (p : Phrase MAX_NUM_FACTORS) (hpos : 0 < p.GetSize) (hmax : p.GetSize < SIZE_T_RANGE) :
    ∃ q, p.GetSubString p.fullRange = some q ∧ q.m_words = p.m_words ∧
      q.Compare wordCompare p = some 0 := by
  refine ⟨phraseOf p.m_words, GetSubString_fullRange p hpos hmax, rfl, ?_⟩
  rw [Compare_eq]
  have hs : (phraseOf p.m_words).GetSize = p.GetSize := rfl
  simp only [hs, ne_eq, not_true_eq_false, if_false, Option.some.injEq]
  exact lexCompare_self wordCompare hrefl _

/-- C9 amended, at a concrete input: a phrase of three words with a context entry,
compared by `Word.Compare`. -/
theorem C9_GetSubString_full_range_compares_equal_witness :
    (∀ w : Word 2, Word.Compare w w = 0) ∧
    0 < (Phrase.mk [wordXY, wordX, wordXZ] [(['c'], 1)]).GetSize ∧
    (Phrase.mk [wordXY, wordX, wordXZ] [(['c'], 1)]).GetSize < SIZE_T_RANGE ∧
    ∃ q, (Phrase.mk [wordXY, wordX, wordXZ] [(['c'], 1)]).GetSubString
        (Phrase.mk [wordXY, wordX, wordXZ] [(['c'], 1)]).fullRange = some q ∧
      q.m_words = (Phrase.mk [wordXY, wordX, wordXZ] [(['c'], 1)]).m_words ∧
      q.Compare Word.Compare (Phrase.mk [wordXY, wordX, wordXZ] [(['c'], 1)]) = some 0 :=
  ⟨Word.Compare_self, by decide, by decide,
    C9_GetSubString_full_range_compares_equal Word.Compare Word.Compare_self _
      (by decide) (by decide)⟩

end Phrase

namespace Phrase
variable {MAX_NUM_FACTORS : Nat}

/-- A text without a tab has no context section: the context-count map stays as it is. -/
theorem parseContext_of_no_tab (Scan : Str → Int) (m_context : List (Str × Int))
    (phraseString : Str) (h : ∀ c ∈ phraseString, c ≠ '\t') :
    parseContext Scan m_context phraseString = m_context := by
  unfold parseContext Tokenize
  rw [tokenizeAny_of_no_sep ['\t'] phraseString (fun c hc => by simpa using h c hc)]
  by_cases hs : phraseString = [] <;> simp [hs]

/-- The word loop of `CreateFromString` on words that all have as many factors as
`factorOrder` has entries: every word is appended, filled from its factors. -/
theorem CreateFromString_loop (AddFactor : Str → Factor)
    (factorOrder : List (FactorType MAX_NUM_FACTORS)) (d : Str) (hd : d ≠ [])
    (hn : factorOrder ≠ []) :
    ∀ (fss : List (List Str)) (acc : Phrase MAX_NUM_FACTORS),
      (∀ fs ∈ fss, fs.length = factorOrder.length ∧ ∀ f ∈ fs, ∀ c ∈ f, c ∉ d) →
      (fss.map (joinFactors d)).foldlM
        (fun acc word_it =>
          let filled := factorLoop AddFactor factorOrder (tokenizeMulti word_it d)
            0 Word.empty
          if filled.2 ≠ factorOrder.length then none
          else some (acc.AddWord filled.1)) acc =
        some { acc with m_words := acc.m_words ++ fss.map fun fs =>
          (factorOrder.zip fs).foldl (fun w p => w.SetFactor p.1 (AddFactor p.2)) Word.empty } := by
  intro fss
  induction fss with
  | nil => intro acc _; simp
  | cons fs fss ih =>
    intro acc h
    obtain ⟨hlen, hfree⟩ := h fs (List.mem_cons_self _ _)
    have hfs : fs ≠ [] := by
      intro e
      rw [e] at hlen
      exact hn (List.length_eq_zero.mp hlen.symm)
    simp only [List.map_cons, List.foldlM_cons]
    rw [tokenizeMulti_joinFactors d hd fs hfs hfree,
      factorLoop_eq AddFactor factorOrder fs 0 Word.empty (by omega)]
    simp only [ne_eq, not_true_eq_false, if_false, List.drop_zero, Option.bind_eq_bind,
      Option.some_bind]
    rw [ih _ (fun x hx => h x (List.mem_cons_of_mem _ hx))]
    simp [AddWord]

/-- `CreateFromString` in closed form on a tab-free text laid out from words that all have
as many factors as `factorOrder` has entries. -/
theorem CreateFromString_layoutText (AddFactor : Str → Factor) (Scan : Str → Int)
    (factorOrder : List (FactorType MAX_NUM_FACTORS)) (d : Str)
    (ws : List (Nat × List Str)) (trail : Nat)
    (hd : d ≠ []) (hds : ' ' ∉ d) (hdt : '\t' ∉ d) (hn : factorOrder ≠ [])
    (hgap : ∀ p ∈ ws.tail, 0 < p.1)
    (hws : ∀ p ∈ ws, p.2.length = factorOrder.length ∧
      ∀ f ∈ p.2, f ≠ [] ∧ ∀ c ∈ f, c ≠ ' ' ∧ c ≠ '\t' ∧ c ∉ d)
    (self : Phrase MAX_NUM_FACTORS) :
    CreateFromString AddFactor Scan self factorOrder (layoutText d ws trail) d =
      some { self with m_words := self.m_words ++ ws.map fun p =>
        (factorOrder.zip p.2).foldl (fun w q => w.SetFactor q.1 (AddFactor q.2)) Word.empty } := by
  have hjoin : ∀ p ∈ ws, joinFactors d p.2 ≠ [] ∧
      ∀ c ∈ joinFactors d p.2, c ∉ [' ', '\t'] := by
    intro p hp
    obtain ⟨hlen, hf⟩ := hws p hp
    have hne : p.2 ≠ [] := by
      intro e
      rw [e] at hlen
      exact hn (List.length_eq_zero.mp hlen.symm)
    refine ⟨joinFactors_ne_nil d p.2 hne (fun g hg => (hf g hg).1), ?_⟩
    intro c hc
    rcases mem_joinFactors d p.2 c hc with h | ⟨g, hg, hcg⟩
    · intro hmem
      simp only [List.mem_cons, List.mem_singleton, List.not_mem_nil, or_false] at hmem
      rcases hmem with e | e
      · exact hds (e ▸ h)
      · exact hdt (e ▸ h)
    · have := (hf g hg).2 c hcg
      simp [this.1, this.2.1]
  have htab : ∀ c ∈ layoutText d ws trail, c ≠ '\t' := by
    intro c hc
    rcases mem_layoutText d trail ws c hc with h | ⟨p, hp, hcp⟩
    · rw [h]
      decide
    · have := (hjoin p hp).2 c hcp
      intro e
      exact this (by simp [e])
  unfold CreateFromString
  rw [parseContext_of_no_tab Scan _ _ htab,
    tokenizeAny_layoutText [' ', '\t'] d (by simp) trail ws hgap hjoin]
  have hmap : ws.map (fun p => joinFactors d p.2) = (ws.map Prod.snd).map (joinFactors d) := by
    simp [List.map_map, Function.comp]
  rw [hmap, CreateFromString_loop AddFactor factorOrder d hd hn (ws.map Prod.snd) _ (by
    intro fs hfs
    obtain ⟨p, hp, rfl⟩ := List.mem_map.mp hfs
    exact ⟨(hws p hp).1, fun f hf c hc => ((hws p hp).2 f hf).2 c hc |>.2.2⟩)]
  simp [List.map_map, Function.comp]

end Phrase

/-- Every character code is below the base of `internCode`. -/
theorem char_toNat_lt (c : Char) : c.toNat < 2097151 := by
  have h := c.valid
  have : c.toNat = c.val.toNat := rfl
  rw [this]
  rcases h with h | ⟨_, h⟩
  · have : c.val.toNat < 55296 := h
    omega
  · have : c.val.toNat < 1114112 := h
    omega

/-- Different strings have different identities under `internCode`. -/
theorem internCode_injective : Function.Injective internCode := by
  intro s
  induction s with
  | nil =>
    intro t h
    cases t with
    | nil => rfl
    | cons c cs =>
      simp only [internCode] at h
      omega
  | cons c cs ih =>
    intro t h
    cases t with
    | nil =>
      simp only [internCode] at h
      omega
    | cons e es =>
      simp only [internCode] at h
      have hc := char_toNat_lt c
      have he := char_toNat_lt e
      have h1 : c.toNat = e.toNat := by omega
      have h2 : internCode cs = internCode es := by omega
      have h3 : c = e := Char.ext (UInt32.ext (by simpa [Char.toNat] using h1))
      rw [h3, ih h2]

namespace Phrase
variable {MAX_NUM_FACTORS : Nat}

/-- C10, as stated, fails for a dimension order that names a dimension twice: with the
order `[0, 0]`, the delimiter `|` and the text `a|b` (one word of two non-empty factors),
the slot `dimOrder[0]` of the word holds the identity of the second factor string `b`, not
that of the first one `a`; the interning function `internCode` gives different strings
different identities. -/
theorem C10_CreateFromString_repeated_dimension_counterexample :
    Function.Injective internCode ∧
    ∃ r, CreateFromString internCode (fun _ => 0) (Phrase.empty : Phrase 2) [0, 0]
        ['a', '|', 'b'] ['|'] = some r ∧
      r.GetSize = 1 ∧
      r.GetFactor 0 0 = some (some (internCode ['b'])) ∧
      r.GetFactor 0 0 ≠ some (some (internCode ['a'])) :=
  ⟨internCode_injective,
    phraseOf [⟨[some (internCode ['b']), none], false, rfl⟩],
    by decide, by decide, by decide, by decide⟩

/-- C10, amended: for a non-empty dimension order and a tab-free text of `k` words, each
made of as many non-empty factor strings as the order has entries, joined by the
(non-empty) delimiter, the words being separated by spaces, `CreateFromString` on an empty
phrase returns a phrase of `k` words in text order; in word `j` the slot `dimOrder[i]`
holds the interned identity of the `i`-th factor string of word `j` for every `i` whose
dimension does not occur again later in the order (for every `i` when no dimension is
repeated), and every slot outside the order is empty. -/
theorem C10_CreateFromString_words (AddFactor : Str → Factor) (Scan : Str → Int)
    (factorOrder : List (FactorType MAX_NUM_FACTORS)) (d : Str)
    (ws : List (Nat × List Str)) (trail : Nat)
    (hd : d ≠ []) (hds : ' ' ∉ d) (hdt : '\t' ∉ d) (hn : factorOrder ≠ [])
    (hgap : ∀ p ∈ ws.tail, 0 < p.1)
    (hws : ∀ p ∈ ws, p.2.length = factorOrder.length ∧
      ∀ f ∈ p.2, f ≠ [] ∧ ∀ c ∈ f, c ≠ ' ' ∧ c ≠ '\t' ∧ c ∉ d) :
    ∃ r, CreateFromString AddFactor Scan (Phrase.empty : Phrase MAX_NUM_FACTORS) factorOrder
        (layoutText d ws trail) d = some r ∧
      r.GetSize = ws.length ∧
      (∀ (j i : Nat) (p : Nat × List Str) (f : Str) (dim : FactorType MAX_NUM_FACTORS),
        ws[j]? = some p → p.2[i]? = some f → factorOrder[i]? = some dim →
        (∀ i', i < i' → factorOrder[i']? ≠ some dim) →
        r.GetFactor j dim = some (some (AddFactor f))) ∧
      (∀ (j : Nat) (dim : FactorType MAX_NUM_FACTORS), j < ws.length → dim ∉ factorOrder →
        r.GetFactor j dim = some none) := by
  refine ⟨_, CreateFromString_layoutText AddFactor Scan factorOrder d ws trail hd hds hdt hn
    hgap hws Phrase.empty, ?_, ?_, ?_⟩
  · simp [GetSize, Phrase.empty]
  · intro j i p f dim hj hf ho hlast
    simp only [GetFactor_eq, Phrase.empty, List.nil_append, List.getElem?_map, hj,
      Option.map_some', Option.some.injEq]
    exact Word.GetFactor_foldl_zip_last AddFactor dim factorOrder p.2 _ i f ho hf hlast
  · intro j dim hj hnot
    simp only [GetFactor_eq, Phrase.empty, List.nil_append, List.getElem?_map,
      List.getElem?_eq_getElem hj, Option.map_some', Option.some.injEq]
    rw [Word.GetFactor_foldl_pairs_of_not_mem AddFactor dim _ _ (by
      intro q hq hcon
      exact hnot (hcon ▸ (List.of_mem_zip hq).1))]
    exact Word.GetFactor_empty dim

/-- C10 amended, at the input of the specification: the order `[SURFACE, POS]` (slots 0
and 1), the delimiter `|` and the text `the|DET cat|NN` give the two words
`the, DET` and `cat, NN`. -/
theorem C10_CreateFromString_words_witness :
    (['|'] ≠ [] ∧ ' ' ∉ ['|'] ∧ '\t' ∉ ['|'] ∧ ([0, 1] : List (FactorType 2)) ≠ [] ∧
      (∀ p ∈ [(0, [['t', 'h', 'e'], ['D', 'E', 'T']]), (1, [['c', 'a', 't'], ['N', 'N']])].tail,
        0 < p.1) ∧
      (∀ p ∈ [(0, [['t', 'h', 'e'], ['D', 'E', 'T']]), (1, [['c', 'a', 't'], ['N', 'N']])],
        p.2.length = ([0, 1] : List (FactorType 2)).length ∧
        ∀ f ∈ p.2, f ≠ [] ∧ ∀ c ∈ f, c ≠ ' ' ∧ c ≠ '\t' ∧ c ∉ ['|'])) ∧
    layoutText ['|'] [(0, [['t', 'h', 'e'], ['D', 'E', 'T']]), (1, [['c', 'a', 't'], ['N', 'N']])] 0
      = "the|DET cat|NN".toList ∧
    (∃ r, CreateFromString internCode (fun _ => 0) (Phrase.empty : Phrase 2) [0, 1]
        (layoutText ['|']
          [(0, [['t', 'h', 'e'], ['D', 'E', 'T']]), (1, [['c', 'a', 't'], ['N', 'N']])] 0)
        ['|'] = some r ∧
      r.GetSize =
        [(0, [['t', 'h', 'e'], ['D', 'E', 'T']]), (1, [['c', 'a', 't'], ['N', 'N']])].length ∧
      (∀ (j i : Nat) (p : Nat × List Str) (f : Str) (dim : FactorType 2),
        [(0, [['t', 'h', 'e'], ['D', 'E', 'T']]), (1, [['c', 'a', 't'], ['N', 'N']])][j]?
          = some p →
        p.2[i]? = some f → ([0, 1] : List (FactorType 2))[i]? = some dim →
        (∀ i', i < i' → ([0, 1] : List (FactorType 2))[i']? ≠ some dim) →
        r.GetFactor j dim = some (some (internCode f))) ∧
      (∀ (j : Nat) (dim : FactorType 2),
        j < [(0, [['t', 'h', 'e'], ['D', 'E', 'T']]), (1, [['c', 'a', 't'], ['N', 'N']])].length →
        dim ∉ ([0, 1] : List (FactorType 2)) → r.GetFactor j dim = some none)) ∧
    CreateFromString internCode (fun _ => 0) (Phrase.empty : Phrase 2) [0, 1]
        "the|DET cat|NN".toList ['|'] =
      some (phraseOf
        [⟨[some (internCode "the".toList), some (internCode "DET".toList)], false, rfl⟩,
         ⟨[some (internCode "cat".toList), some (internCode "NN".toList)], false, rfl⟩]) :=
  ⟨⟨by decide, by decide, by decide, by decide, by decide, by decide⟩, by decide,
    C10_CreateFromString_words internCode (fun _ => 0) [0, 1] ['|']
      [(0, [['t', 'h', 'e'], ['D', 'E', 'T']]), (1, [['c', 'a', 't'], ['N', 'N']])] 0
      (by decide) (by decide) (by decide) (by decide) (by decide) (by decide),
    by decide⟩

end Phrase

/-- A loop in which one element makes the body fail, whatever the state, fails. -/
theorem foldlM_none_of_mem {α β : Type} (f : β → α → Option β) (w : α)
    (hw : ∀ acc, f acc w = none) :
    ∀ (l : List α), w ∈ l → ∀ init, l.foldlM f init = none := by
  intro l
  induction l with
  | nil => intro h; simp at h
  | cons x xs ih =>
    intro h init
    simp only [List.foldlM_cons]
    rcases List.mem_cons.mp h with e | e
    · subst e
      rw [hw]
      rfl
    · cases hfx : f init x with
      | none => rfl
      | some a => exact ih e a

/-- A loop whose body succeeds on every element succeeds. -/
theorem foldlM_some_of_forall {α β : Type} (f : β → α → Option β) (g : β → α → β) :
    ∀ (l : List α), (∀ x ∈ l, ∀ acc, f acc x = some (g acc x)) →
      ∀ init, l.foldlM f init = some (l.foldl g init) := by
  intro l
  induction l with
  | nil => intro _ init; rfl
  | cons x xs ih =>
    intro h init
    simp only [List.foldlM_cons, List.foldl_cons, h x (List.mem_cons_self _ _) init,
      Option.bind_eq_bind, Option.some_bind]
    exact ih (fun y hy => h y (List.mem_cons_of_mem _ hy)) _

namespace Phrase
variable {MAX_NUM_FACTORS : Nat}

/-- The inner loop of `CreateFromString` on fewer factor strings than `factorOrder` has
entries left: `index` ends below `factorOrder.size()`. -/
theorem factorLoop_index_of_few (AddFactor : Str → Factor)
    (factorOrder : List (FactorType MAX_NUM_FACTORS)) :
    ∀ (toks : List Str) (index : Nat) (word : Word MAX_NUM_FACTORS),
      index + toks.length < factorOrder.length →
      (factorLoop AddFactor factorOrder toks index word).2 = index + toks.length := by
  intro toks
  induction toks with
  | nil => intro index word _; simp [factorLoop]
  | cons tok toks ih =>
    intro index word h
    simp only [List.length_cons] at h
    have hlt : index < factorOrder.length := by omega
    simp only [factorLoop, hlt, dite_true, List.length_cons]
    rw [ih (index + 1) _ (by omega)]
    omega

/-- The inner loop of `CreateFromString` on at least as many factor strings as
`factorOrder` has entries left: one factor is stored per entry, the other factor strings
are not looked at, and `index` ends at `factorOrder.size()`. -/
theorem factorLoop_of_enough (AddFactor : Str → Factor)
    (factorOrder : List (FactorType MAX_NUM_FACTORS)) :
    ∀ (toks : List Str) (index : Nat) (word : Word MAX_NUM_FACTORS),
      index ≤ factorOrder.length → factorOrder.length ≤ index + toks.length →
      factorLoop AddFactor factorOrder toks index word =
        (((factorOrder.drop index).zip toks).foldl
          (fun w p => w.SetFactor p.1 (AddFactor p.2)) word, factorOrder.length) := by
  intro toks
  induction toks with
  | nil =>
    intro index word h1 h2
    simp only [List.length_nil, Nat.add_zero] at h2
    have : index = factorOrder.length := by omega
    simp [factorLoop, this]
  | cons tok toks ih =>
    intro index word h1 h2
    simp only [List.length_cons] at h2
    by_cases hlt : index < factorOrder.length
    · have hdrop : factorOrder.drop index =
          factorOrder[index] :: factorOrder.drop (index + 1) :=
        List.drop_eq_getElem_cons hlt
      simp only [factorLoop, hlt, dite_true, List.get_eq_getElem]
      rw [ih (index + 1) _ (by omega) (by omega), hdrop]
      rfl
    · have : index = factorOrder.length := by omega
      simp [factorLoop, this]

/-- A word with fewer factors than `factorOrder` has entries makes the word loop of
`CreateFromString` fail. -/
theorem CreateFromString_none_of_few
    (AddFactor : Str → Factor) (Scan : Str → Int) (self : Phrase MAX_NUM_FACTORS)
    (factorOrder : List (FactorType MAX_NUM_FACTORS)) (phraseString factorDelimiter : Str)
    (word : Str) (hword : word ∈ tokenizeAny phraseString [' ', '\t'])
    (hfew : (tokenizeMulti word factorDelimiter).length < factorOrder.length) :
    CreateFromString AddFactor Scan self factorOrder phraseString factorDelimiter = none := by
  unfold CreateFromString
  apply foldlM_none_of_mem _ word _ _ hword
  intro acc
  have hidx := factorLoop_index_of_few AddFactor factorOrder
    (tokenizeMulti word factorDelimiter) 0 Word.empty (by omega)
  have hne : (factorLoop AddFactor factorOrder (tokenizeMulti word factorDelimiter) 0
      Word.empty).2 ≠ factorOrder.length := by
    rw [hidx]
    omega
  simp only [hne, ne_eq, not_false_eq_true, if_true]

/-- C11: a text with a word (a token between spaces and tabs) that has fewer
delimiter-separated factors than `factorOrder` has entries makes `CreateFromString` fail:
no phrase is returned, whatever the dimension order, the other words and the phrase
parsed into. -/
theorem C11_CreateFromString_aborts_on_too_few_factors
    (AddFactor : Str → Factor) (Scan : Str → Int) (self : Phrase MAX_NUM_FACTORS)
    (factorOrder : List (FactorType MAX_NUM_FACTORS)) (phraseString factorDelimiter : Str)
    (word : Str) (hword : word ∈ tokenizeAny phraseString [' ', '\t'])
    (hfew : (tokenizeMulti word factorDelimiter).length < factorOrder.length) :
    CreateFromString AddFactor Scan self factorOrder phraseString factorDelimiter = none :=
  CreateFromString_none_of_few AddFactor Scan self factorOrder phraseString factorDelimiter
    word hword hfew

/-- C11, at a concrete input: in `the|DET cat` with the order `[0, 1]` and the delimiter
`|` the second word has one factor. -/
theorem C11_CreateFromString_aborts_on_too_few_factors_witness :
    (['c', 'a', 't'] ∈ tokenizeAny "the|DET cat".toList [' ', '\t'] ∧
      (tokenizeMulti ['c', 'a', 't'] ['|']).length < ([0, 1] : List (FactorType 2)).length) ∧
    CreateFromString internCode (fun _ => 0) (Phrase.empty : Phrase 2) [0, 1]
      "the|DET cat".toList ['|'] = none :=
  ⟨⟨by decide, by decide⟩,
    C11_CreateFromString_aborts_on_too_few_factors internCode (fun _ => 0) Phrase.empty
      [0, 1] "the|DET cat".toList ['|'] ['c', 'a', 't'] (by decide) (by decide)⟩

/-- Appending one built word per token. -/
theorem foldl_AddWord (build : Str → Word MAX_NUM_FACTORS) :
    ∀ (l : List Str) (init : Phrase MAX_NUM_FACTORS),
      l.foldl (fun acc word => acc.AddWord (build word)) init =
        Phrase.mk (init.m_words ++ l.map build) init.m_context := by
  intro l
  induction l with
  | nil => intro init; simp
  | cons x xs ih =>
    intro init
    simp only [List.foldl_cons, List.map_cons]
    rw [ih]
    simp [AddWord]

/-- `CreateFromString` in closed form on a text whose words all have at least as many
factors as `factorOrder` has entries. -/
theorem CreateFromString_of_enough (AddFactor : Str → Factor) (Scan : Str → Int)
    (self : Phrase MAX_NUM_FACTORS) (factorOrder : List (FactorType MAX_NUM_FACTORS))
    (phraseString d : Str)
    (h : ∀ word ∈ tokenizeAny phraseString [' ', '\t'],
      factorOrder.length ≤ (tokenizeMulti word d).length) :
    CreateFromString AddFactor Scan self factorOrder phraseString d =
      some (Phrase.mk
        (self.m_words ++ (tokenizeAny phraseString [' ', '\t']).map fun word =>
          (factorOrder.zip (tokenizeMulti word d)).foldl
            (fun w p => w.SetFactor p.1 (AddFactor p.2)) Word.empty)
        (parseContext Scan self.m_context phraseString)) := by
  unfold CreateFromString
  rw [foldlM_some_of_forall _
    (fun acc word => acc.AddWord ((factorOrder.zip (tokenizeMulti word d)).foldl
      (fun w p => w.SetFactor p.1 (AddFactor p.2)) Word.empty)) _ (by
      intro word hword acc
      rw [factorLoop_of_enough AddFactor factorOrder _ 0 Word.empty (Nat.zero_le _)
        (by simpa using h word hword)]
      simp)]
  rw [foldl_AddWord]

end Phrase

namespace Phrase
variable {MAX_NUM_FACTORS : Nat}

/-- C12, as stated, fails: with the order `[0]` and the delimiter `|` the word `a|b` has
two factors, one more than the order has entries, and `CreateFromString` returns the
phrase of one word built from the first factor `a`; it does not fail. -/
theorem C12_CreateFromString_extra_factor_counterexample :
    ([0] : List (FactorType 2)).length < (tokenizeMulti "a|b".toList ['|']).length ∧
    CreateFromString internCode (fun _ => 0) (Phrase.empty : Phrase 2) [0]
        "a|b".toList ['|'] =
      some (phraseOf [⟨[some (internCode ['a']), none], false, rfl⟩]) ∧
    CreateFromString internCode (fun _ => 0) (Phrase.empty : Phrase 2) [0]
        "a|b".toList ['|'] ≠ none := by
  decide

/-- C12, amended: a word with more delimiter-separated factors than `factorOrder` has
entries is no failure. For every text whose words all have at least that many factors,
`CreateFromString` returns a phrase with one new word per word of the text, in text order;
the word is built from the first `factorOrder.size()` factors (slot `factorOrder[i]` holds
the identity of factor `i`, for the last `i` that names the slot), the further factors are
not read, and the slots outside the order are empty. -/
theorem C12_CreateFromString_ignores_extra_factors
    (AddFactor : Str → Factor) (Scan : Str → Int) (self : Phrase MAX_NUM_FACTORS)
    (factorOrder : List (FactorType MAX_NUM_FACTORS)) (phraseString d : Str)
    (h : ∀ word ∈ tokenizeAny phraseString [' ', '\t'],
      factorOrder.length ≤ (tokenizeMulti word d).length) :
    ∃ r, CreateFromString AddFactor Scan self factorOrder phraseString d = some r ∧
      r.GetSize = self.GetSize + (tokenizeAny phraseString [' ', '\t']).length ∧
      (∀ (j i : Nat) (word f : Str) (dim : FactorType MAX_NUM_FACTORS),
        (tokenizeAny phraseString [' ', '\t'])[j]? = some word →
        (tokenizeMulti word d)[i]? = some f → factorOrder[i]? = some dim →
        (∀ i', i < i' → factorOrder[i']? ≠ some dim) →
        r.GetFactor (self.GetSize + j) dim = some (some (AddFactor f))) ∧
      (∀ (j : Nat) (dim : FactorType MAX_NUM_FACTORS),
        j < (tokenizeAny phraseString [' ', '\t']).length → dim ∉ factorOrder →
        r.GetFactor (self.GetSize + j) dim = some none) := by
  refine ⟨_, CreateFromString_of_enough AddFactor Scan self factorOrder phraseString d h,
    ?_, ?_, ?_⟩
  · simp [GetSize]
  · intro j i word f dim hj hf ho hlast
    have hget : (self.m_words ++ (tokenizeAny phraseString [' ', '\t']).map fun word =>
          (factorOrder.zip (tokenizeMulti word d)).foldl
            (fun w p => w.SetFactor p.1 (AddFactor p.2)) Word.empty)[self.GetSize + j]? =
        some ((factorOrder.zip (tokenizeMulti word d)).foldl
            (fun w p => w.SetFactor p.1 (AddFactor p.2)) Word.empty) := by
      rw [List.getElem?_append_right (by simp [GetSize])]
      simp [GetSize, hj]
    simp only [GetFactor_eq, hget, Option.map_some', Option.some.injEq]
    exact Word.GetFactor_foldl_zip_last AddFactor dim factorOrder _ _ i f ho hf hlast
  · intro j dim hj hnot
    have hget : (self.m_words ++ (tokenizeAny phraseString [' ', '\t']).map fun word =>
          (factorOrder.zip (tokenizeMulti word d)).foldl
            (fun w p => w.SetFactor p.1 (AddFactor p.2)) Word.empty)[self.GetSize + j]? =
        some ((factorOrder.zip (tokenizeMulti
            ((tokenizeAny phraseString [' ', '\t'])[j]) d)).foldl
            (fun w p => w.SetFactor p.1 (AddFactor p.2)) Word.empty) := by
      rw [List.getElem?_append_right (by simp [GetSize])]
      simp [GetSize, List.getElem?_eq_getElem hj]
    simp only [GetFactor_eq, hget, Option.map_some', Option.some.injEq]
    rw [Word.GetFactor_foldl_pairs_of_not_mem AddFactor dim _ _ (by
      intro q hq hcon
      exact hnot (hcon ▸ (List.of_mem_zip hq).1))]
    exact Word.GetFactor_empty dim

/-- C12 amended, at a concrete input: `a|b c|d|e` with the order `[0]`. -/
theorem C12_CreateFromString_ignores_extra_factors_witness :
    (∀ word ∈ tokenizeAny "a|b c|d|e".toList [' ', '\t'],
      ([0] : List (FactorType 2)).length ≤ (tokenizeMulti word ['|']).length) ∧
    ∃ r, CreateFromString internCode (fun _ => 0) (Phrase.empty : Phrase 2) [0]
        "a|b c|d|e".toList ['|'] = some r ∧
      r.GetSize = (Phrase.empty : Phrase 2).GetSize +
        (tokenizeAny "a|b c|d|e".toList [' ', '\t']).length ∧
      (∀ (j i : Nat) (word f : Str) (dim : FactorType 2),
        (tokenizeAny "a|b c|d|e".toList [' ', '\t'])[j]? = some word →
        (tokenizeMulti word ['|'])[i]? = some f → ([0] : List (FactorType 2))[i]? = some dim →
        (∀ i', i < i' → ([0] : List (FactorType 2))[i']? ≠ some dim) →
        r.GetFactor ((Phrase.empty : Phrase 2).GetSize + j) dim =
          some (some (internCode f))) ∧
      (∀ (j : Nat) (dim : FactorType 2),
        j < (tokenizeAny "a|b c|d|e".toList [' ', '\t']).length →
        dim ∉ ([0] : List (FactorType 2)) →
        r.GetFactor ((Phrase.empty : Phrase 2).GetSize + j) dim = some none) :=
  ⟨by decide,
    C12_CreateFromString_ignores_extra_factors internCode (fun _ => 0) Phrase.empty [0]
      "a|b c|d|e".toList ['|'] (by decide)⟩

end Phrase

/-- A separator character ends the token being read: the tokens of a text are those before
the separator followed by those after it. -/
theorem tokenizeAnyAux_append_sep (seps : Str) (c : Char) (hc : c ∈ seps) (b : Str) :
    ∀ (a cur : Str),
      tokenizeAnyAux seps (a ++ c :: b) cur =
        tokenizeAnyAux seps a cur ++ tokenizeAnyAux seps b [] := by
  intro a
  induction a with
  | nil =>
    intro cur
    rw [List.nil_append, tokenizeAnyAux_cons, if_pos hc, tokenizeAnyAux_nil]
    by_cases h : cur = [] <;> simp [h]
  | cons x a ih =>
    intro cur
    rw [List.cons_append, tokenizeAnyAux_cons, tokenizeAnyAux_cons]
    by_cases hx : x ∈ seps
    · rw [if_pos hx, if_pos hx]
      by_cases h : cur = []
      · rw [if_pos h, if_pos h]
        exact ih []
      · rw [if_neg h, if_neg h, ih []]
        rfl
    · rw [if_neg hx, if_neg hx]
      exact ih _

theorem tokenizeAny_append_sep (seps : Str) (c : Char) (hc : c ∈ seps) (a b : Str) :
    tokenizeAny (a ++ c :: b) seps = tokenizeAny a seps ++ tokenizeAny b seps :=
  tokenizeAnyAux_append_sep seps c hc b a []

namespace Phrase
variable {MAX_NUM_FACTORS : Nat}

/-- When `CreateFromString` returns, every word of the text has at least as many factors as
`factorOrder` has entries, and the phrase returned is the one of the closed form. -/
theorem CreateFromString_eq_some (AddFactor : Str → Factor) (Scan : Str → Int)
    (self r : Phrase MAX_NUM_FACTORS) (factorOrder : List (FactorType MAX_NUM_FACTORS))
    (phraseString d : Str)
    (h : CreateFromString AddFactor Scan self factorOrder phraseString d = some r) :
    r = Phrase.mk
        (self.m_words ++ (tokenizeAny phraseString [' ', '\t']).map fun word =>
          (factorOrder.zip (tokenizeMulti word d)).foldl
            (fun w p => w.SetFactor p.1 (AddFactor p.2)) Word.empty)
        (parseContext Scan self.m_context phraseString) := by
  by_cases hall : ∀ word ∈ tokenizeAny phraseString [' ', '\t'],
      factorOrder.length ≤ (tokenizeMulti word d).length
  · rw [CreateFromString_of_enough AddFactor Scan self factorOrder phraseString d hall] at h
    exact (Option.some.inj h).symm
  · simp only [not_forall] at hall
    obtain ⟨word, hword, hfew⟩ := hall
    rw [CreateFromString_none_of_few AddFactor Scan self factorOrder phraseString d word hword
      (by omega)] at h
    cases h

/-- The entry of the context-count map for one word of the context section: `token|count`
with its count, a bare `token` with 1. -/
theorem Tokenize_context_entry (fs : List Str)
    (hlen : fs.length = 1 ∨ fs.length = 2)
    (hf : ∀ f ∈ fs, f ≠ [] ∧ ∀ c ∈ f, c ∉ ['|']) :
    Tokenize (joinFactors ['|'] fs) ['|'] = fs := by
  unfold Tokenize
  match fs, hlen, hf with
  | [t], _, hf =>
    have ht := hf t (List.mem_cons_self _ _)
    rw [joinFactors, tokenizeAny_of_no_sep ['|'] t ht.2, if_neg ht.1]
  | [t, c], _, hf =>
    have ht := hf t (List.mem_cons_self _ _)
    have hc := hf c (List.mem_cons_of_mem _ (List.mem_cons_self _ _))
    have hjoin : joinFactors ['|'] [t, c] = t ++ '|' :: c := by
      simp [joinFactors]
    rw [hjoin, tokenizeAny_append_sep ['|'] '|' (by simp),
      tokenizeAny_of_no_sep ['|'] t ht.2, tokenizeAny_of_no_sep ['|'] c hc.2,
      if_neg ht.1, if_neg hc.1]
    rfl
  | [], h, _ => simp at h
  | _ :: _ :: _ :: _, h, _ => simp at h

end Phrase

theorem layoutText_ne_nil (d : Str) (trail : Nat) (ws : List (Nat × List Str))
    (hne : ws ≠ []) (hw : ∀ p ∈ ws, joinFactors d p.2 ≠ []) : layoutText d ws trail ≠ [] := by
  cases ws with
  | nil => exact absurd rfl hne
  | cons p rest =>
    obtain ⟨g, fs⟩ := p
    have := hw (g, fs) (List.mem_cons_self _ _)
    simp only [layoutText, ne_eq, List.append_eq_nil, not_and]
    intro h1
    exact absurd h1.2 this

namespace Phrase
variable {MAX_NUM_FACTORS : Nat}

/-- The context section of a text `words TAB context`: the entries of the second section,
laid out with spaces, are entered into the context-count map in text order. -/
theorem parseContext_sections (Scan : Str → Int) (m_context : List (Str × Int))
    (wordSec : Str) (entries : List (Nat × List Str)) (trail : Nat)
    (hwne : wordSec ≠ []) (hwtab : ∀ c ∈ wordSec, c ≠ '\t')
    (hene : entries ≠ []) (hgap : ∀ p ∈ entries.tail, 0 < p.1)
    (hent : ∀ p ∈ entries, (p.2.length = 1 ∨ p.2.length = 2) ∧
      ∀ f ∈ p.2, f ≠ [] ∧ ∀ c ∈ f, c ≠ ' ' ∧ c ≠ '\t' ∧ c ≠ '|') :
    parseContext Scan m_context (wordSec ++ '\t' :: layoutText ['|'] entries trail) =
      entries.foldl
        (fun ctx p =>
          match p.2 with
          | [token0, token1] => contextInsert ctx token0 (Scan token1)
          | [token0] => contextInsert ctx token0 1
          | _ => ctx)
        m_context := by
  have hpne : ∀ p ∈ entries, p.2 ≠ [] := by
    intro p hp e
    have := (hent p hp).1
    rw [e] at this
    simp at this
  have hjne : ∀ p ∈ entries, joinFactors ['|'] p.2 ≠ [] := fun p hp =>
    joinFactors_ne_nil ['|'] p.2 (hpne p hp) (fun g hg => ((hent p hp).2 g hg).1)
  have hjfree : ∀ (x : Char), x ≠ '|' → ∀ p ∈ entries,
      (∀ f ∈ p.2, ∀ c ∈ f, c ≠ x) → ∀ c ∈ joinFactors ['|'] p.2, c ≠ x := by
    intro x hx p _ hf c hc
    rcases mem_joinFactors ['|'] p.2 c hc with h | ⟨g, hg, hcg⟩
    · simp only [List.mem_singleton] at h
      rw [h]
      exact fun e => hx e.symm
    · exact hf g hg c hcg
  have hctab : ∀ c ∈ layoutText ['|'] entries trail, c ≠ '\t' := by
    intro c hc
    rcases mem_layoutText ['|'] trail entries c hc with h | ⟨p, hp, hcp⟩
    · rw [h]
      decide
    · exact hjfree '\t' (by decide) p hp
        (fun f hf c hc => (((hent p hp).2 f hf).2 c hc).2.1) c hcp
  have hsections : Tokenize (wordSec ++ '\t' :: layoutText ['|'] entries trail) ['\t'] =
      [wordSec, layoutText ['|'] entries trail] := by
    unfold Tokenize
    rw [tokenizeAny_append_sep ['\t'] '\t' (by simp),
      tokenizeAny_of_no_sep ['\t'] wordSec (fun c hc => by simpa using hwtab c hc),
      tokenizeAny_of_no_sep ['\t'] _ (fun c hc => by simpa using hctab c hc),
      if_neg hwne, if_neg (layoutText_ne_nil ['|'] trail entries hene hjne)]
    rfl
  have hwords : Tokenize (layoutText ['|'] entries trail) [' '] =
      entries.map fun p => joinFactors ['|'] p.2 := by
    unfold Tokenize
    exact tokenizeAny_layoutText [' '] ['|'] (by simp) trail entries hgap (fun p hp =>
      ⟨hjne p hp, fun c hc => by
        have := hjfree ' ' (by decide) p hp
          (fun f hf c hc => (((hent p hp).2 f hf).2 c hc).1) c hc
        simpa using this⟩)
  unfold parseContext
  rw [hsections]
  simp only [hwords, List.foldl_map]
  have hstep : ∀ (l : List (Nat × List Str)), (∀ p ∈ l, p ∈ entries) →
      ∀ m : List (Str × Int),
      l.foldl (fun ctx p =>
          match Tokenize (joinFactors ['|'] p.2) ['|'] with
          | [token0, token1] => contextInsert ctx token0 (Scan token1)
          | [token0] => contextInsert ctx token0 1
          | _ => ctx) m =
        l.foldl (fun ctx p =>
          match p.2 with
          | [token0, token1] => contextInsert ctx token0 (Scan token1)
          | [token0] => contextInsert ctx token0 1
          | _ => ctx) m := by
    intro l
    induction l with
    | nil => intro _ m; rfl
    | cons p l ih =>
      intro hl m
      have hp := hl p (List.mem_cons_self _ _)
      simp only [List.foldl_cons]
      rw [Tokenize_context_entry p.2 (hent p hp).1 (fun f hf =>
        ⟨((hent p hp).2 f hf).1, fun c hc => by
          have := (((hent p hp).2 f hf).2 c hc).2.2
          simpa using this⟩)]
      exact ih (fun q hq => hl q (List.mem_cons_of_mem _ hq)) _
  exact hstep entries (fun p hp => hp) m_context

end Phrase

namespace Phrase
variable {MAX_NUM_FACTORS : Nat}

/-- C13, as stated, fails: in the text `x TAB y` (context section `x`, word section `y`)
with the order `[0]`, `CreateFromString` makes a word of each of the two tokens of the
whole text, though the word section has one token, and it is the token `y` of the section
after the tab that is entered into the context-count map, not `x`. -/
theorem C13_CreateFromString_context_first_counterexample :
    (tokenizeAny ['y'] [' ', '\t']).length = 1 ∧
    CreateFromString internCode scanDecimal (Phrase.empty : Phrase 2) [0]
        ['x', '\t', 'y'] ['|'] =
      some (Phrase.mk
        [⟨[some (internCode ['x']), none], false, rfl⟩,
         ⟨[some (internCode ['y']), none], false, rfl⟩]
        [(['y'], 1)]) := by
  decide

/-- C13, amended: in a text `word-section TAB context-section` on which `CreateFromString`
returns, the context section is the one after the tab: its entries, `token|count` with the
count read and a bare `token` with the count 1, are entered in text order into the
context-count map; and the tokens of the word section give, in text order, the first new
words of the phrase, after the words it had. -/
theorem C13_CreateFromString_sections
    (AddFactor : Str → Factor) (Scan : Str → Int) (self r : Phrase MAX_NUM_FACTORS)
    (factorOrder : List (FactorType MAX_NUM_FACTORS)) (d wordSec : Str)
    (entries : List (Nat × List Str)) (trail : Nat)
    (hwne : wordSec ≠ []) (hwtab : ∀ c ∈ wordSec, c ≠ '\t')
    (hene : entries ≠ []) (hgap : ∀ p ∈ entries.tail, 0 < p.1)
    (hent : ∀ p ∈ entries, (p.2.length = 1 ∨ p.2.length = 2) ∧
      ∀ f ∈ p.2, f ≠ [] ∧ ∀ c ∈ f, c ≠ ' ' ∧ c ≠ '\t' ∧ c ≠ '|')
    (hret : CreateFromString AddFactor Scan self factorOrder
      (wordSec ++ '\t' :: layoutText ['|'] entries trail) d = some r) :
    r.m_context = entries.foldl
        (fun ctx p =>
          match p.2 with
          | [token0, token1] => contextInsert ctx token0 (Scan token1)
          | [token0] => contextInsert ctx token0 1
          | _ => ctx)
        self.m_context ∧
    self.GetSize + (tokenizeAny wordSec [' ', '\t']).length ≤ r.GetSize ∧
    (∀ j, j < self.GetSize → r.GetWord j = self.GetWord j) ∧
    (∀ (j i : Nat) (word f : Str) (dim : FactorType MAX_NUM_FACTORS),
      (tokenizeAny wordSec [' ', '\t'])[j]? = some word →
      (tokenizeMulti word d)[i]? = some f → factorOrder[i]? = some dim →
      (∀ i', i < i' → factorOrder[i']? ≠ some dim) →
      r.GetFactor (self.GetSize + j) dim = some (some (AddFactor f))) := by
  have hr := CreateFromString_eq_some AddFactor Scan self r factorOrder _ d hret
  rw [tokenizeAny_append_sep [' ', '\t'] '\t' (by simp)] at hr
  subst hr
  refine ⟨parseContext_sections Scan self.m_context wordSec entries trail hwne hwtab hene
    hgap hent, ?_, ?_, ?_⟩
  · simp only [GetSize, List.length_append, List.length_map]
    omega
  · intro j hj
    simp only [GetWord]
    rw [List.getElem?_append_left hj]
  · intro j i word f dim hj hf ho hlast
    have hjlt : j < (tokenizeAny wordSec [' ', '\t']).length :=
      lt_of_getElem?_eq_some hj
    have hget : (self.m_words ++ (tokenizeAny wordSec [' ', '\t'] ++
          tokenizeAny (layoutText ['|'] entries trail) [' ', '\t']).map fun word =>
          (factorOrder.zip (tokenizeMulti word d)).foldl
            (fun w p => w.SetFactor p.1 (AddFactor p.2)) Word.empty)[self.GetSize + j]? =
        some ((factorOrder.zip (tokenizeMulti word d)).foldl
            (fun w p => w.SetFactor p.1 (AddFactor p.2)) Word.empty) := by
      rw [List.getElem?_append_right (by simp [GetSize])]
      simp only [GetSize, Nat.add_sub_cancel_left, List.getElem?_map]
      rw [List.getElem?_append_left hjlt, hj]
      rfl
    simp only [GetFactor_eq, hget, Option.map_some', Option.some.injEq]
    exact Word.GetFactor_foldl_zip_last AddFactor dim factorOrder _ _ i f ho hf hlast

/-- C13 amended, at a concrete input: the text `a b TAB c|3 d` with the order `[0]`. -/
theorem C13_CreateFromString_sections_witness :
    ("a b".toList ≠ [] ∧ (∀ c ∈ "a b".toList, c ≠ '\t') ∧
      [(0, [['c'], ['3']]), (1, [['d']])] ≠ [] ∧
      (∀ p ∈ [(0, [['c'], ['3']]), (1, [['d']])].tail, 0 < p.1) ∧
      (∀ p ∈ [(0, [['c'], ['3']]), (1, [['d']])], (p.2.length = 1 ∨ p.2.length = 2) ∧
        ∀ f ∈ p.2, f ≠ [] ∧ ∀ c ∈ f, c ≠ ' ' ∧ c ≠ '\t' ∧ c ≠ '|') ∧
      CreateFromString internCode scanDecimal (Phrase.empty : Phrase 2) [0]
        ("a b".toList ++ '\t' :: layoutText ['|'] [(0, [['c'], ['3']]), (1, [['d']])] 0)
        ['|'] =
        some (Phrase.mk
          [⟨[some (internCode ['a']), none], false, rfl⟩,
           ⟨[some (internCode ['b']), none], false, rfl⟩,
           ⟨[some (internCode ['c']), none], false, rfl⟩,
           ⟨[some (internCode ['d']), none], false, rfl⟩]
          [(['c'], 3), (['d'], 1)])) ∧
    ((Phrase.mk
          [⟨[some (internCode ['a']), none], false, rfl⟩,
           ⟨[some (internCode ['b']), none], false, rfl⟩,
           ⟨[some (internCode ['c']), none], false, rfl⟩,
           ⟨[some (internCode ['d']), none], false, rfl⟩]
          [(['c'], 3), (['d'], 1)] : Phrase 2).m_context =
        [(0, [['c'], ['3']]), (1, [['d']])].foldl
          (fun ctx p =>
            match p.2 with
            | [token0, token1] => contextInsert ctx token0 (scanDecimal token1)
            | [token0] => contextInsert ctx token0 1
            | _ => ctx)
          (Phrase.empty : Phrase 2).m_context ∧
      (Phrase.empty : Phrase 2).GetSize + (tokenizeAny "a b".toList [' ', '\t']).length ≤
        (Phrase.mk
          [⟨[some (internCode ['a']), none], false, rfl⟩,
           ⟨[some (internCode ['b']), none], false, rfl⟩,
           ⟨[some (internCode ['c']), none], false, rfl⟩,
           ⟨[some (internCode ['d']), none], false, rfl⟩]
          [(['c'], 3), (['d'], 1)] : Phrase 2).GetSize ∧
      (∀ j, j < (Phrase.empty : Phrase 2).GetSize →
        (Phrase.mk
          [⟨[some (internCode ['a']), none], false, rfl⟩,
           ⟨[some (internCode ['b']), none], false, rfl⟩,
           ⟨[some (internCode ['c']), none], false, rfl⟩,
           ⟨[some (internCode ['d']), none], false, rfl⟩]
          [(['c'], 3), (['d'], 1)] : Phrase 2).GetWord j =
          (Phrase.empty : Phrase 2).GetWord j) ∧
      (∀ (j i : Nat) (word f : Str) (dim : FactorType 2),
        (tokenizeAny "a b".toList [' ', '\t'])[j]? = some word →
        (tokenizeMulti word ['|'])[i]? = some f → ([0] : List (FactorType 2))[i]? = some dim →
        (∀ i', i < i' → ([0] : List (FactorType 2))[i']? ≠ some dim) →
        (Phrase.mk
          [⟨[some (internCode ['a']), none], false, rfl⟩,
           ⟨[some (internCode ['b']), none], false, rfl⟩,
           ⟨[some (internCode ['c']), none], false, rfl⟩,
           ⟨[some (internCode ['d']), none], false, rfl⟩]
          [(['c'], 3), (['d'], 1)] : Phrase 2).GetFactor
            ((Phrase.empty : Phrase 2).GetSize + j) dim = some (some (internCode f)))) :=
  ⟨⟨by decide, by decide, by decide, by decide, by decide, by decide⟩,
    C13_CreateFromString_sections internCode scanDecimal Phrase.empty _ [0] ['|']
      "a b".toList [(0, [['c'], ['3']]), (1, [['d']])] 0
      (by decide) (by decide) (by decide) (by decide) (by decide) (by decide)⟩

end Phrase

theorem internDecodeAux_internCode :
    ∀ (s : Str) (fuel : Nat), internCode s ≤ fuel →
      internDecodeAux fuel (internCode s) = s := by
  intro s
  induction s with
  | nil =>
    intro fuel _
    cases fuel <;> simp [internDecodeAux, internCode]
  | cons c cs ih =>
    intro fuel h
    have hc := char_toNat_lt c
    simp only [internCode] at h ⊢
    cases fuel with
    | zero => omega
    | succ fuel =>
      have hne : ¬ (c.toNat + 1 + 2097152 * internCode cs = 0) := by omega
      have hmod : (c.toNat + 1 + 2097152 * internCode cs) % 2097152 - 1 = c.toNat := by omega
      have hdiv : (c.toNat + 1 + 2097152 * internCode cs) / 2097152 = internCode cs := by
        omega
      simp only [internDecodeAux, hne, if_false, hmod, hdiv, Char.ofNat_toNat]
      rw [ih fuel (by omega)]

/-- The string of the identity that `internCode` gives a string is that string. -/
theorem internDecode_internCode (s : Str) : internDecode (internCode s) = s :=
  internDecodeAux_internCode s _ (Nat.le_refl _)

/-- A `filterMap` that finds at every entry of a list the entry of a second list at the
same index gives the second list. -/
theorem filterMap_eq_of_getElem {α β : Type} (g : α → Option β) :
    ∀ (l : List α) (fs : List β), l.length = fs.length →
      (∀ (i : Nat) (x : α) (y : β), l[i]? = some x → fs[i]? = some y → g x = some y) →
      l.filterMap g = fs := by
  intro l
  induction l with
  | nil =>
    intro fs hlen _
    cases fs with
    | nil => rfl
    | cons y ys => simp at hlen
  | cons x xs ih =>
    intro fs hlen h
    cases fs with
    | nil => simp at hlen
    | cons y ys =>
      simp only [List.length_cons, Nat.add_right_cancel_iff] at hlen
      have h0 : g x = some y := h 0 x y (by simp) (by simp)
      rw [List.filterMap_cons_some h0, ih ys hlen (fun i a b ha hb =>
        h (i + 1) a b (by simpa using ha) (by simpa using hb))]

namespace Phrase
variable {MAX_NUM_FACTORS : Nat}

theorem GetStringRep_loop
    (G : Word MAX_NUM_FACTORS → List (FactorType MAX_NUM_FACTORS) → Bool → Str)
    (dims : List (FactorType MAX_NUM_FACTORS)) (p : Phrase MAX_NUM_FACTORS) :
    ∀ (m k : Nat) (acc : Str) (ws : List (Word MAX_NUM_FACTORS)),
      p.m_words.drop k = ws → ws.length = m → k + m = p.GetSize →
      (List.range' k m).foldlM
        (fun strme pos =>
          (p.GetWord pos).map fun word => strme ++ G word dims (pos != p.GetSize - 1)) acc =
        some (acc ++ renderWords G dims ws) := by
  intro m
  induction m with
  | zero =>
    intro k acc ws _ hlen _
    have : ws = [] := List.length_eq_zero.mp hlen
    subst this
    simp [renderWords]
  | succ m ih =>
    intro k acc ws hws hlen hk
    cases ws with
    | nil => simp at hlen
    | cons w ws =>
      have hw : p.GetWord k = some w := by
        have := List.getElem?_drop p.m_words k 0
        rw [hws] at this
        simpa [GetWord] using this.symm
      have hws' : p.m_words.drop (k + 1) = ws := by
        have := congrArg (List.drop 1) hws
        simpa [List.drop_drop, Nat.add_comm] using this
      simp only [List.length_cons, Nat.add_right_cancel_iff] at hlen
      simp only [List.range'_succ, List.foldlM_cons, hw, Option.map_some',
        Option.bind_eq_bind, Option.some_bind]
      rw [ih (k + 1) _ ws hws' hlen (by omega)]
      cases ws with
      | nil =>
        simp only [List.length_nil] at hlen
        have hlast : (k != p.GetSize - 1) = false := by
          have : k = p.GetSize - 1 := by omega
          simp [this]
        simp [renderWords, hlast]
      | cons v ws =>
        simp only [List.length_cons] at hlen
        have hnot : (k != p.GetSize - 1) = true := by
          have : k ≠ p.GetSize - 1 := by omega
          simp [this]
        simp [renderWords, hnot]

/-- `GetStringRep` in closed form: it always returns, and what it returns is the
renderings of the words in order, every word but the last asked for a final blank. -/
theorem GetStringRep_eq
    (G : Word MAX_NUM_FACTORS → List (FactorType MAX_NUM_FACTORS) → Bool → Str)
    (dims : List (FactorType MAX_NUM_FACTORS)) (p : Phrase MAX_NUM_FACTORS) :
    p.GetStringRep G dims = some (renderWords G dims p.m_words) := by
  unfold GetStringRep
  rw [List.range_eq_range']
  have := GetStringRep_loop G dims p p.GetSize 0 [] p.m_words rfl rfl (by omega)
  simpa using this

end Phrase

namespace Word
variable {MAX_NUM_FACTORS : Nat}

/-- A word filled from as many factor strings as a duplicate-free order has entries
renders, over that order, as the factor strings joined by the delimiter. -/
theorem GetString_filled (AddFactor : Str → Factor) (factorString : Factor → Str)
    (hinv : ∀ s, factorString (AddFactor s) = s) (d : Str)
    (factorOrder : List (FactorType MAX_NUM_FACTORS)) (hnodup : factorOrder.Nodup)
    (fs : List Str) (hlen : fs.length = factorOrder.length) (endWithBlank : Bool) :
    Word.GetString factorString d
        ((factorOrder.zip fs).foldl (fun w p => w.SetFactor p.1 (AddFactor p.2)) Word.empty)
        factorOrder endWithBlank =
      joinFactors d fs ++ (if endWithBlank then [' '] else []) := by
  unfold Word.GetString
  congr 2
  apply filterMap_eq_of_getElem _ factorOrder fs hlen.symm
  intro i dim f hdim hf
  have hlast : ∀ i', i < i' → factorOrder[i']? ≠ some dim := by
    intro i' hi' hcon
    have hlt : i' < factorOrder.length := by
      by_contra hge
      rw [List.getElem?_eq_none (by omega)] at hcon
      cases hcon
    exact (List.nodup_iff_getElem?_ne_getElem?.mp hnodup i i' hi' hlt) (hdim.trans hcon.symm)
  rw [GetFactor_foldl_zip_last AddFactor dim factorOrder fs Word.empty i f hdim hf hlast]
  simp [hinv]

end Word

/-- The rendering of words filled from factor strings is the text of these words
separated by single spaces. -/
theorem renderWords_filled {MAX_NUM_FACTORS : Nat} (AddFactor : Str → Factor)
    (factorString : Factor → Str) (hinv : ∀ s, factorString (AddFactor s) = s) (d : Str)
    (factorOrder : List (FactorType MAX_NUM_FACTORS)) (hnodup : factorOrder.Nodup) :
    ∀ (rest : List (List Str)) (gs : List Str),
      (∀ fs ∈ gs :: rest, fs.length = factorOrder.length) →
      renderWords (Word.GetString factorString d) factorOrder
          ((gs :: rest).map fun fs =>
            (factorOrder.zip fs).foldl (fun w p => w.SetFactor p.1 (AddFactor p.2))
              Word.empty) =
        joinFactors d gs ++ layoutText d (rest.map fun fs => (1, fs)) 0 := by
  intro rest
  induction rest with
  | nil =>
    intro gs h
    simp only [List.map_cons, List.map_nil, renderWords, layoutText, spaces,
      List.replicate_zero]
    rw [Word.GetString_filled AddFactor factorString hinv d factorOrder hnodup gs
      (h gs (List.mem_cons_self _ _))]
    simp
  | cons hs rest ih =>
    intro gs h
    have ih' := ih hs (fun fs hfs => h fs (List.mem_cons_of_mem _ hfs))
    simp only [List.map_cons] at ih' ⊢
    simp only [renderWords, layoutText]
    rw [ih', Word.GetString_filled AddFactor factorString hinv d factorOrder hnodup gs
      (h gs (List.mem_cons_self _ _))]
    simp [spaces]

namespace Phrase
variable {MAX_NUM_FACTORS : Nat}

/-- C14, as stated, fails for a dimension order that names a dimension twice: the text
`a|b` parsed with the order `[0, 0]` and rendered over the same order gives `b|b`. -/
theorem C14_round_trip_repeated_dimension_counterexample :
    (∀ s, internDecode (internCode s) = s) ∧
    ∃ r, CreateFromString internCode scanDecimal (Phrase.empty : Phrase 2) [0, 0]
        "a|b".toList ['|'] = some r ∧
      r.GetStringRep (Word.GetString internDecode ['|']) [0, 0] = some "b|b".toList ∧
      r.GetStringRep (Word.GetString internDecode ['|']) [0, 0] ≠ some "a|b".toList :=
  ⟨internDecode_internCode,
    phraseOf [⟨[some (internCode ['b']), none], false, rfl⟩],
    by decide, by decide, by decide⟩

/-- C14, amended: `GetStringRep` always returns; it renders the words in order and asks
each word for a final blank exactly when it is not the last one, so the empty phrase
renders as the empty string. For a dimension order without a repeated dimension and a
tab-free text of words separated by single spaces, without a space at either end, each
word made of as many non-empty factor strings as the order has entries, parsing the text
with `CreateFromString` and rendering the result over the same order with the same
delimiter gives the text back. -/
theorem C14_CreateFromString_GetStringRep_round_trip
    (AddFactor : Str → Factor) (factorString : Factor → Str) (Scan : Str → Int)
    (factorOrder : List (FactorType MAX_NUM_FACTORS)) (d : Str) (fss : List (List Str))
    (hinv : ∀ s, factorString (AddFactor s) = s)
    (hd : d ≠ []) (hds : ' ' ∉ d) (hdt : '\t' ∉ d) (hnodup : factorOrder.Nodup)
    (hfss : ∀ fs ∈ fss, fs ≠ [] ∧ fs.length = factorOrder.length ∧
      ∀ f ∈ fs, f ≠ [] ∧ ∀ c ∈ f, c ≠ ' ' ∧ c ≠ '\t' ∧ c ∉ d) :
    (∀ (G : Word MAX_NUM_FACTORS → List (FactorType MAX_NUM_FACTORS) → Bool → Str)
        (dims : List (FactorType MAX_NUM_FACTORS)) (p : Phrase MAX_NUM_FACTORS),
      Phrase.empty.GetStringRep G dims = some [] ∧
      p.GetStringRep G dims = some (renderWords G dims p.m_words)) ∧
    ∃ r, CreateFromString AddFactor Scan (Phrase.empty : Phrase MAX_NUM_FACTORS) factorOrder
        (layoutText d (singleSpaced fss) 0) d = some r ∧
      r.GetSize = fss.length ∧
      r.GetStringRep (Word.GetString factorString d) factorOrder =
        some (layoutText d (singleSpaced fss) 0) := by
  refine ⟨fun G dims p => ⟨GetStringRep_eq G dims Phrase.empty, GetStringRep_eq G dims p⟩, ?_⟩
  cases fss with
  | nil =>
    refine ⟨Phrase.empty, rfl, rfl, ?_⟩
    rw [GetStringRep_eq]
    rfl
  | cons gs rest =>
    have hgs := hfss gs (List.mem_cons_self _ _)
    have hn : factorOrder ≠ [] := by
      intro e
      rw [e] at hgs
      exact hgs.1 (List.length_eq_zero.mp hgs.2.1)
    have hparse := CreateFromString_layoutText AddFactor Scan factorOrder d
      (singleSpaced (gs :: rest)) 0 hd hds hdt hn
      (by
        intro p hp
        simp only [singleSpaced, List.tail_cons, List.mem_map] at hp
        obtain ⟨fs, _, rfl⟩ := hp
        exact Nat.one_pos)
      (by
        intro p hp
        simp only [singleSpaced, List.mem_cons, List.mem_map] at hp
        rcases hp with rfl | ⟨fs, hfs, rfl⟩
        · exact ⟨hgs.2.1, hgs.2.2⟩
        · have := hfss fs (List.mem_cons_of_mem _ hfs)
          exact ⟨this.2.1, this.2.2⟩)
      Phrase.empty
    refine ⟨_, hparse, ?_, ?_⟩
    · simp [GetSize, Phrase.empty, singleSpaced]
    · rw [GetStringRep_eq]
      have hmap : (Phrase.empty : Phrase MAX_NUM_FACTORS).m_words ++
          (singleSpaced (gs :: rest)).map (fun p =>
            (factorOrder.zip p.2).foldl (fun w q => w.SetFactor q.1 (AddFactor q.2))
              Word.empty) =
          (gs :: rest).map fun fs =>
            (factorOrder.zip fs).foldl (fun w p => w.SetFactor p.1 (AddFactor p.2))
              Word.empty := by
        simp [Phrase.empty, singleSpaced, List.map_map, Function.comp]
      simp only [hmap]
      rw [renderWords_filled AddFactor factorString hinv d factorOrder hnodup rest gs
        (fun fs hfs => (hfss fs hfs).2.1)]
      simp [singleSpaced, layoutText, spaces]

/-- C14 amended, at the input of the specification: `the|DET cat|NN` with the order
`[0, 1]` and the delimiter `|`. -/
theorem C14_CreateFromString_GetStringRep_round_trip_witness :
    ((∀ s, internDecode (internCode s) = s) ∧
      ['|'] ≠ [] ∧ ' ' ∉ ['|'] ∧ '\t' ∉ ['|'] ∧ ([0, 1] : List (FactorType 2)).Nodup ∧
      (∀ fs ∈ [[['t', 'h', 'e'], ['D', 'E', 'T']], [['c', 'a', 't'], ['N', 'N']]],
        fs ≠ [] ∧ fs.length = ([0, 1] : List (FactorType 2)).length ∧
        ∀ f ∈ fs, f ≠ [] ∧ ∀ c ∈ f, c ≠ ' ' ∧ c ≠ '\t' ∧ c ∉ ['|'])) ∧
    layoutText ['|']
        (singleSpaced [[['t', 'h', 'e'], ['D', 'E', 'T']], [['c', 'a', 't'], ['N', 'N']]]) 0 =
      "the|DET cat|NN".toList ∧
    ((∀ (G : Word 2 → List (FactorType 2) → Bool → Str)
        (dims : List (FactorType 2)) (p : Phrase 2),
      Phrase.empty.GetStringRep G dims = some [] ∧
      p.GetStringRep G dims = some (renderWords G dims p.m_words)) ∧
    ∃ r, CreateFromString internCode scanDecimal (Phrase.empty : Phrase 2) [0, 1]
        (layoutText ['|']
          (singleSpaced [[['t', 'h', 'e'], ['D', 'E', 'T']], [['c', 'a', 't'], ['N', 'N']]]) 0)
        ['|'] = some r ∧
      r.GetSize = [[['t', 'h', 'e'], ['D', 'E', 'T']], [['c', 'a', 't'], ['N', 'N']]].length ∧
      r.GetStringRep (Word.GetString internDecode ['|']) [0, 1] =
        some (layoutText ['|']
          (singleSpaced [[['t', 'h', 'e'], ['D', 'E', 'T']], [['c', 'a', 't'], ['N', 'N']]])
          0)) :=
  ⟨⟨internDecode_internCode, by decide, by decide, by decide, by decide, by decide⟩,
    by decide,
    C14_CreateFromString_GetStringRep_round_trip internCode internDecode scanDecimal [0, 1]
      ['|'] [[['t', 'h', 'e'], ['D', 'E', 'T']], [['c', 'a', 't'], ['N', 'N']]]
      internDecode_internCode (by decide) (by decide) (by decide) (by decide) (by decide)⟩

end Phrase

namespace Phrase
variable {MAX_NUM_FACTORS : Nat}

/-- The shifting loop of `PrependWord` started at `pos = k` on the words `a` with one more
word at position `k`: with more fuel than `k` it leaves by its condition, and the words
`a` then stand at the positions `1, 2, ...`. -/
theorem prependShift_shifts (a : List (Word MAX_NUM_FACTORS)) :
    ∀ (k fuel : Nat) (x : Word MAX_NUM_FACTORS), k ≤ a.length → k < fuel →
      ∃ y, prependShift fuel k (a.take k ++ x :: a.drop k) = some (y :: a) := by
  intro k
  induction k with
  | zero =>
    intro fuel x _ hf
    cases fuel with
    | zero => omega
    | succ fuel => exact ⟨x, by simp [prependShift]⟩
  | succ k ih =>
    intro fuel x hk hf
    cases fuel with
    | zero => omega
    | succ fuel =>
      have hklt : k < a.length := hk
      have htake : a.take (k + 1) = a.take k ++ [a[k]] := by
        rw [List.take_succ, List.getElem?_eq_getElem hklt]
        rfl
      have hdrop : a.drop k = a[k] :: a.drop (k + 1) := List.drop_eq_getElem_cons hklt
      have hlen : (a.take k).length = k := by
        rw [List.length_take]
        omega
      have hprev : (a.take (k + 1) ++ x :: a.drop (k + 1))[k]? = some a[k] := by
        rw [htake, List.append_assoc, List.getElem?_append_right (by omega), hlen,
          Nat.sub_self]
        rfl
      have hpos : k + 1 < (a.take (k + 1) ++ x :: a.drop (k + 1)).length := by
        rw [List.length_append, List.length_take, List.length_cons]
        omega
      have hset : (a.take (k + 1) ++ x :: a.drop (k + 1)).set (k + 1) a[k] =
          a.take k ++ a[k] :: a.drop k := by
        have hl1 : (a.take (k + 1)).length = k + 1 := by
          rw [List.length_take]
          omega
        rw [List.set_append, hl1, if_neg (Nat.lt_irrefl _), Nat.sub_self, htake, hdrop]
        simp only [List.set_cons_zero, List.append_assoc, List.singleton_append]
      obtain ⟨y, hy⟩ := ih fuel a[k] (by omega) (by omega)
      refine ⟨y, ?_⟩
      rw [prependShift]
      simp only [ge_iff_le, Nat.le_add_left, if_true, Nat.add_sub_cancel, hprev,
        Option.some_bind, hpos, hset]
      exact hy

/-- `PrependWord` in closed form: it returns the phrase with the new word in front of the
words it had. -/
theorem PrependWord_eq (p : Phrase MAX_NUM_FACTORS) (newWord : Word MAX_NUM_FACTORS) :
    p.PrependWord newWord = some (Phrase.mk (newWord :: p.m_words) p.m_context) := by
  have hstart : (p.AddWord Word.empty).m_words =
      p.m_words.take p.m_words.length ++ Word.empty :: p.m_words.drop p.m_words.length := by
    simp [AddWord]
  have hsize : (p.AddWord Word.empty).GetSize = p.m_words.length + 1 := by
    simp [AddWord, GetSize]
  obtain ⟨y, hy⟩ := prependShift_shifts p.m_words p.m_words.length (p.m_words.length + 1)
    Word.empty (Nat.le_refl _) (Nat.lt_succ_self _)
  unfold PrependWord
  simp only [hsize, Nat.add_sub_cancel]
  rw [hstart, hy]
  simp [AddWord]

/-- C18: for every phrase `p` of `n` words, `n = 0` included, and every word `w`, the
shifting loop of `PrependWord` leaves by its condition and `p.PrependWord(w)` returns a
phrase of `n + 1` words, with `w` at position 0 and the former word of position `i` at
position `i + 1`. -/
theorem C18_PrependWord_shifts_right (p : Phrase MAX_NUM_FACTORS)
    (w : Word MAX_NUM_FACTORS) :
    ∃ r, p.PrependWord w = some r ∧ r.GetSize = p.GetSize + 1 ∧ r.GetWord 0 = some w ∧
      (∀ i, i < p.GetSize → r.GetWord (i + 1) = p.GetWord i) ∧
      (∀ i, i < p.GetSize → ∃ v, r.GetWord (i + 1) = some v ∧ p.GetWord i = some v) := by
  refine ⟨_, PrependWord_eq p w, ?_, ?_, ?_, ?_⟩
  · simp [GetSize]
  · simp [GetWord]
  · intro i _
    simp [GetWord]
  · intro i hi
    refine ⟨p.m_words[i], ?_, ?_⟩
    · simp [GetWord, List.getElem?_eq_getElem hi]
    · simp [GetWord, List.getElem?_eq_getElem hi]

end Phrase

theorem anyM_option {α : Type} (p : α → Option Bool) (q : α → Bool) :
    ∀ l : List α, (∀ x ∈ l, p x = some (q x)) → l.anyM p = some (l.any q) := by
  intro l
  induction l with
  | nil => intro _; rfl
  | cons x xs ih =>
    intro h
    have hx := h x (List.mem_cons_self _ _)
    have hxs := ih (fun y hy => h y (List.mem_cons_of_mem _ hy))
    simp only [List.anyM, hx, List.any_cons]
    cases hq : q x
    · simpa using hxs
    · rfl

namespace Phrase
variable {MAX_NUM_FACTORS : Nat}

/-- C19: for a phrase whose slots in the listed dimensions are all set and a sub-phrase
whose rows have a string for every listed dimension, `Contains` returns (no position
outside the phrase, no missing factor and no missing string is read), and it returns
`true` exactly when the sub-phrase is not longer than the phrase and there is a start
offset `s <= GetSize() - |sub|` at which, for every index `k` of a listed dimension and
every position `j` of the sub-phrase, the string of the factor of the phrase at position
`s + j` in dimension `dims[k]` is `sub[j][k]`. -/
theorem C19_Contains_iff (factorString : Factor → Str) (p : Phrase MAX_NUM_FACTORS)
    (sub : List (List Str)) (dims : List (FactorType MAX_NUM_FACTORS))
    (hset : ∀ (i : Nat) (d : FactorType MAX_NUM_FACTORS), i < p.GetSize → d ∈ dims →
      ∃ f, p.GetFactor i d = some (some f))
    (hrows : ∀ row ∈ sub, dims.length ≤ row.length) :
    ∃ b, p.Contains factorString sub dims = some b ∧
      (b = true ↔ sub.length ≤ p.GetSize ∧ ∃ s, s ≤ p.GetSize - sub.length ∧
        ∀ (k j : Nat) (d : FactorType MAX_NUM_FACTORS) (row : List Str) (str : Str)
          (f : Factor),
          dims[k]? = some d → sub[j]? = some row → row[k]? = some str →
          p.GetFactor (s + j) d = some (some f) → factorString f = str) := by
  by_cases hlen : sub.length > p.GetSize
  · refine ⟨false, by simp [Contains, hlen], ?_⟩
    simp only [Bool.false_eq_true, false_iff, not_and]
    intro h
    omega
  · have hle : sub.length ≤ p.GetSize := by omega
    -- the value of the innermost test at start `s`, factor index `k`, position `j`
    let q : Nat → Nat → Nat → Bool := fun s k j =>
      match dims[k]?, sub[j]? with
      | some d, some row =>
        (match row[k]?, p.GetFactor (j + s) d with
          | some str, some (some f) => !(str != factorString f)
          | _, _ => true)
      | _, _ => true
    have hinner : ∀ s, s ∈ List.range (p.GetSize - sub.length + 1) →
        ((List.range dims.length).allM fun currFactorIndex =>
          (dims[currFactorIndex]?).bind fun factorType =>
            (List.range sub.length).allM fun currSubPos =>
              (sub[currSubPos]?).bind fun row =>
                (row[currFactorIndex]?).bind fun subStr =>
                  (p.GetFactor (currSubPos + s) factorType).bind fun factor =>
                    factor.bind fun f => some (!(subStr != factorString f))) =
        some ((List.range dims.length).all fun k =>
          (List.range sub.length).all fun j => q s k j) := by
      intro s hs
      have hs' : s < p.GetSize - sub.length + 1 := List.mem_range.mp hs
      apply allM_option
      intro k hk
      have hk' : k < dims.length := List.mem_range.mp hk
      have hd : dims[k]? = some dims[k] := List.getElem?_eq_getElem hk'
      rw [hd, Option.some_bind]
      apply allM_option
      intro j hj
      have hj' : j < sub.length := List.mem_range.mp hj
      have hrow : sub[j]? = some sub[j] := List.getElem?_eq_getElem hj'
      have hkrow : k < (sub[j]).length :=
        Nat.lt_of_lt_of_le hk' (hrows _ (List.getElem_mem hj'))
      have hstr : (sub[j])[k]? = some (sub[j])[k] := List.getElem?_eq_getElem hkrow
      obtain ⟨f, hf⟩ := hset (j + s) dims[k] (by omega) (List.getElem_mem hk')
      simp only [hrow, hstr, hf, Option.some_bind, q, hd]
    refine ⟨(List.range (p.GetSize - sub.length + 1)).any fun s =>
        (List.range dims.length).all fun k => (List.range sub.length).all fun j => q s k j,
      ?_, ?_⟩
    · unfold Contains
      simp only [hlen, if_false]
      exact anyM_option _ _ _ hinner
    · simp only [List.any_eq_true, List.all_eq_true, List.mem_range]
      constructor
      · rintro ⟨s, hs, hall⟩
        refine ⟨hle, s, by omega, ?_⟩
        intro k j d row str f hd hrow hstr hf
        have hk : k < dims.length := lt_of_getElem?_eq_some hd
        have hj : j < sub.length := lt_of_getElem?_eq_some hrow
        have := hall k hk j hj
        have hf' : p.GetFactor (j + s) d = some (some f) := by
          rw [Nat.add_comm]
          exact hf
        simp only [q, hd, hrow, hstr, hf'] at this
        have hsf : str = factorString f := by simpa using this
        exact hsf.symm
      · rintro ⟨_, s, hs, hall⟩
        refine ⟨s, by omega, ?_⟩
        intro k hk j hj
        have hd : dims[k]? = some dims[k] := List.getElem?_eq_getElem hk
        have hrow : sub[j]? = some sub[j] := List.getElem?_eq_getElem hj
        have hkrow : k < (sub[j]).length :=
          Nat.lt_of_lt_of_le hk (hrows _ (List.getElem_mem hj))
        have hstr : (sub[j])[k]? = some (sub[j])[k] := List.getElem?_eq_getElem hkrow
        obtain ⟨f, hf⟩ := hset (j + s) dims[k] (by omega) (List.getElem_mem hk)
        have heq := hall k j dims[k] sub[j] (sub[j])[k] f hd hrow hstr (by
          rw [Nat.add_comm]
          exact hf)
        simp only [q, hd, hrow, hstr, hf]
        simp [heq]

/-- C19, at a concrete input: the phrase `the cat sat` over two factor types, the
dimension list `[0]` and the sub-phrase `cat sat`. -/
theorem C19_Contains_iff_witness :
    (∀ (i : Nat) (d : FactorType 2),
      i < (phraseOf [⟨[some (internCode "the".toList), none], false, rfl⟩,
          ⟨[some (internCode "cat".toList), none], false, rfl⟩,
          ⟨[some (internCode "sat".toList), none], false, rfl⟩] : Phrase 2).GetSize →
      d ∈ ([0] : List (FactorType 2)) →
      ∃ f, (phraseOf [⟨[some (internCode "the".toList), none], false, rfl⟩,
          ⟨[some (internCode "cat".toList), none], false, rfl⟩,
          ⟨[some (internCode "sat".toList), none], false, rfl⟩] : Phrase 2).GetFactor i d =
        some (some f)) ∧
    (∀ row ∈ [["cat".toList], ["sat".toList]],
      ([0] : List (FactorType 2)).length ≤ row.length) ∧
    (phraseOf [⟨[some (internCode "the".toList), none], false, rfl⟩,
          ⟨[some (internCode "cat".toList), none], false, rfl⟩,
          ⟨[some (internCode "sat".toList), none], false, rfl⟩] : Phrase 2).Contains
        internDecode [["cat".toList], ["sat".toList]] [0] = some true ∧
    ∃ b, (phraseOf [⟨[some (internCode "the".toList), none], false, rfl⟩,
          ⟨[some (internCode "cat".toList), none], false, rfl⟩,
          ⟨[some (internCode "sat".toList), none], false, rfl⟩] : Phrase 2).Contains
        internDecode [["cat".toList], ["sat".toList]] [0] = some b ∧
      (b = true ↔ [["cat".toList], ["sat".toList]].length ≤
          (phraseOf [⟨[some (internCode "the".toList), none], false, rfl⟩,
            ⟨[some (internCode "cat".toList), none], false, rfl⟩,
            ⟨[some (internCode "sat".toList), none], false, rfl⟩] : Phrase 2).GetSize ∧
        ∃ s, s ≤ (phraseOf [⟨[some (internCode "the".toList), none], false, rfl⟩,
            ⟨[some (internCode "cat".toList), none], false, rfl⟩,
            ⟨[some (internCode "sat".toList), none], false, rfl⟩] : Phrase 2).GetSize -
            [["cat".toList], ["sat".toList]].length ∧
          ∀ (k j : Nat) (d : FactorType 2) (row : List Str) (str : Str) (f : Factor),
            ([0] : List (FactorType 2))[k]? = some d →
            [["cat".toList], ["sat".toList]][j]? = some row → row[k]? = some str →
            (phraseOf [⟨[some (internCode "the".toList), none], false, rfl⟩,
              ⟨[some (internCode "cat".toList), none], false, rfl⟩,
              ⟨[some (internCode "sat".toList), none], false, rfl⟩] : Phrase 2).GetFactor
                (s + j) d = some (some f) →
            internDecode f = str) :=
  have h1 : ∀ (i : Nat) (d : FactorType 2),
      i < (phraseOf [⟨[some (internCode "the".toList), none], false, rfl⟩,
          ⟨[some (internCode "cat".toList), none], false, rfl⟩,
          ⟨[some (internCode "sat".toList), none], false, rfl⟩] : Phrase 2).GetSize →
      d ∈ ([0] : List (FactorType 2)) →
      ∃ f, (phraseOf [⟨[some (internCode "the".toList), none], false, rfl⟩,
          ⟨[some (internCode "cat".toList), none], false, rfl⟩,
          ⟨[some (internCode "sat".toList), none], false, rfl⟩] : Phrase 2).GetFactor i d =
        some (some f) := by
    intro i d hi hd
    have hd0 : d = 0 := by simpa using hd
    subst hd0
    have hi3 : i < 3 := hi
    have hcases : i = 0 ∨ i = 1 ∨ i = 2 := by omega
    rcases hcases with rfl | rfl | rfl
    · exact ⟨_, rfl⟩
    · exact ⟨_, rfl⟩
    · exact ⟨_, rfl⟩
  ⟨h1, by decide, by decide,
    C19_Contains_iff internDecode _ [["cat".toList], ["sat".toList]] [0] h1 (by decide)⟩

end Phrase

theorem findCharAux_cons (c x : Char) (xs : Str) (i : Nat) :
    findCharAux c (x :: xs) i = if x = c then some i else findCharAux c xs (i + 1) := rfl

/-- The first occurrence of a character after a stretch without it. -/
theorem findCharAux_append (c : Char) (post : Str) :
    ∀ (pre : Str) (i : Nat), c ∉ pre →
      findCharAux c (pre ++ c :: post) i = some (i + pre.length) := by
  intro pre
  induction pre with
  | nil => intro i _; simp [findCharAux]
  | cons x pre ih =>
    intro i h
    have hx : ¬ x = c := fun e => h (e ▸ List.mem_cons_self _ _)
    rw [List.cons_append, findCharAux_cons, if_neg hx,
      ih (i + 1) (fun hm => h (List.mem_cons_of_mem _ hm)), List.length_cons]
    congr 1
    omega

/-- Without the character there is no occurrence. -/
theorem findCharAux_none (c : Char) :
    ∀ (s : Str) (i : Nat), c ∉ s → findCharAux c s i = none := by
  intro s
  induction s with
  | nil => intro i _; rfl
  | cons x s ih =>
    intro i h
    have hx : ¬ x = c := fun e => h (e ▸ List.mem_cons_self _ _)
    rw [findCharAux_cons, if_neg hx]
    exact ih (i + 1) (fun hm => h (List.mem_cons_of_mem _ hm))

/-- A token is bracketed exactly when it is `[`, some text, `]`. -/
theorem isBracketed_iff (tok : Str) :
    isBracketed tok = true ↔ ∃ body, tok = '[' :: (body ++ [']']) := by
  constructor
  · intro h
    simp only [isBracketed, ge_iff_le, Bool.and_eq_true, decide_eq_true_eq, beq_iff_eq] at h
    obtain ⟨⟨hlen, hhead⟩, hlast⟩ := h
    obtain ⟨ys, hys⟩ := List.head?_eq_some_iff.mp hhead
    subst hys
    obtain ⟨zs, hzs⟩ := List.getLast?_eq_some_iff.mp hlast
    cases zs with
    | nil =>
      simp only [List.nil_append, List.cons.injEq] at hzs
      rw [hzs.2] at hlen
      simp at hlen
    | cons z zs =>
      simp only [List.cons_append, List.cons.injEq] at hzs
      exact ⟨zs, by rw [hzs.2]⟩
  · rintro ⟨body, rfl⟩
    have hlast : ('[' :: (body ++ [']'])).getLast? = some ']' := by
      have : '[' :: (body ++ [']']) = ('[' :: body) ++ [']'] := rfl
      rw [this, List.getLast?_concat]
    simp [isBracketed, hlast]

/-- The text between the outer brackets of a bracketed token. -/
theorem substr_body (body : Str) :
    StringPiece_substr ('[' :: (body ++ [']'])) 1 (('[' :: (body ++ [']'])).length - 2) =
      body := by
  simp [StringPiece_substr]

/-- A token that is not bracketed is handed on as it is, as a terminal. -/
theorem annotatedWordText_of_not_bracketed (direction : FactorDirection) (tok : Str)
    (h : isBracketed tok = false) : annotatedWordText direction tok = some (tok, false) := by
  simp [annotatedWordText, h]

/-- A bracketed token without a further `[` fails the `CHECK`. -/
theorem annotatedWordText_of_single_group (direction : FactorDirection) (body : Str)
    (h : '[' ∉ body) : annotatedWordText direction ('[' :: (body ++ [']'])) = none := by
  have hb : isBracketed ('[' :: (body ++ [']'])) = true := (isBracketed_iff _).mpr ⟨body, rfl⟩
  have hfind : StringPiece_find ('[' :: (body ++ [']'])) '[' 1 = none := by
    unfold StringPiece_find
    apply findCharAux_none
    simp only [List.drop_succ_cons, List.drop_zero, List.mem_append, List.mem_singleton]
    rintro (hm | hm)
    · exact h hm
    · exact absurd hm (by decide)
  simp [annotatedWordText, hb, hfind]

/-- The `size_t` value of `n + 2 - 2`. -/
theorem size_t_sub_two (n : Nat) (h : n < SIZE_T_RANGE) :
    (n + 2 + (SIZE_T_RANGE - 2)) % SIZE_T_RANGE = n := by
  have hr : SIZE_T_RANGE = 18446744073709551616 := by decide
  rw [hr] at h ⊢
  omega

/-- The `size_t` value of `n + 1 - 2` for a positive `n`. -/
theorem size_t_sub_two_succ (n : Nat) (hpos : 0 < n) (h : n < SIZE_T_RANGE) :
    (1 + n + (SIZE_T_RANGE - 2)) % SIZE_T_RANGE = n - 1 := by
  have hr : SIZE_T_RANGE = 18446744073709551616 := by decide
  rw [hr] at h ⊢
  omega

/-- A token of the adjacent form `[A][B]`: the text handed on is `A` for `Input` and `B`
otherwise, and the token is a non-terminal. -/
theorem annotatedWordText_adjacent (direction : FactorDirection) (A B : Str)
    (hA : '[' ∉ A) (hlen : A.length < SIZE_T_RANGE) :
    annotatedWordText direction ('[' :: (A ++ ']' :: '[' :: (B ++ [']']))) =
      some (if direction = FactorDirection.Input then A else B, true) := by
  have hb : isBracketed ('[' :: (A ++ ']' :: '[' :: (B ++ [']']))) = true :=
    (isBracketed_iff _).mpr ⟨A ++ ']' :: '[' :: B, by simp⟩
  have hfind : StringPiece_find ('[' :: (A ++ ']' :: '[' :: (B ++ [']']))) '[' 1 =
      some (A.length + 2) := by
    unfold StringPiece_find
    simp only [List.drop_succ_cons, List.drop_zero]
    have hsplit : A ++ ']' :: '[' :: (B ++ [']']) = (A ++ [']']) ++ '[' :: (B ++ [']']) := by
      simp
    rw [hsplit, findCharAux_append '[' _ (A ++ [']']) 1 (by
      simp only [List.mem_append, List.mem_singleton]
      rintro (hm | hm)
      · exact hA hm
      · exact absurd hm (by decide))]
    simp only [List.length_append, List.length_singleton]
    congr 1
    omega
  unfold annotatedWordText
  rw [if_pos hb, hfind]
  by_cases hdir : direction = FactorDirection.Input
  · simp only [hdir, if_true, size_t_sub_two A.length hlen, StringPiece_substr,
      List.drop_succ_cons, List.drop_zero]
    rw [List.take_left]
  · simp only [hdir, if_false, StringPiece_substr]
    have hdrop : List.drop (A.length + 2 + 1) ('[' :: (A ++ ']' :: '[' :: (B ++ [']']))) =
        B ++ [']'] := by
      have hsplit : '[' :: (A ++ ']' :: '[' :: (B ++ [']'])) =
          ('[' :: (A ++ [']', '['])) ++ (B ++ [']']) := by simp
      rw [hsplit]
      exact List.drop_left' (by simp)
    have hn : ('[' :: (A ++ ']' :: '[' :: (B ++ [']']))).length - (A.length + 2) - 2 =
        B.length := by
      simp only [List.length_cons, List.length_append, List.length_singleton,
        List.length_nil]
      omega
    rw [hdrop, hn, List.take_left]

/-- A token of the nested form `[in[out]]`: the text handed on is `in` without its last
character for `Input`, and `out` followed by `]` otherwise. -/
theorem annotatedWordText_nested (direction : FactorDirection) (I O : Str)
    (hI : '[' ∉ I) (hne : I ≠ []) (hlen : I.length < SIZE_T_RANGE) :
    annotatedWordText direction ('[' :: (I ++ '[' :: (O ++ [']', ']']))) =
      some (if direction = FactorDirection.Input then I.dropLast else O ++ [']'], true) := by
  have hb : isBracketed ('[' :: (I ++ '[' :: (O ++ [']', ']']))) = true :=
    (isBracketed_iff _).mpr ⟨I ++ '[' :: (O ++ [']']), by simp⟩
  have hfind : StringPiece_find ('[' :: (I ++ '[' :: (O ++ [']', ']']))) '[' 1 =
      some (1 + I.length) := by
    unfold StringPiece_find
    simp only [List.drop_succ_cons, List.drop_zero]
    exact findCharAux_append '[' _ I 1 hI
  have hpos : 0 < I.length := List.length_pos.mpr hne
  unfold annotatedWordText
  rw [if_pos hb, hfind]
  by_cases hdir : direction = FactorDirection.Input
  · simp only [hdir, if_true, size_t_sub_two_succ I.length hpos hlen, StringPiece_substr,
      List.drop_succ_cons, List.drop_zero]
    rw [List.take_append_of_le_length (by omega), List.dropLast_eq_take]
  · simp only [hdir, if_false, StringPiece_substr]
    have hdrop : List.drop (1 + I.length + 1) ('[' :: (I ++ '[' :: (O ++ [']', ']']))) =
        (O ++ [']']) ++ [']'] := by
      have hsplit : '[' :: (I ++ '[' :: (O ++ [']', ']'])) =
          ('[' :: (I ++ ['['])) ++ ((O ++ [']']) ++ [']']) := by simp
      rw [hsplit]
      exact List.drop_left' (by simp; omega)
    have hn : ('[' :: (I ++ '[' :: (O ++ [']', ']']))).length - (1 + I.length) - 2 =
        (O ++ [']']).length := by
      simp only [List.length_cons, List.length_append, List.length_singleton,
        List.length_nil]
      omega
    rw [hdrop, hn, List.take_left]

namespace Phrase
variable {MAX_NUM_FACTORS : Nat}

/-- A loop that appends one word per token, each word built by a step that can fail: when
the loop returns, every token gave a word, and the words stand, in order, after the words
the phrase had. -/
theorem foldlM_AddWord_some (g : Str → Option (Word MAX_NUM_FACTORS))
    (f : Phrase MAX_NUM_FACTORS → Str → Option (Phrase MAX_NUM_FACTORS))
    (hf : ∀ acc x, f acc x = (g x).map fun word => acc.AddWord word) :
    ∀ (l : List Str) (init r : Phrase MAX_NUM_FACTORS),
      l.foldlM f init = some r →
      r.m_context = init.m_context ∧ r.GetSize = init.GetSize + l.length ∧
      (∀ j, j < init.GetSize → r.GetWord j = init.GetWord j) ∧
      ∀ (j : Nat) (x : Str), l[j]? = some x →
        ∃ w, g x = some w ∧ r.GetWord (init.GetSize + j) = some w := by
  intro l
  induction l with
  | nil =>
    intro init r h
    simp only [List.foldlM_nil, Option.pure_def, Option.some.injEq] at h
    subst h
    exact ⟨rfl, rfl, fun _ _ => rfl, fun j x hx => by simp at hx⟩
  | cons y l ih =>
    intro init r h
    simp only [List.foldlM_cons, Option.bind_eq_bind, hf] at h
    cases hy : g y with
    | none => simp [hy] at h
    | some w =>
      simp only [hy, Option.map_some', Option.some_bind] at h
      obtain ⟨hc, hs, hold, hnew⟩ := ih _ r h
      have hsz : (init.AddWord w).GetSize = init.GetSize + 1 := by simp [AddWord, GetSize]
      refine ⟨hc, ?_, ?_, ?_⟩
      · rw [hs, hsz, List.length_cons]
        omega
      · intro j hj
        rw [hold j (by omega)]
        simp only [GetWord, AddWord]
        exact List.getElem?_append_left hj
      · intro j x hx
        cases j with
        | zero =>
          simp only [List.getElem?_cons_zero, Option.some.injEq] at hx
          subst hx
          refine ⟨w, hy, ?_⟩
          rw [Nat.add_zero, hold init.GetSize (by omega)]
          simp [GetWord, AddWord, GetSize]
        | succ j =>
          simp only [List.getElem?_cons_succ] at hx
          obtain ⟨v, hv, hget⟩ := hnew j x hx
          refine ⟨v, hv, ?_⟩
          rw [hsz] at hget
          rw [← hget]
          congr 1
          omega

/-- What a returning `CreateFromStringNewFormat` has done: there is a last token, it is
bracketed and gave `lhs`, a non-terminal; every token before it gave one new word, built
by `Word::CreateFromString` from the text and the flag of `annotatedWordText`. -/
theorem CreateFromStringNewFormat_eq_some
    (wcfs : Word MAX_NUM_FACTORS → FactorDirection → List (FactorType MAX_NUM_FACTORS) →
      Str → Bool → Option (Word MAX_NUM_FACTORS))
    (self r : Phrase MAX_NUM_FACTORS) (direction : FactorDirection)
    (factorOrder : List (FactorType MAX_NUM_FACTORS)) (phraseString : Str)
    (lhs newLhs : Word MAX_NUM_FACTORS)
    (h : CreateFromStringNewFormat wcfs self direction factorOrder phraseString lhs =
      some (r, newLhs)) :
    (∃ back, (tokenizeAny phraseString ['\t', ' ']).getLast? = some back ∧
      isBracketed back = true ∧
      wcfs lhs direction factorOrder (StringPiece_substr back 1 (back.length - 2)) true =
        some newLhs) ∧
    newLhs.IsNonTerminal = true ∧
    r.m_context = self.m_context ∧
    r.GetSize = self.GetSize + ((tokenizeAny phraseString ['\t', ' ']).length - 1) ∧
    (∀ j, j < self.GetSize → r.GetWord j = self.GetWord j) ∧
    ∀ (j : Nat) (tok : Str), j + 1 < (tokenizeAny phraseString ['\t', ' ']).length →
      (tokenizeAny phraseString ['\t', ' '])[j]? = some tok →
      ∃ args w, annotatedWordText direction tok = some args ∧
        wcfs Word.empty direction factorOrder args.1 args.2 = some w ∧
        r.GetWord (self.GetSize + j) = some w := by
  unfold CreateFromStringNewFormat at h
  generalize tokenizeAny phraseString ['\t', ' '] = toks at h ⊢
  cases hlast : toks.getLast? with
  | none => simp [hlast] at h
  | some back =>
    simp only [hlast] at h
    have hbody : ∀ (acc : Phrase MAX_NUM_FACTORS) (x : Str),
        ((annotatedWordText direction x).bind fun args =>
          (wcfs Word.empty direction factorOrder args.1 args.2).map fun word =>
            acc.AddWord word) =
        (((annotatedWordText direction x).bind fun args =>
          wcfs Word.empty direction factorOrder args.1 args.2).map fun word =>
            acc.AddWord word) := by
      intro acc x
      cases annotatedWordText direction x <;> rfl
    cases hfold : toks.dropLast.foldlM
        (fun acc annotatedWord =>
          (annotatedWordText direction annotatedWord).bind fun args =>
            (wcfs Word.empty direction factorOrder args.1 args.2).map
              fun word => acc.AddWord word) self with
    | none => simp [hfold] at h
    | some filled =>
      simp only [hfold, Option.some_bind] at h
      by_cases hb : isBracketed back = true
      · simp only [hb, if_true] at h
        cases hl : wcfs lhs direction factorOrder
            (StringPiece_substr back 1 (back.length - 2)) true with
        | none => simp [hl] at h
        | some l' =>
          simp only [hl, Option.some_bind] at h
          by_cases hnt : l'.IsNonTerminal = true
          · simp only [hnt, if_true, Option.some.injEq, Prod.mk.injEq] at h
            obtain ⟨h1, h2⟩ := h
            subst h1
            subst h2
            obtain ⟨hc, hs, hold, hnew⟩ := foldlM_AddWord_some
              (fun x => (annotatedWordText direction x).bind fun args =>
                wcfs Word.empty direction factorOrder args.1 args.2) _ hbody _ _ _ hfold
            refine ⟨⟨back, rfl, hb, hl⟩, hnt, hc, ?_, hold, ?_⟩
            · rw [hs, List.length_dropLast]
            · intro j tok hj htok
              have hdl : toks.dropLast[j]? = some tok := by
                rw [List.getElem?_dropLast, if_pos (by omega), htok]
              obtain ⟨w, hw, hget⟩ := hnew j tok hdl
              cases hargs : annotatedWordText direction tok with
              | none => simp [hargs] at hw
              | some args =>
                simp only [hargs, Option.some_bind] at hw
                exact ⟨args, w, rfl, hw, hget⟩
          · simp [hnt] at h
      · simp [hb] at h

/-- A token before the last one on which the loop body fails makes
`CreateFromStringNewFormat` fail. -/
theorem CreateFromStringNewFormat_none_of_token
    (wcfs : Word MAX_NUM_FACTORS → FactorDirection → List (FactorType MAX_NUM_FACTORS) →
      Str → Bool → Option (Word MAX_NUM_FACTORS))
    (self : Phrase MAX_NUM_FACTORS) (direction : FactorDirection)
    (factorOrder : List (FactorType MAX_NUM_FACTORS)) (phraseString : Str)
    (lhs : Word MAX_NUM_FACTORS) (j : Nat) (tok : Str)
    (hj : j + 1 < (tokenizeAny phraseString ['\t', ' ']).length)
    (htok : (tokenizeAny phraseString ['\t', ' '])[j]? = some tok)
    (hfail : annotatedWordText direction tok = none) :
    CreateFromStringNewFormat wcfs self direction factorOrder phraseString lhs = none := by
  cases hres : CreateFromStringNewFormat wcfs self direction factorOrder phraseString lhs with
  | none => rfl
  | some res =>
    obtain ⟨r, newLhs⟩ := res
    obtain ⟨_, _, _, _, _, hnew⟩ := CreateFromStringNewFormat_eq_some wcfs self r direction
      factorOrder phraseString lhs newLhs hres
    obtain ⟨args, _, hargs, _⟩ := hnew j tok hj htok
    rw [hfail] at hargs
    cases hargs

end Phrase

namespace Phrase
variable {MAX_NUM_FACTORS : Nat}

/-- C15: when `CreateFromStringNewFormat` returns on a text of `k` tokens, `k >= 1`, the
phrase has received exactly `k - 1` words, one per token before the last, in text order,
each built by `Word::CreateFromString` from the text and the flag found for the token;
the last token is `[`, a text, `]`, and `lhs` is built from that text with the
non-terminal flag and is a non-terminal. When the last token is not bracketed (shorter than
2 characters, or not starting with `[` and ending with `]`), the parse fails. -/
theorem C15_CreateFromStringNewFormat_words_and_lhs
    (wcfs : Word MAX_NUM_FACTORS → FactorDirection → List (FactorType MAX_NUM_FACTORS) →
      Str → Bool → Option (Word MAX_NUM_FACTORS))
    (self : Phrase MAX_NUM_FACTORS) (direction : FactorDirection)
    (factorOrder : List (FactorType MAX_NUM_FACTORS)) (phraseString : Str)
    (lhs : Word MAX_NUM_FACTORS) :
    (∀ (r : Phrase MAX_NUM_FACTORS) (newLhs : Word MAX_NUM_FACTORS),
      CreateFromStringNewFormat wcfs self direction factorOrder phraseString lhs =
        some (r, newLhs) →
      1 ≤ (tokenizeAny phraseString ['\t', ' ']).length ∧
      r.GetSize = self.GetSize + ((tokenizeAny phraseString ['\t', ' ']).length - 1) ∧
      (∀ j, j < self.GetSize → r.GetWord j = self.GetWord j) ∧
      (∀ (j : Nat) (tok : Str), j + 1 < (tokenizeAny phraseString ['\t', ' ']).length →
        (tokenizeAny phraseString ['\t', ' '])[j]? = some tok →
        ∃ args w, annotatedWordText direction tok = some args ∧
          wcfs Word.empty direction factorOrder args.1 args.2 = some w ∧
          r.GetWord (self.GetSize + j) = some w) ∧
      (∃ body, (tokenizeAny phraseString ['\t', ' ']).getLast? = some ('[' :: (body ++ [']'])) ∧
        wcfs lhs direction factorOrder body true = some newLhs) ∧
      newLhs.IsNonTerminal = true) ∧
    (∀ back, (tokenizeAny phraseString ['\t', ' ']).getLast? = some back →
      (back.length < 2 ∨ back.head? ≠ some '[' ∨ back.getLast? ≠ some ']') →
      CreateFromStringNewFormat wcfs self direction factorOrder phraseString lhs = none) := by
  constructor
  · intro r newLhs h
    obtain ⟨⟨back, hlast, hb, hl⟩, hnt, _, hs, hold, hnew⟩ :=
      CreateFromStringNewFormat_eq_some wcfs self r direction factorOrder phraseString lhs
        newLhs h
    obtain ⟨body, hbody⟩ := (isBracketed_iff back).mp hb
    subst hbody
    rw [substr_body] at hl
    refine ⟨?_, hs, hold, hnew, ⟨body, hlast, hl⟩, hnt⟩
    cases htoks : tokenizeAny phraseString ['\t', ' '] with
    | nil => simp [htoks] at hlast
    | cons x xs => simp
  · intro back hlast hnot
    cases hres : CreateFromStringNewFormat wcfs self direction factorOrder phraseString lhs with
    | none => rfl
    | some res =>
      obtain ⟨r, newLhs⟩ := res
      obtain ⟨⟨back', hlast', hb, _⟩, _⟩ :=
        CreateFromStringNewFormat_eq_some wcfs self r direction factorOrder phraseString lhs
          newLhs hres
      rw [hlast] at hlast'
      cases hlast'
      simp only [isBracketed, ge_iff_le, Bool.and_eq_true, decide_eq_true_eq,
        beq_iff_eq] at hb
      rcases hnot with h1 | h1 | h1
      · omega
      · exact absurd hb.1.2 h1
      · exact absurd hb.2 h1

/-- C15, at a concrete input: `house [X][NP] tax [S]` read for `Input` with
`Word.CreateFromString` over one factor type: two words and the left-hand side `S`. -/
theorem C15_CreateFromStringNewFormat_words_and_lhs_witness :
    CreateFromStringNewFormat (Word.CreateFromString internCode ['|'])
        (Phrase.empty : Phrase 1) FactorDirection.Input [0]
        "house [X][NP] tax [S]".toList Word.empty =
      some (phraseOf [⟨[some (internCode "house".toList)], false, rfl⟩,
          ⟨[some (internCode "X".toList)], true, rfl⟩,
          ⟨[some (internCode "tax".toList)], false, rfl⟩],
        ⟨[some (internCode "S".toList)], true, rfl⟩) ∧
    (1 ≤ (tokenizeAny "house [X][NP] tax [S]".toList ['\t', ' ']).length ∧
      (phraseOf [⟨[some (internCode "house".toList)], false, rfl⟩,
          ⟨[some (internCode "X".toList)], true, rfl⟩,
          ⟨[some (internCode "tax".toList)], false, rfl⟩] : Phrase 1).GetSize =
        (Phrase.empty : Phrase 1).GetSize +
          ((tokenizeAny "house [X][NP] tax [S]".toList ['\t', ' ']).length - 1) ∧
      (∀ j, j < (Phrase.empty : Phrase 1).GetSize →
        (phraseOf [⟨[some (internCode "house".toList)], false, rfl⟩,
          ⟨[some (internCode "X".toList)], true, rfl⟩,
          ⟨[some (internCode "tax".toList)], false, rfl⟩] : Phrase 1).GetWord j =
          (Phrase.empty : Phrase 1).GetWord j) ∧
      (∀ (j : Nat) (tok : Str),
        j + 1 < (tokenizeAny "house [X][NP] tax [S]".toList ['\t', ' ']).length →
        (tokenizeAny "house [X][NP] tax [S]".toList ['\t', ' '])[j]? = some tok →
        ∃ args w, annotatedWordText FactorDirection.Input tok = some args ∧
          Word.CreateFromString internCode ['|'] (Word.empty : Word 1) FactorDirection.Input [0]
            args.1 args.2 = some w ∧
          (phraseOf [⟨[some (internCode "house".toList)], false, rfl⟩,
            ⟨[some (internCode "X".toList)], true, rfl⟩,
            ⟨[some (internCode "tax".toList)], false, rfl⟩] : Phrase 1).GetWord
              ((Phrase.empty : Phrase 1).GetSize + j) = some w) ∧
      (∃ body, (tokenizeAny "house [X][NP] tax [S]".toList ['\t', ' ']).getLast? =
          some ('[' :: (body ++ [']'])) ∧
        Word.CreateFromString internCode ['|'] (Word.empty : Word 1) FactorDirection.Input [0] body
          true = some ⟨[some (internCode "S".toList)], true, rfl⟩) ∧
      (⟨[some (internCode "S".toList)], true, rfl⟩ : Word 1).IsNonTerminal = true) :=
  ⟨by decide,
    (C15_CreateFromStringNewFormat_words_and_lhs (Word.CreateFromString internCode ['|'])
      (Phrase.empty : Phrase 1) FactorDirection.Input [0] "house [X][NP] tax [S]".toList
      Word.empty).1 _ _ (by decide)⟩

/-- C16, as stated, fails: the token `[NP]` before the last token of
`house [NP] tax [NN] [NP]` is bracketed and holds no further `[`, so the `CHECK` of line 220
fails and the text does not parse. -/
theorem C16_CreateFromStringNewFormat_single_group_counterexample :
    tokenizeAny "house [NP] tax [NN] [NP]".toList ['\t', ' '] =
      ["house".toList, "[NP]".toList, "tax".toList, "[NN]".toList, "[NP]".toList] ∧
    annotatedWordText FactorDirection.Input "[NP]".toList = none ∧
    CreateFromStringNewFormat (Word.CreateFromString internCode ['|'])
        (Phrase.empty : Phrase 1) FactorDirection.Input [0]
        "house [NP] tax [NN] [NP]".toList Word.empty = none := by
  decide

/-- C16, amended: a token before the last one is treated as a non-terminal exactly when it
is bracketed (at least two characters, the first `[`, the last `]`); a token that is not
bracketed is handed on unchanged as a terminal; a bracketed token without a further `[`
after position 0, such as `[NP]`, fails the `CHECK`, and a text with such a token before
its last token does not parse. -/
theorem C16_CreateFromStringNewFormat_bracketed_tokens
    (wcfs : Word MAX_NUM_FACTORS → FactorDirection → List (FactorType MAX_NUM_FACTORS) →
      Str → Bool → Option (Word MAX_NUM_FACTORS))
    (self : Phrase MAX_NUM_FACTORS) (direction : FactorDirection)
    (factorOrder : List (FactorType MAX_NUM_FACTORS)) (phraseString : Str)
    (lhs : Word MAX_NUM_FACTORS) :
    (∀ tok, isBracketed tok = false → annotatedWordText direction tok = some (tok, false)) ∧
    (∀ tok args, annotatedWordText direction tok = some args →
      (args.2 = true ↔ isBracketed tok = true)) ∧
    (∀ body, '[' ∉ body → annotatedWordText direction ('[' :: (body ++ [']'])) = none) ∧
    (∀ (j : Nat) (body : Str),
      j + 1 < (tokenizeAny phraseString ['\t', ' ']).length →
      (tokenizeAny phraseString ['\t', ' '])[j]? = some ('[' :: (body ++ [']'])) →
      '[' ∉ body →
      CreateFromStringNewFormat wcfs self direction factorOrder phraseString lhs = none) := by
  refine ⟨fun tok h => annotatedWordText_of_not_bracketed direction tok h, ?_,
    fun body h => annotatedWordText_of_single_group direction body h, ?_⟩
  · intro tok args h
    by_cases hb : isBracketed tok = true
    · simp only [hb, iff_true]
      unfold annotatedWordText at h
      rw [if_pos hb] at h
      cases hfind : StringPiece_find tok '[' 1 with
      | none => simp [hfind] at h
      | some nextPos =>
        simp only [hfind] at h
        by_cases hdir : direction = FactorDirection.Input
        · simp only [hdir, if_true, Option.some.injEq] at h
          rw [← h]
        · simp only [hdir, if_false, Option.some.injEq] at h
          rw [← h]
    · have hb' : isBracketed tok = false := by simpa using hb
      rw [annotatedWordText_of_not_bracketed direction tok hb'] at h
      simp only [Option.some.injEq] at h
      rw [← h]
      simp [hb']
  · intro j body hj htok hbody
    exact CreateFromStringNewFormat_none_of_token wcfs self direction factorOrder
      phraseString lhs j _ hj htok (annotatedWordText_of_single_group direction body hbody)

end Phrase

namespace Phrase
variable {MAX_NUM_FACTORS : Nat}

/-- C17, as stated, fails: for the token `[in[out]]` the text handed to
`Word::CreateFromString` is `i` for `Input`, not `in`, and `out]` for `Output`, not `out`;
in `[in[out]] [S]` read for `Input` the word gets the factor `i`. -/
theorem C17_CreateFromStringNewFormat_nested_counterexample :
    annotatedWordText FactorDirection.Input "[in[out]]".toList = some ("i".toList, true) ∧
    annotatedWordText FactorDirection.Output "[in[out]]".toList =
      some ("out]".toList, true) ∧
    CreateFromStringNewFormat (Word.CreateFromString internCode ['|'])
        (Phrase.empty : Phrase 1) FactorDirection.Input [0]
        "[in[out]] [S]".toList Word.empty =
      some (phraseOf [⟨[some (internCode "i".toList)], true, rfl⟩],
        ⟨[some (internCode "S".toList)], true, rfl⟩) ∧
    internCode "i".toList ≠ internCode "in".toList := by
  decide

/-- C17, amended: for a token of the nested form `[in[out]]` before the last token (`in`
non-empty and without `[`), `CreateFromStringNewFormat` splits at the first `[` after
position 0 and hands to `Word::CreateFromString`, with the non-terminal flag, the text `in`
without its last character when the direction is `Input` and the text `out` followed by
`]` when it is `Output`; the word built from it is the new word of the phrase for that
token. -/
theorem C17_CreateFromStringNewFormat_nested
    (wcfs : Word MAX_NUM_FACTORS → FactorDirection → List (FactorType MAX_NUM_FACTORS) →
      Str → Bool → Option (Word MAX_NUM_FACTORS))
    (self r : Phrase MAX_NUM_FACTORS) (direction : FactorDirection)
    (factorOrder : List (FactorType MAX_NUM_FACTORS)) (phraseString : Str)
    (lhs newLhs : Word MAX_NUM_FACTORS) (j : Nat) (I O : Str)
    (hI : '[' ∉ I) (hne : I ≠ []) (hlen : I.length < SIZE_T_RANGE)
    (hj : j + 1 < (tokenizeAny phraseString ['\t', ' ']).length)
    (htok : (tokenizeAny phraseString ['\t', ' '])[j]? =
      some ('[' :: (I ++ '[' :: (O ++ [']', ']']))))
    (hret : CreateFromStringNewFormat wcfs self direction factorOrder phraseString lhs =
      some (r, newLhs)) :
    annotatedWordText direction ('[' :: (I ++ '[' :: (O ++ [']', ']']))) =
      some (if direction = FactorDirection.Input then I.dropLast else O ++ [']'], true) ∧
    ∃ w, wcfs Word.empty direction factorOrder
        (if direction = FactorDirection.Input then I.dropLast else O ++ [']']) true = some w ∧
      r.GetWord (self.GetSize + j) = some w := by
  have htext := annotatedWordText_nested direction I O hI hne hlen
  refine ⟨htext, ?_⟩
  obtain ⟨_, _, _, _, _, hnew⟩ := CreateFromStringNewFormat_eq_some wcfs self r direction
    factorOrder phraseString lhs newLhs hret
  obtain ⟨args, w, hargs, hw, hget⟩ := hnew j _ hj htok
  rw [htext] at hargs
  cases hargs
  exact ⟨w, hw, hget⟩

/-- C17 amended, at a concrete input: `[in[out]] [S]` read for `Output`. -/
theorem C17_CreateFromStringNewFormat_nested_witness :
    ('[' ∉ "in".toList ∧ "in".toList ≠ [] ∧ "in".toList.length < SIZE_T_RANGE ∧
      0 + 1 < (tokenizeAny "[in[out]] [S]".toList ['\t', ' ']).length ∧
      (tokenizeAny "[in[out]] [S]".toList ['\t', ' '])[0]? =
        some ('[' :: ("in".toList ++ '[' :: ("out".toList ++ [']', ']']))) ∧
      CreateFromStringNewFormat (Word.CreateFromString internCode ['|'])
          (Phrase.empty : Phrase 1) FactorDirection.Output [0]
          "[in[out]] [S]".toList Word.empty =
        some (phraseOf [⟨[some (internCode "out]".toList)], true, rfl⟩],
          ⟨[some (internCode "S".toList)], true, rfl⟩)) ∧
    (annotatedWordText FactorDirection.Output
        ('[' :: ("in".toList ++ '[' :: ("out".toList ++ [']', ']']))) =
      some (if FactorDirection.Output = FactorDirection.Input then "in".toList.dropLast
        else "out".toList ++ [']'], true) ∧
    ∃ w, Word.CreateFromString internCode ['|'] (Word.empty : Word 1) FactorDirection.Output
        [0] (if FactorDirection.Output = FactorDirection.Input then "in".toList.dropLast
          else "out".toList ++ [']']) true = some w ∧
      (phraseOf [⟨[some (internCode "out]".toList)], true, rfl⟩] : Phrase 1).GetWord
        ((Phrase.empty : Phrase 1).GetSize + 0) = some w) :=
  ⟨⟨by decide, by decide, by decide, by decide, by decide, by decide⟩,
    C17_CreateFromStringNewFormat_nested (Word.CreateFromString internCode ['|'])
      (Phrase.empty : Phrase 1) (phraseOf [⟨[some (internCode "out]".toList)], true, rfl⟩])
      FactorDirection.Output [0] "[in[out]] [S]".toList
      Word.empty ⟨[some (internCode "S".toList)], true, rfl⟩ 0 "in".toList "out".toList
      (by decide) (by decide) (by decide) (by decide) (by decide) (by decide)⟩

/-- C20: for a token of the adjacent form `[A][B]` before the last token (`A` without
`[`), `CreateFromStringNewFormat` hands to `Word::CreateFromString`, with the non-terminal
flag set, exactly the text `A` when the direction is `Input` and exactly the text `B` when
it is `Output`; the word built from it is the new word of the phrase for that token. -/
theorem C20_CreateFromStringNewFormat_adjacent
    (wcfs : Word MAX_NUM_FACTORS → FactorDirection → List (FactorType MAX_NUM_FACTORS) →
      Str → Bool → Option (Word MAX_NUM_FACTORS))
    (self r : Phrase MAX_NUM_FACTORS) (direction : FactorDirection)
    (factorOrder : List (FactorType MAX_NUM_FACTORS)) (phraseString : Str)
    (lhs newLhs : Word MAX_NUM_FACTORS) (j : Nat) (A B : Str)
    (hA : '[' ∉ A) (hlen : A.length < SIZE_T_RANGE)
    (hj : j + 1 < (tokenizeAny phraseString ['\t', ' ']).length)
    (htok : (tokenizeAny phraseString ['\t', ' '])[j]? =
      some ('[' :: (A ++ ']' :: '[' :: (B ++ [']']))))
    (hret : CreateFromStringNewFormat wcfs self direction factorOrder phraseString lhs =
      some (r, newLhs)) :
    annotatedWordText direction ('[' :: (A ++ ']' :: '[' :: (B ++ [']']))) =
      some (if direction = FactorDirection.Input then A else B, true) ∧
    ∃ w, wcfs Word.empty direction factorOrder
        (if direction = FactorDirection.Input then A else B) true = some w ∧
      r.GetWord (self.GetSize + j) = some w := by
  have htext := annotatedWordText_adjacent direction A B hA hlen
  refine ⟨htext, ?_⟩
  obtain ⟨_, _, _, _, _, hnew⟩ := CreateFromStringNewFormat_eq_some wcfs self r direction
    factorOrder phraseString lhs newLhs hret
  obtain ⟨args, w, hargs, hw, hget⟩ := hnew j _ hj htok
  rw [htext] at hargs
  cases hargs
  exact ⟨w, hw, hget⟩

/-- C20, at a concrete input: `house [X][NP] [S]` read for `Output`: the second word is the
non-terminal built from `NP`. -/
theorem C20_CreateFromStringNewFormat_adjacent_witness :
    ('[' ∉ "X".toList ∧ "X".toList.length < SIZE_T_RANGE ∧
      1 + 1 < (tokenizeAny "house [X][NP] [S]".toList ['\t', ' ']).length ∧
      (tokenizeAny "house [X][NP] [S]".toList ['\t', ' '])[1]? =
        some ('[' :: ("X".toList ++ ']' :: '[' :: ("NP".toList ++ [']']))) ∧
      CreateFromStringNewFormat (Word.CreateFromString internCode ['|'])
          (Phrase.empty : Phrase 1) FactorDirection.Output [0]
          "house [X][NP] [S]".toList Word.empty =
        some (phraseOf [⟨[some (internCode "house".toList)], false, rfl⟩,
            ⟨[some (internCode "NP".toList)], true, rfl⟩],
          ⟨[some (internCode "S".toList)], true, rfl⟩)) ∧
    (annotatedWordText FactorDirection.Output
        ('[' :: ("X".toList ++ ']' :: '[' :: ("NP".toList ++ [']']))) =
      some (if FactorDirection.Output = FactorDirection.Input then "X".toList
        else "NP".toList, true) ∧
    ∃ w, Word.CreateFromString internCode ['|'] (Word.empty : Word 1) FactorDirection.Output
        [0] (if FactorDirection.Output = FactorDirection.Input then "X".toList
          else "NP".toList) true = some w ∧
      (phraseOf [⟨[some (internCode "house".toList)], false, rfl⟩,
          ⟨[some (internCode "NP".toList)], true, rfl⟩] : Phrase 1).GetWord
        ((Phrase.empty : Phrase 1).GetSize + 1) = some w) :=
  ⟨⟨by decide, by decide, by decide, by decide, by decide⟩,
    C20_CreateFromStringNewFormat_adjacent (Word.CreateFromString internCode ['|'])
      (Phrase.empty : Phrase 1)
      (phraseOf [⟨[some (internCode "house".toList)], false, rfl⟩,
        ⟨[some (internCode "NP".toList)], true, rfl⟩])
      FactorDirection.Output [0] "house [X][NP] [S]".toList
      Word.empty ⟨[some (internCode "S".toList)], true, rfl⟩ 1 "X".toList "NP".toList
      (by decide) (by decide) (by decide) (by decide) (by decide)⟩

end Phrase

end Moses
